import Mathlib

/-!
ArenaAllocators: the relocating General Allocator, the Stack Allocator and the Pool Allocator

A shallow embedding of `src/ArenaAllocators/GeneralAllocator.h`; the embeddings of
`StackAllocator.h` and `PoolAllocator.h` follow it, with their own conventions.

* Addresses (`uint8_t*`) are natural numbers; `0` is `nullptr`.
* `size_t` arithmetic is arithmetic modulo `2^64` (`mulSizeT`, `addSizeT`, `subSizeT`).
* `std::vector<GeneralAllocatorChunk>` is a `List`; iterators are indices.
* `std::map<uint8_t*, IMemoryHandleBase*>` is an association list kept in ascending key
  order; a pointer to a handle record is the index of the record in `m_handles`.
* The template parameter `T` is represented by `ElemType` (`sizeof(T)` and whether `T`
  satisfies the `MoveConstructible` concept), objects by their bytes in the arena.
* A `throw` is an `Except.error` returned together with the state the allocator is left in.
-/

namespace ArenaAllocators

/-! ## Machine integers -/

/-- Number of values of a 64-bit `size_t`. -/
abbrev SIZE_MOD : Nat := 18446744073709551616

/-- Multiplication of two `size_t` values. -/
def mulSizeT (a b : Nat) : Nat := (a * b) % SIZE_MOD

/-- Addition of two `size_t` values. -/
def addSizeT (a b : Nat) : Nat := (a + b) % SIZE_MOD

/-- Subtraction of two `size_t` values. -/
def subSizeT (a b : Nat) : Nat := (a % SIZE_MOD + SIZE_MOD - b % SIZE_MOD) % SIZE_MOD

/-! ## Data model -/

/-- The three error kinds of the General Allocator. In the source all of them are
`std::runtime_error`: "Out of memory", "Out of memory handles", and
"Dereferencing nullptr in MemoryHandle" / "Invalid handle address". -/
inductive AllocError where
  | OutOfMemory
  | OutOfHandles
  | InvalidHandle
  deriving DecidableEq, Repr

deriving instance DecidableEq for Except

/-- What the code uses of the template parameter `T`. -/
structure ElemType where
  /-- The value of `sizeof(T)`. -/
  sizeofT : Nat
  /-- Whether `MoveConstructible<T>` holds. -/
  moveConstructible : Bool
  deriving DecidableEq, Repr

/-- The record `MemoryHandle<T>` (the back reference `m_allocator` is left out: there is one
allocator). -/
structure MemoryHandle where
  m_address : Nat
  m_size : Nat
  T : ElemType
  deriving DecidableEq, Repr

/-- The record `new MemoryHandle<int>(*this)` of the constructor: null address, size 0. -/
instance : Inhabited MemoryHandle := ⟨⟨0, 0, ⟨4, true⟩⟩⟩

/-- Source: `MemoryHandle::getAddress`. -/
def MemoryHandle.getAddress (h : MemoryHandle) : Nat := h.m_address

/-- Source: `MemoryHandle::getTotalSize`. -/
def MemoryHandle.getTotalSize (h : MemoryHandle) : Nat := h.m_size

/-- Source: `MemoryHandle::objectSize`. -/
def MemoryHandle.objectSize (h : MemoryHandle) : Nat := h.T.sizeofT

/-- Source: `MemoryHandle::getObjectAmount`, `m_size / sizeof(T)`. -/
def MemoryHandle.getObjectAmount (h : MemoryHandle) : Nat := h.m_size / h.T.sizeofT

/-- Source: `MemoryHandle::updateAddress`. -/
def MemoryHandle.updateAddress (h : MemoryHandle) (new_address : Nat) : MemoryHandle :=
  { h with m_address := new_address }

/-- Source: `GeneralAllocator::GeneralAllocatorChunk`, a free chunk `(pChunk, size)`. -/
structure GeneralAllocatorChunk where
  pChunk : Nat
  size : Nat
  deriving DecidableEq, Repr

/-- Source: `GeneralAllocatorChunk::isAdjacent`. -/
def GeneralAllocatorChunk.isAdjacent (c other : GeneralAllocatorChunk) : Bool :=
  c.pChunk + c.size == other.pChunk || other.pChunk + other.size == c.pChunk

/-- The handle table `std::map<uint8_t*, IMemoryHandleBase*>`: entries `(key, record index)`
in ascending key order. -/
abbrev HandleTable := List (Nat × Nat)

/-- Source: `std::map::contains`. -/
def mapContains (t : HandleTable) (k : Nat) : Bool := t.any (fun e => e.1 == k)

/-- Source: `std::map::find`, the record stored under key `k`. -/
def mapFind (t : HandleTable) (k : Nat) : Option Nat :=
  match t with
  | [] => none
  | e :: rest => if e.1 = k then some e.2 else mapFind rest k

/-- Source: `std::map::erase(key)`. -/
def mapErase (t : HandleTable) (k : Nat) : HandleTable := t.filter (fun e => e.1 != k)

/-- Source: `m_handleTable[k] = v`: overwrite the entry of `k`, or insert it at its place in
key order. -/
def mapAssign (t : HandleTable) (k v : Nat) : HandleTable :=
  match t with
  | [] => [(k, v)]
  | e :: rest =>
    if k < e.1 then (k, v) :: e :: rest
    else if k = e.1 then (k, v) :: rest
    else e :: mapAssign rest k v

/-- The iterator after the entry of key `k` (`it++`): the least key greater than `k`. -/
def mapNext (t : HandleTable) (k : Nat) : Option Nat :=
  match t with
  | [] => none
  | e :: rest => if k < e.1 then some e.1 else mapNext rest k

/-- The state of a `GeneralAllocator`. `memory` holds the bytes of the address space (the
arena is `[m_pMemory, m_pMemory + m_size)`). -/
structure GeneralAllocator where
  m_pMemory : Nat
  m_size : Nat
  m_chunks : List GeneralAllocatorChunk
  m_handleTable : HandleTable
  m_handleCount : Nat
  m_handles : List MemoryHandle
  memory : Nat → Nat

namespace GeneralAllocator

/-- Source: the constructor `GeneralAllocator(size)`; `base` is the address returned by
`new uint8_t[size]` and `memory` the bytes found there. -/
def create (base size : Nat) (memory : Nat → Nat) : GeneralAllocator :=
  { m_pMemory := base
    m_size := size
    m_chunks := [⟨base, size⟩]
    m_handleTable := []
    m_handleCount := 0
    m_handles := List.replicate 100 default
    memory := memory }

/-- The record behind the pointer `m_handles[idx]`. -/
def handleAt (s : GeneralAllocator) (idx : Nat) : MemoryHandle := s.m_handles.getD idx default

/-- Source: `GeneralAllocator::isHandleValid`. -/
def isHandleValid (s : GeneralAllocator) (handle : MemoryHandle) : Bool :=
  mapContains s.m_handleTable handle.getAddress

/-- Source: `GeneralAllocator::getAvailableMemory`. -/
def getAvailableMemory (s : GeneralAllocator) : Nat :=
  s.m_chunks.foldl (fun availableMemory chunk => addSizeT availableMemory chunk.size) 0

/-! ## Handle dereference -/

/-- Source: `MemoryHandle::operator->`: the pointer, or the exception when the address is
null or `isHandleValid` fails. -/
def arrow (s : GeneralAllocator) (h : MemoryHandle) : Except AllocError Nat :=
  if h.m_address = 0 ∨ s.isHandleValid h = false then .error .InvalidHandle
  else .ok h.m_address

/-- The bytes of the object of type `T` at address `p`. -/
def readObject (memory : Nat → Nat) (p sizeofT : Nat) : List Nat :=
  (List.range sizeofT).map (fun j => memory (p + j))

/-- Source: `MemoryHandle::operator*`. -/
def star (s : GeneralAllocator) (h : MemoryHandle) : Except AllocError (List Nat) :=
  if h.m_address = 0 ∨ s.isHandleValid h = false then .error .InvalidHandle
  else .ok (readObject s.memory h.m_address h.T.sizeofT)

/-- Source: `MemoryHandle::operator[]`. -/
def index (s : GeneralAllocator) (h : MemoryHandle) (i : Nat) :
    Except AllocError (List Nat) :=
  if h.m_address = 0 ∨ s.isHandleValid h = false then .error .InvalidHandle
  else .ok (readObject s.memory (h.m_address + i * h.T.sizeofT) h.T.sizeofT)

/-! ## allocate -/

/-- Placement new of one object at address `p`; `ctor j` is byte `j` of `T(args...)`. -/
def placeObject (memory : Nat → Nat) (p sizeofT : Nat) (ctor : Nat → Nat) : Nat → Nat :=
  fun a => if p ≤ a ∧ a < p + sizeofT then ctor (a - p) else memory a

/-- The construction loop of `allocate`: `new (data + i) T(args...)` for `i < amount`. -/
def constructObjects (memory : Nat → Nat) (data sizeofT amount : Nat) (ctor : Nat → Nat) :
    Nat → Nat :=
  (List.range amount).foldl (fun m i => placeObject m (data + i * sizeofT) sizeofT ctor) memory

/-- The range-for loop of `allocate` up to the `return`: the first chunk with
`size >= requestedSize` is shrunk in place. The result is the old start of that chunk
(`data`), the chunk after shrinking, and the chunk list. -/
def carveFirstFit (requestedSize : Nat) :
    List GeneralAllocatorChunk → Option (Nat × GeneralAllocatorChunk × List GeneralAllocatorChunk)
  | [] => none
  | chunk :: rest =>
    if requestedSize ≤ chunk.size then
      some (chunk.pChunk, ⟨chunk.pChunk + requestedSize, chunk.size - requestedSize⟩,
        ⟨chunk.pChunk + requestedSize, chunk.size - requestedSize⟩ :: rest)
    else
      match carveFirstFit requestedSize rest with
      | none => none
      | some (data, shrunk, rest') => some (data, shrunk, chunk :: rest')

/-- Source: `GeneralAllocator::registerHandle`. The result is the index of the record
handed out. -/
def registerHandle (s : GeneralAllocator) (T : ElemType) (data size : Nat) :
    Except AllocError Nat × GeneralAllocator :=
  if s.m_handleCount ≥ s.m_handles.length then (.error .OutOfHandles, s)
  else
    (.ok s.m_handleCount,
      { s with
        m_handles := s.m_handles.set s.m_handleCount ⟨data, size, T⟩
        m_handleTable := mapAssign s.m_handleTable data s.m_handleCount
        m_handleCount := s.m_handleCount + 1 })

/-- Source: `GeneralAllocator::allocate<T>(amount, args...)`. `std::erase(m_chunks, chunk)`
removes every element that compares equal (`operator==`: same `pChunk` and `size`) to the
emptied chunk. In the code `chunk` is a reference into the vector, so once the emptied chunk
has been removed the later elements are compared with the element that has moved into its
place; this is the same list whenever no other chunk equals the emptied one, as in a free
list that is strictly sorted by address. -/
def allocate (s : GeneralAllocator) (T : ElemType) (amount : Nat) (ctor : Nat → Nat) :
    Except AllocError Nat × GeneralAllocator :=
  let requestedSize := mulSizeT amount T.sizeofT
  match carveFirstFit requestedSize s.m_chunks with
  | none => (.error .OutOfMemory, s)
  | some (data, shrunk, chunks) =>
    registerHandle
      { s with
        m_chunks := if shrunk.size = 0 then chunks.filter (fun c => c != shrunk) else chunks
        memory := constructObjects s.memory data T.sizeofT amount ctor }
      T data requestedSize

/-! ## deallocate -/

/-- Source: `std::ranges::lower_bound(m_chunks, freeChunk)` under `operator<=>` (by
`pChunk`): the first position whose chunk is not below `freeChunk`. This is the position
that the binary search of the library finds for a list that is partitioned with respect to
`freeChunk`, as a free list sorted by address is. -/
def lowerBound (chunks : List GeneralAllocatorChunk) (freeChunk : GeneralAllocatorChunk) : Nat :=
  match chunks with
  | [] => 0
  | chunk :: rest => if chunk.pChunk < freeChunk.pChunk then lowerBound rest freeChunk + 1 else 0

/-- The first `if` of the merge in `deallocate`: the chunk list and `merged` after it. -/
def mergeLeft (chunks : List GeneralAllocatorChunk) (freeChunk : GeneralAllocatorChunk)
    (leftChunk : Option Nat) : List GeneralAllocatorChunk × Bool :=
  match leftChunk with
  | none => (chunks, false)
  | some l =>
    let left := chunks.getD l ⟨0, 0⟩
    if left.isAdjacent freeChunk then
      (chunks.set l { left with size := addSizeT left.size freeChunk.size }, true)
    else (chunks, false)

/-- The second `if` of the merge in `deallocate`. -/
def mergeRight (chunks : List GeneralAllocatorChunk) (merged : Bool)
    (freeChunk : GeneralAllocatorChunk) (leftChunk rightChunk : Option Nat) :
    List GeneralAllocatorChunk × Bool :=
  match rightChunk with
  | none => (chunks, merged)
  | some r =>
    let right := chunks.getD r ⟨0, 0⟩
    if freeChunk.isAdjacent right then
      if merged then
        match leftChunk with
        | none => (chunks.eraseIdx r, true)
        | some l =>
          let left := chunks.getD l ⟨0, 0⟩
          ((chunks.set l { left with size := addSizeT left.size right.size }).eraseIdx r, true)
      else
        (chunks.set r ⟨freeChunk.pChunk, addSizeT right.size freeChunk.size⟩, true)
    else (chunks, merged)

/-- Source: `GeneralAllocator::deallocate<T>(handle)`; `handle` is the by-value copy of the
caller's handle. The first test is `handle.operator->()`. -/
def deallocate (s : GeneralAllocator) (handle : MemoryHandle) :
    Except AllocError Unit × GeneralAllocator :=
  if handle.m_address = 0 ∨ s.isHandleValid handle = false then (.error .InvalidHandle, s)
  else
    let amount := handle.getObjectAmount
    let freeChunk : GeneralAllocatorChunk := ⟨handle.m_address, mulSizeT amount handle.T.sizeofT⟩
    let insertPosition := lowerBound s.m_chunks freeChunk
    let leftChunk : Option Nat := if insertPosition ≠ 0 then some (insertPosition - 1) else none
    let rightChunk : Option Nat :=
      if insertPosition ≠ s.m_chunks.length then some insertPosition else none
    let afterLeft := mergeLeft s.m_chunks freeChunk leftChunk
    let afterRight := mergeRight afterLeft.1 afterLeft.2 freeChunk leftChunk rightChunk
    if mapContains s.m_handleTable handle.getAddress = false then
      (.error .InvalidHandle, { s with m_chunks := afterRight.1 })
    else
      (.ok (),
        { s with
          m_chunks :=
            if afterRight.2 = false then afterRight.1.insertIdx insertPosition freeChunk
            else afterRight.1
          m_handleTable := mapErase s.m_handleTable handle.getAddress })

/-! ## defragment -/

/-- An overlap-safe copy of `n` bytes from `src` to `dst` (`memmove`, and the move of one
object). -/
def moveBytes (memory : Nat → Nat) (dst src n : Nat) : Nat → Nat :=
  fun a => if dst ≤ a ∧ a < dst + n then memory (src + (a - dst)) else memory a

/-- Source: `MemoryHandle::relocateHandle`. For a move-constructible `T` the objects are
moved one by one in ascending order and `m_address` is set; otherwise `memmove`. The move of
one object, `new (dst) T(std::move(*ptr)); ptr->~T();`, is the copy of its bytes; that is
what the code does when the object at `dst` does not overlap the object at `ptr`, i.e. when
the block moves by at least `sizeof(T)`. The language does not define the result of
constructing an object over its own source, and the statements about the contents of moved
blocks are restricted to `MovesApart`. -/
def relocateHandle (memory : Nat → Nat) (h : MemoryHandle) (new_address : Nat) :
    (Nat → Nat) × MemoryHandle :=
  if h.T.moveConstructible then
    ((List.range h.getObjectAmount).foldl
        (fun m i =>
          moveBytes m (new_address + i * h.T.sizeofT) (h.m_address + i * h.T.sizeofT) h.T.sizeofT)
        memory,
      { h with m_address := new_address })
  else (moveBytes memory new_address h.m_address h.m_size, h)

/-- The state of the first loop of `defragment`. -/
structure DefragState where
  pCurrentMemoryPosition : Nat
  handles : List MemoryHandle
  memory : Nat → Nat

/-- The first loop of `defragment`, over the entries of the handle table in key order. -/
def defragLoop : HandleTable → DefragState → DefragState
  | [], st => st
  | e :: rest, st =>
    let h := st.handles.getD e.2 default
    if h.getAddress = st.pCurrentMemoryPosition then
      defragLoop rest { st with pCurrentMemoryPosition := st.pCurrentMemoryPosition + h.getTotalSize }
    else
      let moved := relocateHandle st.memory h st.pCurrentMemoryPosition
      let h' := moved.2.updateAddress st.pCurrentMemoryPosition
      defragLoop rest
        { pCurrentMemoryPosition := st.pCurrentMemoryPosition + h'.getTotalSize
          handles := st.handles.set e.2 h'
          memory := moved.1 }

/-- The loop of `updateHandleTableAddresses`; `it` is the key the iterator points at
(`none` is `end()`), `fuel` bounds the number of iterations. -/
def updateLoop (handles : List MemoryHandle) : Nat → HandleTable → Option Nat → HandleTable
  | 0, t, _ => t
  | _ + 1, t, none => t
  | fuel + 1, t, some k =>
    match mapFind t k with
    | none => t
    | some idx =>
      let address := (handles.getD idx default).getAddress
      if k ≠ address then
        updateLoop handles fuel (mapAssign (mapErase t k) address idx) (mapNext t k)
      else updateLoop handles fuel t (mapNext t k)

/-- Source: `GeneralAllocator::updateHandleTableAddresses`. Every iteration moves the
iterator to a greater key, and the keys met are keys of the table at entry or addresses
assigned to them, so `2 * size + 1` iterations are enough. -/
def updateHandleTableAddresses (s : GeneralAllocator) : GeneralAllocator :=
  { s with
    m_handleTable :=
      updateLoop s.m_handles (2 * s.m_handleTable.length + 1) s.m_handleTable
        (s.m_handleTable.head?.map Prod.fst) }

/-- Source: `GeneralAllocator::defragment`. -/
def defragment (s : GeneralAllocator) : GeneralAllocator :=
  let st := defragLoop s.m_handleTable ⟨s.m_pMemory, s.m_handles, s.memory⟩
  let remainingSize := subSizeT s.m_size (st.pCurrentMemoryPosition - s.m_pMemory)
  updateHandleTableAddresses
    { s with
      m_chunks := [⟨st.pCurrentMemoryPosition, remainingSize⟩]
      m_handles := st.handles
      memory := st.memory }

/-! ## Call sequences -/

/-- One call of the public interface. `deallocate handle` passes the handle reference that
`allocate` returned, i.e. the record `m_handles[handle]` as it is at the time of the call. -/
inductive Call where
  | allocate (T : ElemType) (amount : Nat) (ctor : Nat → Nat)
  | deallocate (handle : Nat)
  | defragment

/-- The allocator after one call (an exception leaves the state reached when it is thrown). -/
def step (s : GeneralAllocator) : Call → GeneralAllocator
  | .allocate T amount ctor => (s.allocate T amount ctor).2
  | .deallocate handle => (s.deallocate (s.handleAt handle)).2
  | .defragment => s.defragment

/-- The allocator after a sequence of calls. -/
def run (s : GeneralAllocator) : List Call → GeneralAllocator
  | [] => s
  | c :: rest => run (s.step c) rest

/-! ## Properties of states -/

/-- Whether byte `x` lies in `[pChunk, pChunk + size)`. -/
def covers (c : GeneralAllocatorChunk) (x : Nat) : Bool :=
  decide (c.pChunk ≤ x ∧ x < c.pChunk + c.size)

/-- The block of a handle table entry: `[address, address + total_size)` of its handle. -/
def blockOf (s : GeneralAllocator) (e : Nat × Nat) : GeneralAllocatorChunk :=
  ⟨(s.handleAt e.2).getAddress, (s.handleAt e.2).getTotalSize⟩

/-- The live blocks, in the order of the handle table. -/
def liveBlocks (s : GeneralAllocator) : List GeneralAllocatorChunk :=
  s.m_handleTable.map s.blockOf

/-- The number of live blocks and free chunks that contain byte `x`. -/
def coverCount (s : GeneralAllocator) (x : Nat) : Nat :=
  s.liveBlocks.countP (fun b => covers b x) + s.m_chunks.countP (fun c => covers c x)

/-- The tiling invariant: every byte of the arena lies in exactly one live block or free
chunk, and no block or chunk contains a byte outside the arena. -/
def Tiling (s : GeneralAllocator) : Prop :=
  ∀ x, s.coverCount x = if s.m_pMemory ≤ x ∧ x < s.m_pMemory + s.m_size then 1 else 0

/-- The chunk `c` ends strictly below the start of `d`. -/
def ChunkGap (c d : GeneralAllocatorChunk) : Prop := c.pChunk + c.size < d.pChunk

instance (c d : GeneralAllocatorChunk) : Decidable (ChunkGap c d) :=
  inferInstanceAs (Decidable (c.pChunk + c.size < d.pChunk))

instance : IsTrans GeneralAllocatorChunk ChunkGap :=
  ⟨fun a b c h1 h2 => by unfold ChunkGap at *; omega⟩

/-- The free list invariant check: walking the list left to right, each chunk ends strictly
below the start of the next one. -/
def coalescedCheck : List GeneralAllocatorChunk → Bool
  | c :: d :: rest => decide (ChunkGap c d) && coalescedCheck (d :: rest)
  | _ => true

/-- The coalescing invariant: consecutive chunks of the free list are strictly ordered by
address with at least one byte between them. -/
def Coalesced (chunks : List GeneralAllocatorChunk) : Prop := coalescedCheck chunks = true

instance (chunks : List GeneralAllocatorChunk) : Decidable (Coalesced chunks) :=
  inferInstanceAs (Decidable (coalescedCheck chunks = true))

/-- The sum of the sizes of the free chunks, as a natural number. -/
def totalFree (chunks : List GeneralAllocatorChunk) : Nat := (chunks.map (fun c => c.size)).sum

/-- The handle `m_handles[idx]` is live: the handle table maps its address to it. -/
def Live (s : GeneralAllocator) (idx : Nat) : Prop :=
  mapFind s.m_handleTable (s.handleAt idx).getAddress = some idx

/-- The bytes read through a handle: byte `j` of its block. -/
def contents (s : GeneralAllocator) (idx : Nat) (j : Nat) : Nat :=
  s.memory ((s.handleAt idx).getAddress + j)

/-- Free-list insertion with coalescing, following the words of the specification: a
predecessor chunk that ends at the start of the freed range `f` is extended (and also
absorbs a successor that starts at the end of `f`), a successor that starts at the end of
`f` is grown downwards, and otherwise `f` is inserted at its place in address order. -/
def coalescedInsert : List GeneralAllocatorChunk → GeneralAllocatorChunk → List GeneralAllocatorChunk
  | [], f => [f]
  | c :: rest, f =>
    if c.pChunk + c.size = f.pChunk then
      match rest with
      | [] => [⟨c.pChunk, c.size + f.size⟩]
      | r :: rest' =>
        if f.pChunk + f.size = r.pChunk then ⟨c.pChunk, c.size + f.size + r.size⟩ :: rest'
        else ⟨c.pChunk, c.size + f.size⟩ :: r :: rest'
    else if f.pChunk + f.size = c.pChunk then ⟨f.pChunk, c.size + f.size⟩ :: rest
    else if f.pChunk < c.pChunk then f :: c :: rest
    else c :: coalescedInsert rest f

/-- A chunk of the list after the insertion of `f` that was not in the list before: it
contains `f`, starts at the start of `f` or of a chunk that ended at `f`, and ends at the end
of `f` or of a chunk that started at the end of `f`. -/
def Fused (l : List GeneralAllocatorChunk) (f d : GeneralAllocatorChunk) : Prop :=
  (d.pChunk = f.pChunk ∨ ∃ c ∈ l, c.pChunk = d.pChunk ∧ c.pChunk + c.size = f.pChunk) ∧
    (d.pChunk + d.size = f.pChunk + f.size ∨
      ∃ r ∈ l, r.pChunk + r.size = d.pChunk + d.size ∧ r.pChunk = f.pChunk + f.size) ∧
    d.pChunk ≤ f.pChunk ∧ f.size ≤ d.size

/-- The chunk list that `deallocate` leaves for the freed range `freeChunk` (the steps of
`deallocate` that touch `m_chunks`, for a handle that passes both validity tests). -/
def releaseChunk (chunks : List GeneralAllocatorChunk) (freeChunk : GeneralAllocatorChunk) :
    List GeneralAllocatorChunk :=
  let insertPosition := lowerBound chunks freeChunk
  let leftChunk : Option Nat := if insertPosition ≠ 0 then some (insertPosition - 1) else none
  let rightChunk : Option Nat :=
    if insertPosition ≠ chunks.length then some insertPosition else none
  let afterLeft := mergeLeft chunks freeChunk leftChunk
  let afterRight := mergeRight afterLeft.1 afterLeft.2 freeChunk leftChunk rightChunk
  if afterRight.2 = false then afterRight.1.insertIdx insertPosition freeChunk
  else afterRight.1

/-! ## Scenario states -/

/-- The element type of the scenarios: `sizeof = 64`, move-constructible. -/
def Elem64 : ElemType := ⟨64, true⟩

/-- An element type of one byte. -/
def Elem1 : ElemType := ⟨1, true⟩

/-- A fresh arena of 1024 bytes at address 4096, zero-filled. -/
def arena1024 : GeneralAllocator := create 4096 1024 (fun _ => 0)

/-- Blocks A, B, C, D of 64 bytes are allocated in that order (records 0, 1, 2, 3). -/
def scenarioABCD : GeneralAllocator :=
  run arena1024
    [.allocate Elem64 1 (fun j => 1 + j), .allocate Elem64 1 (fun j => 2 + j),
     .allocate Elem64 1 (fun j => 3 + j), .allocate Elem64 1 (fun j => 4 + j)]

/-- Scenario S2: after A, B, C, D, the blocks B and then C are deallocated. -/
def scenarioS2 : GeneralAllocator := run scenarioABCD [.deallocate 1, .deallocate 2]

/-- Scenario S3: S2 followed by `defragment`. -/
def scenarioS3 : GeneralAllocator := scenarioS2.defragment

/-- A fresh arena of 1024 bytes after 100 successful allocations of one byte. -/
def exhausted : GeneralAllocator :=
  run arena1024 (List.replicate 100 (.allocate Elem1 1 (fun _ => 0)))

/-- Scenario S4: after A, B, C, D, the block B is deallocated; the free list is
`(64, 64)` and the high-end chunk, as offsets from the base. -/
def scenarioS4 : GeneralAllocator := run scenarioABCD [.deallocate 1]

/-- A state whose free list holds a chunk of 64 bytes followed by an empty chunk that starts
where the first one ends. -/
def emptyNeighbour : GeneralAllocator :=
  { arena1024 with m_chunks := [⟨4096, 64⟩, ⟨4160, 0⟩] }

/-! ## The invariant of a well-used allocator -/

/-- The structural invariant behind tiling and coalescing. The free chunks are ranges of the
arena with gaps between them, an empty chunk only at the end of the arena; the entries of the
handle table point to distinct handle records that have been handed out, each keyed by the
address of its record, whose block is a non-empty range of the arena of whole elements; the
blocks are ordered by key without overlap; every chunk lies wholly below or wholly above
every block. -/
structure Sound (s : GeneralAllocator) : Prop where
  size_lt : s.m_size < SIZE_MOD
  count_le : s.m_handleCount ≤ s.m_handles.length
  chunks_gap : s.m_chunks.Pairwise ChunkGap
  chunks_in : ∀ c ∈ s.m_chunks,
    s.m_pMemory ≤ c.pChunk ∧ c.pChunk + c.size ≤ s.m_pMemory + s.m_size
  chunks_pos : ∀ c ∈ s.m_chunks, c.size = 0 → c.pChunk = s.m_pMemory + s.m_size
  blocks_gap : s.m_handleTable.Pairwise
    (fun e e' => e.1 + (s.handleAt e.2).m_size ≤ e'.1 ∧ e.2 ≠ e'.2)
  entries : ∀ e ∈ s.m_handleTable,
    e.2 < s.m_handleCount ∧ (s.handleAt e.2).m_address = e.1 ∧
      0 < (s.handleAt e.2).m_size ∧ (s.handleAt e.2).T.sizeofT ∣ (s.handleAt e.2).m_size ∧
      s.m_pMemory ≤ e.1 ∧ e.1 + (s.handleAt e.2).m_size ≤ s.m_pMemory + s.m_size
  apart : ∀ e ∈ s.m_handleTable, ∀ c ∈ s.m_chunks,
    (c.pChunk < e.1 ∧ c.pChunk + c.size ≤ e.1) ∨ e.1 + (s.handleAt e.2).m_size ≤ c.pChunk

/-- The consistency of the handle table with the handle records: the keys are in ascending
order and belong to distinct records that have been handed out; every entry is keyed by the
address of its record, whose block holds a positive number of whole elements. -/
structure TableConsistent (s : GeneralAllocator) : Prop where
  size_lt : s.m_size < SIZE_MOD
  count_le : s.m_handleCount ≤ s.m_handles.length
  keys_sorted : s.m_handleTable.Pairwise (fun e e' => e.1 < e'.1 ∧ e.2 ≠ e'.2)
  entries : ∀ e ∈ s.m_handleTable,
    e.2 < s.m_handleCount ∧ (s.handleAt e.2).m_address = e.1 ∧
      0 < (s.handleAt e.2).m_size ∧ (s.handleAt e.2).T.sizeofT ∣ (s.handleAt e.2).m_size

/-- A call within the domain of the amended invariants: `allocate` asks for at least one
element of a type of at least one byte and the byte count does not wrap in `size_t`;
`deallocate` is given a handle that is live whenever it passes the validity test. -/
def Proper (s : GeneralAllocator) : Call → Prop
  | .allocate T amount _ => 1 ≤ amount ∧ 1 ≤ T.sizeofT ∧ amount * T.sizeofT < SIZE_MOD
  | .deallocate handle =>
    (s.handleAt handle).m_address ≠ 0 → s.isHandleValid (s.handleAt handle) = true →
      Live s handle
  | .defragment => True

/-- Every call of the sequence is `Proper` in the state it is made in. -/
def ProperRun (s : GeneralAllocator) : List Call → Prop
  | [] => True
  | c :: rest => Proper s c ∧ ProperRun (s.step c) rest

/-- The call does not fail with OutOfHandles. -/
def Served (s : GeneralAllocator) : Call → Prop
  | .allocate T amount ctor => (s.allocate T amount ctor).1 ≠ .error .OutOfHandles
  | _ => True

/-- No call of the sequence fails with OutOfHandles. -/
def ServedRun (s : GeneralAllocator) : List Call → Prop
  | [] => True
  | c :: rest => Served s c ∧ ServedRun (s.step c) rest

/-! ## The layout after compaction -/

/-- The total size of the blocks of the entries `t`, read from the handle records. -/
def blockBytes (handles : List MemoryHandle) (t : HandleTable) : Nat :=
  (t.map (fun e => (handles.getD e.2 default).m_size)).sum

/-- The sum of the total sizes of the live blocks. -/
def liveBytes (s : GeneralAllocator) : Nat := blockBytes s.m_handles s.m_handleTable

/-- The handle table after compaction, following the words of the specification: the same
handles in the same order, each keyed by the write cursor, which starts at `cursor` and
advances by the total size of each block. -/
def packedTable (handles : List MemoryHandle) : Nat → HandleTable → HandleTable
  | _, [] => []
  | cursor, e :: rest =>
    (cursor, e.2) :: packedTable handles (cursor + (handles.getD e.2 default).m_size) rest

/-- The blocks lie back to back from `cursor` on: each starts where the previous one ends. -/
def backToBack : Nat → List GeneralAllocatorChunk → Bool
  | _, [] => true
  | cursor, b :: rest => decide (b.pChunk = cursor) && backToBack (cursor + b.size) rest

/-- The records of the entries `t` hold the addresses of the packed layout from `cursor` on,
none of them above the key of its entry, and have non-empty blocks. -/
def PackedFrom (handles : List MemoryHandle) : Nat → HandleTable → Prop
  | _, [] => True
  | cursor, e :: rest =>
    (handles.getD e.2 default).m_address = cursor ∧ cursor ≤ e.1 ∧
      0 < (handles.getD e.2 default).m_size ∧
      PackedFrom handles (cursor + (handles.getD e.2 default).m_size) rest

instance (s : GeneralAllocator) (idx : Nat) : Decidable (Live s idx) :=
  inferInstanceAs (Decidable (mapFind s.m_handleTable (s.handleAt idx).getAddress = some idx))

/-- `Proper` can be checked. -/
instance decidableProper (s : GeneralAllocator) : (c : Call) → Decidable (Proper s c)
  | .allocate T amount _ =>
    inferInstanceAs (Decidable (1 ≤ amount ∧ 1 ≤ T.sizeofT ∧ amount * T.sizeofT < SIZE_MOD))
  | .deallocate handle =>
    inferInstanceAs (Decidable ((s.handleAt handle).m_address ≠ 0 →
      s.isHandleValid (s.handleAt handle) = true → Live s handle))
  | .defragment => inferInstanceAs (Decidable True)

/-- `ProperRun` can be checked. -/
instance decidableProperRun : (s : GeneralAllocator) → (calls : List Call) →
    Decidable (ProperRun s calls)
  | _, [] => inferInstanceAs (Decidable True)
  | s, c :: rest =>
    @instDecidableAnd _ _ (decidableProper s c) (decidableProperRun (s.step c) rest)

/-- `Served` can be checked. -/
instance decidableServed (s : GeneralAllocator) : (c : Call) → Decidable (Served s c)
  | .allocate T amount ctor =>
    inferInstanceAs (Decidable ((s.allocate T amount ctor).1 ≠ .error .OutOfHandles))
  | .deallocate _ => inferInstanceAs (Decidable True)
  | .defragment => inferInstanceAs (Decidable True)

/-- `ServedRun` can be checked. -/
instance decidableServedRun : (s : GeneralAllocator) → (calls : List Call) →
    Decidable (ServedRun s calls)
  | _, [] => inferInstanceAs (Decidable True)
  | s, c :: rest =>
    @instDecidableAnd _ _ (decidableServed s c) (decidableServedRun (s.step c) rest)

/-! ## Call sequences of the scenarios -/

/-- The calls of scenario S3. -/
def callsS3 : List Call :=
  [.allocate Elem64 1 (fun j => 1 + j), .allocate Elem64 1 (fun j => 2 + j),
   .allocate Elem64 1 (fun j => 3 + j), .allocate Elem64 1 (fun j => 4 + j),
   .deallocate 1, .deallocate 2, .defragment]

/-- A block of 128 bytes is allocated and deallocated, a block of 64 bytes is allocated (it
gets the same address), and the handle of the first block is deallocated once more. -/
def staleCalls : List Call :=
  [.allocate Elem64 2 (fun _ => 0), .deallocate 0, .allocate Elem64 1 (fun _ => 0),
   .deallocate 0]

/-- A block of 64 bytes and a block of no element are allocated, and both are deallocated
in that order. -/
def zeroCalls : List Call :=
  [.allocate Elem64 1 (fun _ => 0), .allocate Elem64 0 (fun _ => 0), .deallocate 0,
   .deallocate 1]

/-- One allocation of one byte more than there are handle records. -/
def exhaustingCalls : List Call := List.replicate 101 (.allocate Elem1 1 (fun _ => 0))

/-- The calls of scenario S2. -/
def callsS2 : List Call :=
  [.allocate Elem64 1 (fun j => 1 + j), .allocate Elem64 1 (fun j => 2 + j),
   .allocate Elem64 1 (fun j => 3 + j), .allocate Elem64 1 (fun j => 4 + j),
   .deallocate 1, .deallocate 2]

/-! ## Further call sequences and scenario states -/

/-- The first `n` allocate/deallocate pairs on a fresh allocator: pair `i` allocates one
element of 64 bytes, which gets handle record `i`, and deallocates it at once. -/
def pairCalls (n : Nat) : List Call :=
  (List.range n).foldr (fun i calls => .allocate Elem64 1 (fun _ => 0) :: .deallocate i :: calls)
    []

/-- Scenario S1, first half: 16 blocks of 64 bytes fill the arena of 1024 bytes. -/
def fullCalls : List Call := List.replicate 16 (.allocate Elem64 1 (fun _ => 0))

/-- The full arena of scenario S1. -/
def scenarioFull : GeneralAllocator := run arena1024 fullCalls

/-- A fresh arena after `allocate<T>(0)`: the handle table has a key at the start of the
free chunk, for a block of no bytes. -/
def zeroKeyed : GeneralAllocator := run arena1024 [.allocate Elem64 0 (fun _ => 0)]

/-- The number of `allocate` calls of the sequence that return a handle. -/
def allocations (s : GeneralAllocator) : List Call → Nat
  | [] => 0
  | .allocate T amount ctor :: rest =>
    (match (s.allocate T amount ctor).1 with
      | .ok _ => 1
      | .error _ => 0) + allocations (s.allocate T amount ctor).2 rest
  | .deallocate handle :: rest => allocations (s.deallocate (s.handleAt handle)).2 rest
  | .defragment :: rest => allocations s.defragment rest

/-! ## States with a block of no bytes -/

/-- One element of 64 bytes and a block of no element are allocated, and the first block is
deallocated: the handle of record 1 is valid, at offset 64, with a block of no bytes. -/
def emptyBlockCalls : List Call :=
  [.allocate Elem64 1 (fun _ => 0), .allocate Elem64 0 (fun _ => 0), .deallocate 0]

/-- After `emptyBlockCalls` the block of no bytes is deallocated too, which leaves an empty
chunk at offset 64, and the 1024 bytes of the arena are allocated as one block (record 2):
the free list is the empty chunk, which lies inside the block. -/
def emptyChunkCalls : List Call :=
  emptyBlockCalls ++ [.deallocate 1, .allocate Elem64 16 (fun _ => 0)]

/-- Two elements of 64 bytes are allocated, the first is deallocated and a block of no
element is allocated: it is keyed at offset 0, the start of the hole. -/
def zeroAtHoleCalls : List Call :=
  [.allocate Elem64 1 (fun _ => 0), .allocate Elem64 1 (fun _ => 0), .deallocate 0,
   .allocate Elem64 0 (fun _ => 0)]

/-- After `emptyBlockCalls` a second block of no element is allocated: records 1 and 2 are
live, at offsets 64 and 0, both with no bytes. -/
def twoEmptyCalls : List Call := emptyBlockCalls ++ [.allocate Elem64 0 (fun _ => 0)]

/-- After `emptyBlockCalls` a block of two elements is allocated at offset 0 (record 2): the
key of the block of no bytes, offset 64, lies inside it. -/
def zeroInsideCalls : List Call := emptyBlockCalls ++ [.allocate Elem64 2 (fun _ => 0)]

/-- Five blocks of 64 bytes are allocated and the second and the fourth are deallocated:
three live blocks with a hole in front of the second and of the third. -/
def holesCalls : List Call :=
  [.allocate Elem64 1 (fun j => 1 + j), .allocate Elem64 1 (fun j => 2 + j),
   .allocate Elem64 1 (fun j => 3 + j), .allocate Elem64 1 (fun j => 4 + j),
   .allocate Elem64 1 (fun j => 5 + j), .deallocate 1, .deallocate 3]

/-- The state after `emptyBlockCalls`. -/
def emptyBlock : GeneralAllocator := run arena1024 emptyBlockCalls

/-- The state after `emptyChunkCalls`. -/
def emptyChunkInside : GeneralAllocator := run arena1024 emptyChunkCalls

/-- The state after `zeroAtHoleCalls`. -/
def zeroAtHole : GeneralAllocator := run arena1024 zeroAtHoleCalls

/-- The state after `twoEmptyCalls`. -/
def twoEmpty : GeneralAllocator := run arena1024 twoEmptyCalls

/-- The state after `zeroInsideCalls`. -/
def zeroInside : GeneralAllocator := run arena1024 zeroInsideCalls

/-- No relocation of `defragment` constructs an object over its own source: every block of
a move-constructible type keeps its address or moves down by at least `sizeof(T)`. (Blocks of
the other types are moved by `memmove`, which allows the ranges to overlap.) -/
def MovesApart (s : GeneralAllocator) : Prop :=
  ∀ e ∈ s.m_handleTable, (s.handleAt e.2).T.moveConstructible = true →
    (s.defragment.handleAt e.2).m_address = (s.handleAt e.2).m_address ∨
      (s.defragment.handleAt e.2).m_address + (s.handleAt e.2).T.sizeofT ≤
        (s.handleAt e.2).m_address

instance (s : GeneralAllocator) : Decidable (MovesApart s) :=
  inferInstanceAs (Decidable (∀ e ∈ s.m_handleTable,
    (s.handleAt e.2).T.moveConstructible = true →
      (s.defragment.handleAt e.2).m_address = (s.handleAt e.2).m_address ∨
        (s.defragment.handleAt e.2).m_address + (s.handleAt e.2).T.sizeofT ≤
          (s.handleAt e.2).m_address))

end GeneralAllocator

/-! ## The Stack Allocator

A shallow embedding of `src/ArenaAllocators/StackAllocator.h`. `u8` (declared in
`Typedefs.h`) is a byte and `u8*` an address. An `assert` that fails aborts the program: the
operation has no result (`none`). The bytes of the objects are not part of the state; the
destructor calls are recorded in `destroyed`. -/

/-- What the stack allocator uses of the template parameter `T`. -/
structure StackElemType where
  /-- The value of `sizeof(T)`. -/
  sizeofT : Nat
  /-- The value of `alignof(T)`. -/
  alignofT : Nat
  /-- Whether `std::is_trivially_destructible_v<T>` holds. -/
  triviallyDestructible : Bool
  deriving DecidableEq, Repr

/-- Source: `StackAllocatorDestructor`: the object `m_data` and whether the function pointer
`m_destructor` is set (the lambda that runs `~T()` on the object). -/
structure StackAllocatorDestructor where
  m_data : Nat
  m_destructor : Bool
  deriving DecidableEq, Repr

/-- Source: `StackAllocatorMarker`. -/
structure StackAllocatorMarker where
  m_head : Nat
  m_destructorsSize : Nat
  deriving DecidableEq, Repr

/-- The state of a `StackAllocator`; `destroyed` lists the objects whose destructor has run,
in the order of the calls. -/
structure StackAllocator where
  m_data : Nat
  m_head : Nat
  m_size : Nat
  m_destructors : List StackAllocatorDestructor
  destroyed : List Nat
  deriving DecidableEq, Repr

/-- Bitwise complement of a `size_t` value. -/
def notSizeT (a : Nat) : Nat := SIZE_MOD - 1 - a % SIZE_MOD

namespace StackAllocator

/-- Source: the constructor `StackAllocator(size)`; `base` is the address returned by
`new u8[size]`. -/
def create (base size : Nat) : StackAllocator :=
  { m_data := base, m_head := base, m_size := size, m_destructors := [], destroyed := [] }

/-- Source: the two overloads of `addDestructor`: nothing for a trivially destructible `T`,
otherwise `m_destructors.emplace_back(StackAllocatorDestructor{*object})`. -/
def addDestructor (s : StackAllocator) (T : StackElemType) (object : Nat) : StackAllocator :=
  if T.triviallyDestructible then s
  else { s with m_destructors := s.m_destructors ++ [⟨object, true⟩] }

/-- The two assertions on the alignment in the private `allocate`:
`assert(alignment > 0); assert(alignment % 2 == 0);`. -/
def alignmentAsserts (alignment : Nat) : Bool :=
  decide (alignment > 0) && decide (alignment % 2 = 0)

/-- The mask computation of the private `allocate`:
`reinterpret_cast<size_t>(m_head + alignment - 1) & ~(alignment - 1)`. -/
def alignHead (m_head alignment : Nat) : Nat :=
  ((m_head + alignment - 1) % SIZE_MOD) &&& notSizeT (subSizeT alignment 1)

/-- Source: the private overload `allocate(size_t size, size_t alignment)`. The result is
the pointer returned (`0` is `nullptr`) and the state, or `none` when an assertion fails. -/
def allocateRaw (s : StackAllocator) (size alignment : Nat) : Option (Nat × StackAllocator) :=
  if ¬ size > 0 then none
  else if alignmentAsserts alignment = false then none
  else
    let alignedHead := alignHead s.m_head alignment
    let newHead := alignedHead + size
    if newHead > s.m_data + s.m_size then some (0, s)
    else some (alignedHead, { s with m_head := newHead })

/-- The destructor entries that the construction loop of `allocate<T>` appends for `amount`
objects from address `p` on: one per object, none for a trivially destructible `T`. -/
def newEntries (T : StackElemType) (p amount : Nat) : List StackAllocatorDestructor :=
  if T.triviallyDestructible then []
  else (List.range amount).map (fun i => ⟨p + i * T.sizeofT, true⟩)

/-- Source: `StackAllocator::allocate<T>(amount, args...)`. -/
def allocate (s : StackAllocator) (T : StackElemType) (amount : Nat) :
    Option (Nat × StackAllocator) :=
  match s.allocateRaw (mulSizeT amount T.sizeofT) T.alignofT with
  | none => none
  | some (alignedHead, s') =>
    if alignedHead = 0 then some (0, s')
    else
      some (alignedHead,
        (List.range amount).foldl
          (fun st i => st.addDestructor T (alignedHead + i * T.sizeofT)) s')

/-- Source: `StackAllocator::getMarker`. -/
def getMarker (s : StackAllocator) : StackAllocatorMarker :=
  ⟨s.m_head, s.m_destructors.length⟩

/-- One round of the loops of `deallocate` and `deallocateAll`:
`m_destructors.back()(); m_destructors.pop_back();`. `operator()` runs the destructor when
the function pointer is set. -/
def popDestructor (s : StackAllocator) : StackAllocator :=
  match s.m_destructors.getLast? with
  | none => s
  | some d =>
    { s with
      m_destructors := s.m_destructors.dropLast
      destroyed := if d.m_destructor then s.destroyed ++ [d.m_data] else s.destroyed }

/-- The loop `while (m_destructors.size() > target)` of `deallocate` and `deallocateAll`;
`fuel` bounds the number of rounds. -/
def popLoop (target : Nat) : Nat → StackAllocator → StackAllocator
  | 0, s => s
  | fuel + 1, s =>
    if s.m_destructors.length > target then popLoop target fuel s.popDestructor else s

/-- Source: `StackAllocator::deallocate(marker)`. Every round of the loop removes one entry,
so `m_destructors.size()` rounds are enough. -/
def deallocate (s : StackAllocator) (marker : StackAllocatorMarker) : Option StackAllocator :=
  if ¬ marker.m_head ≥ s.m_data then none
  else if ¬ marker.m_head ≤ s.m_head then none
  else if ¬ marker.m_destructorsSize ≤ s.m_destructors.length then none
  else
    some { popLoop marker.m_destructorsSize s.m_destructors.length s with
      m_head := marker.m_head }

/-- Source: `StackAllocator::deallocateAll`. -/
def deallocateAll (s : StackAllocator) : StackAllocator :=
  { popLoop 0 s.m_destructors.length s with m_head := s.m_data }

/-- A sequence of `allocate<T>(amount)` calls that all return a pointer that is not null:
the state after the last one. -/
def allocateAll : StackAllocator → List (StackElemType × Nat) → Option StackAllocator
  | s, [] => some s
  | s, (T, amount) :: rest =>
    match s.allocate T amount with
    | none => none
    | some (p, s') => if p = 0 then none else allocateAll s' rest

/-- The destructor calls of the entries `ds`, last entry first: the objects destroyed. -/
def unwound (ds : List StackAllocatorDestructor) : List Nat :=
  (ds.reverse.filter (fun d => d.m_destructor)).map (fun d => d.m_data)

/-- The least multiple of `a` that is not below `x`. -/
def alignUp (x a : Nat) : Nat := (x + a - 1) / a * a

/-- An element type that is not trivially destructible: 64 bytes, aligned to 8. -/
def Object64 : StackElemType := ⟨64, 8, false⟩

/-- A byte-sized element type: `sizeof = 1`, `alignof = 1`, trivially destructible. -/
def Byte : StackElemType := ⟨1, 1, true⟩

/-- A fresh stack of 1024 bytes at address 4096. -/
def stack1024 : StackAllocator := create 4096 1024

/-- The stack of 1024 bytes after `allocate<T>(10)` for a type of 64 bytes that is not
trivially destructible. -/
def tenObjects : StackAllocator :=
  { m_data := 4096
    m_head := 4096 + 640
    m_size := 1024
    m_destructors := (List.range 10).map (fun i => ⟨4096 + i * 64, true⟩)
    destroyed := [] }

/-- Scenario S7: the marker taken after 10 objects that are not trivially destructible. -/
def markerS7 : Option StackAllocatorMarker :=
  (stack1024.allocateAll [(Object64, 10)]).map getMarker

/-- Scenario S7: 10 objects, a marker, 5 more objects, and `deallocate(marker)`. -/
def rewoundS7 : Option StackAllocator :=
  (stack1024.allocateAll [(Object64, 10)]).bind (fun s10 =>
    (s10.allocateAll [(Object64, 5)]).bind (fun s15 => s15.deallocate s10.getMarker))

end StackAllocator

/-! ## The Pool Allocator

A shallow embedding of `src/ArenaAllocators/PoolAllocator.h`. A pointer to a `PoolChunk<T>`
is an address (`0` is `nullptr`); slot `i` of the array `m_data` is at
`m_data + i * sizeof(PoolChunk<T>)`. `next` gives, for the address of a slot, the pointer read
from the member `next` of the union there; for a slot that holds an object it is whatever
the bytes of the object mean as a pointer. -/

/-- The state of a `PoolAllocator<T>`; `chunkSize` is `sizeof(PoolChunk<T>)`. -/
structure PoolAllocator where
  m_data : Nat
  m_head : Nat
  m_size : Nat
  chunkSize : Nat
  next : Nat → Nat

namespace PoolAllocator

/-- The assignment `p->next = v`. -/
def setNext (next : Nat → Nat) (p v : Nat) : Nat → Nat :=
  fun a => if a = p then v else next a

/-- The address `&m_data[i]`. -/
def slot (base chunkSize i : Nat) : Nat := base + i * chunkSize

/-- Source: the constructor `PoolAllocator(size)`; `base` is the address returned by
`new PoolChunk<T>[size]`, whose elements are constructed with `next = nullptr`. -/
def create (base chunkSize size : Nat) : PoolAllocator :=
  { m_data := base
    m_head := base
    m_size := size
    chunkSize := chunkSize
    next :=
      setNext
        ((List.range (subSizeT size 1)).foldl
          (fun next i => setNext next (slot base chunkSize i) (slot base chunkSize (i + 1)))
          (fun _ => 0))
        (slot base chunkSize (subSizeT size 1)) 0 }

/-- Source: `PoolAllocator::allocate(args...)`. `object` is what the bytes of the
constructed `T` mean when they are read as the member `next`. The result is the pointer
returned (`0` is `nullptr`). -/
def allocate (s : PoolAllocator) (object : Nat) : Nat × PoolAllocator :=
  if s.m_head = 0 then (0, s)
  else (s.m_head, { s with m_head := s.next s.m_head, next := setNext s.next s.m_head object })

/-- Source: `PoolAllocator::deallocate(ptr)`. -/
def deallocate (s : PoolAllocator) (ptr : Nat) : PoolAllocator :=
  if ptr = 0 then s
  else { s with next := setNext s.next ptr s.m_head, m_head := ptr }

/-- One `allocate` call per element of `objects`: the pointers returned, in call order, and
the state after the last call. -/
def allocateMany : PoolAllocator → List Nat → List Nat × PoolAllocator
  | s, [] => ([], s)
  | s, object :: rest =>
    ((s.allocate object).1 :: (allocateMany (s.allocate object).2 rest).1,
      (allocateMany (s.allocate object).2 rest).2)

/-- One `deallocate` call per pointer of `ptrs`, in list order. -/
def deallocateMany (s : PoolAllocator) (ptrs : List Nat) : PoolAllocator :=
  ptrs.foldl deallocate s

/-- The free list that starts at pointer `p` is the list `l` of slots: `p` is the first
slot, each slot's `next` is the following slot, and the last `next` is `nullptr`. -/
def IsFreeList (next : Nat → Nat) : Nat → List Nat → Prop
  | p, [] => p = 0
  | p, a :: l => p = a ∧ a ≠ 0 ∧ IsFreeList next (next a) l

/-- The slots `&m_data[i]`, ..., `&m_data[i + n - 1]`. -/
def slotsFrom (base chunkSize : Nat) : Nat → Nat → List Nat
  | _, 0 => []
  | i, n + 1 => slot base chunkSize i :: slotsFrom base chunkSize (i + 1) n

/-- A pool of three slots of 72 bytes at address 4096. -/
def pool3 : PoolAllocator := create 4096 72 3

end PoolAllocator

namespace GeneralAllocator

/-! ## Basic facts -/

theorem mulSizeT_of_lt {a b : Nat} (h : a * b < SIZE_MOD) : mulSizeT a b = a * b :=
  Nat.mod_eq_of_lt h

theorem addSizeT_of_lt {a b : Nat} (h : a + b < SIZE_MOD) : addSizeT a b = a + b :=
  Nat.mod_eq_of_lt h

theorem subSizeT_of_le {a b : Nat} (ha : a < SIZE_MOD) (hb : b ≤ a) : subSizeT a b = a - b := by
  simp only [subSizeT, SIZE_MOD] at *
  omega

theorem mapContains_iff {t : HandleTable} {k : Nat} :
    mapContains t k = true ↔ ∃ e ∈ t, e.1 = k := by
  simp [mapContains]

theorem mapContains_mapErase (t : HandleTable) (k : Nat) :
    mapContains (mapErase t k) k = false := by
  simp [mapContains, mapErase]

theorem carveFirstFit_eq_none_iff (req : Nat) (l : List GeneralAllocatorChunk) :
    carveFirstFit req l = none ↔ ∀ c ∈ l, c.size < req := by
  induction l with
  | nil => simp [carveFirstFit]
  | cons c rest ih =>
    by_cases h : req ≤ c.size
    · simp [carveFirstFit, h]
    · have h' : c.size < req := by omega
      simp only [carveFirstFit, h, if_false, List.mem_cons, forall_eq_or_imp]
      cases hc : carveFirstFit req rest with
      | none => simpa [h'] using ih.mp hc
      | some r =>
        simp only [false_iff, reduceCtorEq]
        intro hall
        rw [ih.mpr hall.2] at hc
        exact absurd hc (by simp)

theorem registerHandle_fst_ne_outOfMemory (s : GeneralAllocator) (T : ElemType) (data size : Nat) :
    (s.registerHandle T data size).1 ≠ .error .OutOfMemory := by
  unfold registerHandle
  split <;> simp

theorem allocate_of_carve_none {s : GeneralAllocator} {T : ElemType} {amount : Nat}
    {ctor : Nat → Nat} (h : carveFirstFit (mulSizeT amount T.sizeofT) s.m_chunks = none) :
    s.allocate T amount ctor = (.error .OutOfMemory, s) := by
  simp only [allocate, h]

theorem allocate_of_carve_some {s : GeneralAllocator} {T : ElemType} {amount : Nat}
    {ctor : Nat → Nat} {data : Nat} {shrunk : GeneralAllocatorChunk}
    {chunks : List GeneralAllocatorChunk}
    (h : carveFirstFit (mulSizeT amount T.sizeofT) s.m_chunks = some (data, shrunk, chunks)) :
    s.allocate T amount ctor =
      registerHandle
        { s with
          m_chunks := if shrunk.size = 0 then chunks.filter (fun c => c != shrunk) else chunks
          memory := constructObjects s.memory data T.sizeofT amount ctor }
        T data (mulSizeT amount T.sizeofT) := by
  simp only [allocate, h]

/-- C8. `allocate` fails with OutOfMemory exactly when no free chunk has
`size >= requestedSize`, and in that case the allocator state is what it was before. -/
theorem allocate_outOfMemory_iff (s : GeneralAllocator) (T : ElemType) (amount : Nat)
    (ctor : Nat → Nat) :
    ((s.allocate T amount ctor).1 = .error .OutOfMemory ↔
        ∀ c ∈ s.m_chunks, c.size < mulSizeT amount T.sizeofT) ∧
      ((s.allocate T amount ctor).1 = .error .OutOfMemory → (s.allocate T amount ctor).2 = s) := by
  cases hc : carveFirstFit (mulSizeT amount T.sizeofT) s.m_chunks with
  | none =>
    rw [allocate_of_carve_none hc]
    simp only [true_and, implies_true, and_true, true_iff]
    exact (carveFirstFit_eq_none_iff _ _).mp hc
  | some r =>
    obtain ⟨data, shrunk, chunks⟩ := r
    rw [allocate_of_carve_some hc]
    have hne := registerHandle_fst_ne_outOfMemory
      { s with
        m_chunks := if shrunk.size = 0 then chunks.filter (fun c => c != shrunk) else chunks
        memory := constructObjects s.memory data T.sizeofT amount ctor }
      T data (mulSizeT amount T.sizeofT)
    refine ⟨⟨fun h => absurd h hne, fun h => ?_⟩, fun h => absurd h hne⟩
    rw [(carveFirstFit_eq_none_iff _ _).mpr h] at hc
    exact absurd hc (by simp)

theorem deallocate_ok_not_contains (s : GeneralAllocator) (h : MemoryHandle)
    (hok : (s.deallocate h).1 = .ok ()) :
    mapContains (s.deallocate h).2.m_handleTable h.m_address = false := by
  unfold deallocate at hok ⊢
  split at hok
  · simp at hok
  · split at hok
    · simp at hok
    · rename_i h1 h2
      rw [if_neg h1, if_neg h2]
      exact mapContains_mapErase _ _

theorem deallocate_of_invalid {s : GeneralAllocator} {h : MemoryHandle}
    (hinv : h.m_address = 0 ∨ mapContains s.m_handleTable h.m_address = false) :
    s.deallocate h = (.error .InvalidHandle, s) := by
  unfold deallocate isHandleValid MemoryHandle.getAddress
  rw [if_pos hinv]

/-- C10. A handle whose address is null or is not a key of the handle table, in particular
a handle that has just been deallocated, is rejected by `deallocate` with InvalidHandle and
the allocator state is left as it was, so tiling and coalescing still hold if they held. -/
theorem deallocate_invalid_handle (s : GeneralAllocator) (h : MemoryHandle)
    (hinv : h.m_address = 0 ∨ mapContains s.m_handleTable h.m_address = false ∨
      ∃ s₀ : GeneralAllocator, (s₀.deallocate h).1 = .ok () ∧ s = (s₀.deallocate h).2) :
    s.deallocate h = (.error .InvalidHandle, s) ∧
      (Tiling s → Tiling (s.deallocate h).2) ∧
      (Coalesced s.m_chunks → Coalesced (s.deallocate h).2.m_chunks) := by
  have hinv' : h.m_address = 0 ∨ mapContains s.m_handleTable h.m_address = false := by
    rcases hinv with h0 | hk | ⟨s₀, hok, rfl⟩
    · exact Or.inl h0
    · exact Or.inr hk
    · exact Or.inr (deallocate_ok_not_contains s₀ h hok)
  have key : s.deallocate h = (.error .InvalidHandle, s) := deallocate_of_invalid hinv'
  refine ⟨key, ?_, ?_⟩
  · rw [key]; exact id
  · rw [key]; exact id

set_option maxRecDepth 100000 in
theorem deallocate_invalid_handle_witness :
    ((scenarioS2.handleAt 1).m_address = 0 ∨
        mapContains scenarioS2.m_handleTable (scenarioS2.handleAt 1).m_address = false ∨
        ∃ s₀ : GeneralAllocator, (s₀.deallocate (scenarioS2.handleAt 1)).1 = .ok () ∧
          scenarioS2 = (s₀.deallocate (scenarioS2.handleAt 1)).2) ∧
      scenarioS2.deallocate (scenarioS2.handleAt 1) = (.error .InvalidHandle, scenarioS2) :=
  ⟨Or.inr (Or.inl (by decide)),
    (deallocate_invalid_handle scenarioS2 (scenarioS2.handleAt 1) (Or.inr (Or.inl (by decide)))).1⟩

/-! ## Evaluations of the code at concrete inputs -/

set_option maxRecDepth 100000 in
/-- C7. Scenario S3: `deallocate` of B (record 1) and of C (record 2) both succeed, yet
after `defragment` `isHandleValid` is true for B and `operator->` and `operator*` on B
succeed: they return the address and the bytes of D, which was moved to the old address of
B. For C the handle is invalid. -/
theorem freed_handle_valid_after_defragment :
    (scenarioABCD.deallocate (scenarioABCD.handleAt 1)).1 = .ok () ∧
      ((scenarioABCD.step (.deallocate 1)).deallocate
        ((scenarioABCD.step (.deallocate 1)).handleAt 2)).1 = .ok () ∧
      scenarioS2.isHandleValid (scenarioS2.handleAt 1) = false ∧
      scenarioS3.isHandleValid (scenarioS3.handleAt 1) = true ∧
      scenarioS3.arrow (scenarioS3.handleAt 1) = .ok (4096 + 64) ∧
      scenarioS3.star (scenarioS3.handleAt 1) = scenarioS3.star (scenarioS3.handleAt 3) ∧
      scenarioS3.star (scenarioS3.handleAt 1) = .ok ((List.range 64).map (fun j => 4 + j)) ∧
      scenarioS3.isHandleValid (scenarioS3.handleAt 2) = false := by
  decide

set_option maxRecDepth 1000000 in
/-- C9. After 100 successful allocations the next `allocate` fails with OutOfHandles, but
the free chunk has already been carved: the free list and the available memory differ from
what they were before the call, and byte 4196 of the arena is in no live block and in no
free chunk afterwards. -/
theorem allocate_outOfHandles_carves :
    exhausted.m_handleCount = 100 ∧
      exhausted.m_chunks = [⟨4196, 924⟩] ∧
      (exhausted.allocate Elem1 1 (fun _ => 0)).1 = .error .OutOfHandles ∧
      (exhausted.allocate Elem1 1 (fun _ => 0)).2.m_chunks = [⟨4197, 923⟩] ∧
      exhausted.getAvailableMemory = 924 ∧
      (exhausted.allocate Elem1 1 (fun _ => 0)).2.getAvailableMemory = 923 ∧
      (exhausted.allocate Elem1 1 (fun _ => 0)).2.m_handleTable = exhausted.m_handleTable ∧
      exhausted.coverCount 4196 = 1 ∧
      (exhausted.allocate Elem1 1 (fun _ => 0)).2.coverCount 4196 = 0 := by
  decide

/-! ## First-fit placement -/

theorem carveFirstFit_append {req : Nat} {pre : List GeneralAllocatorChunk}
    (post : List GeneralAllocatorChunk) {c : GeneralAllocatorChunk}
    (hpre : ∀ d ∈ pre, d.size < req) (hc : req ≤ c.size) :
    carveFirstFit req (pre ++ c :: post) =
      some (c.pChunk, ⟨c.pChunk + req, c.size - req⟩,
        pre ++ ⟨c.pChunk + req, c.size - req⟩ :: post) := by
  induction pre with
  | nil => simp [carveFirstFit, hc]
  | cons d pre ih =>
    have hd : ¬ req ≤ d.size := by
      have := hpre d (List.mem_cons_self _ _)
      omega
    have ih' := ih (fun e he => hpre e (List.mem_cons_of_mem _ he))
    rw [List.cons_append, carveFirstFit, if_neg hd, ih']
    rfl

theorem exists_first_fit {req : Nat} {l : List GeneralAllocatorChunk}
    (h : ∃ c ∈ l, req ≤ c.size) :
    ∃ pre c post, l = pre ++ c :: post ∧ (∀ d ∈ pre, d.size < req) ∧ req ≤ c.size := by
  induction l with
  | nil => simp at h
  | cons d rest ih =>
    by_cases hd : req ≤ d.size
    · exact ⟨[], d, rest, rfl, by simp, hd⟩
    · obtain ⟨c, hc, hreq⟩ := h
      have hc' : c ∈ rest := by
        rcases List.mem_cons.mp hc with rfl | hc'
        · exact absurd hreq hd
        · exact hc'
      obtain ⟨pre, c', post, hl, hpre, hc''⟩ := ih ⟨c, hc', hreq⟩
      refine ⟨d :: pre, c', post, by simp [hl], ?_, hc''⟩
      intro e he
      rcases List.mem_cons.mp he with rfl | he'
      · omega
      · exact hpre e he'

theorem filter_ne_of_not_mem {pre post : List GeneralAllocatorChunk} {c : GeneralAllocatorChunk}
    (h : c ∉ pre ++ post) :
    (pre ++ c :: post).filter (fun d => d != c) = pre ++ post := by
  have h1 : ∀ d ∈ pre, (d != c) = true := fun d hd => by
    simp only [bne_iff_ne, ne_eq]
    rintro rfl
    exact h (List.mem_append_left _ hd)
  have h2 : ∀ d ∈ post, (d != c) = true := fun d hd => by
    simp only [bne_iff_ne, ne_eq]
    rintro rfl
    exact h (List.mem_append_right _ hd)
  rw [List.filter_append, List.filter_cons]
  simp only [bne_self_eq_false, Bool.false_eq_true, if_false]
  rw [List.filter_eq_self.mpr h1, List.filter_eq_self.mpr h2]

theorem mapFind_mapAssign (t : HandleTable) (k v : Nat) : mapFind (mapAssign t k v) k = some v := by
  induction t with
  | nil => simp [mapAssign, mapFind]
  | cons e rest ih =>
    unfold mapAssign
    by_cases h1 : k < e.1
    · rw [if_pos h1]; simp [mapFind]
    · rw [if_neg h1]
      by_cases h2 : k = e.1
      · rw [if_pos h2]; simp [mapFind]
      · rw [if_neg h2]
        have h3 : ¬ e.1 = k := fun h => h2 h.symm
        rw [mapFind, if_neg h3]
        exact ih

theorem mapContains_cons (e : Nat × Nat) (t : HandleTable) (k : Nat) :
    mapContains (e :: t) k = true ↔ e.1 = k ∨ mapContains t k = true := by
  simp only [mapContains, List.any_cons, Bool.or_eq_true, beq_iff_eq]

theorem mapContains_mapAssign (t : HandleTable) (k v k' : Nat) :
    mapContains (mapAssign t k v) k' = true ↔ k' = k ∨ mapContains t k' = true := by
  induction t with
  | nil =>
    rw [mapAssign, mapContains_cons]
    exact ⟨fun h => h.imp_left Eq.symm, fun h => h.imp_left Eq.symm⟩
  | cons e rest ih =>
    unfold mapAssign
    by_cases h1 : k < e.1
    · rw [if_pos h1, mapContains_cons]
      exact ⟨fun h => h.imp_left Eq.symm, fun h => h.imp_left Eq.symm⟩
    · rw [if_neg h1]
      by_cases h2 : k = e.1
      · rw [if_pos h2, mapContains_cons, mapContains_cons]
        constructor
        · rintro (h | h)
          · exact Or.inl h.symm
          · exact Or.inr (Or.inr h)
        · rintro (h | h | h)
          · exact Or.inl h.symm
          · exact Or.inl (h2.trans h)
          · exact Or.inr h
      · rw [if_neg h2, mapContains_cons, mapContains_cons, ih]
        constructor
        · rintro (h | h | h)
          · exact Or.inr (Or.inl h)
          · exact Or.inl h
          · exact Or.inr (Or.inr h)
        · rintro (h | h | h)
          · exact Or.inr (Or.inl h)
          · exact Or.inl h
          · exact Or.inr (Or.inr h)

theorem handleAt_set_self {s : GeneralAllocator} {l : List MemoryHandle} {i : Nat}
    {h : MemoryHandle} (hi : i < l.length) :
    handleAt { s with m_handles := l.set i h } i = h := by
  simp [handleAt, List.getD_eq_getElem?_getD, List.getElem?_set, hi]

/-- C3 (amended). When the free list is strictly sorted by address, no empty chunk starts at
the end of a non-empty one, some chunk has `size >= requestedSize` and a handle record is
left, `allocate` returns a handle for `(c.pChunk, requestedSize)` where `c` is the first
fitting chunk, which is also the fitting chunk of least address; `c` becomes
`(pChunk + requestedSize, size - requestedSize)` or is removed when its size was exactly
`requestedSize`; the other chunks are unchanged and the keys of the handle table are the
old ones and `c.pChunk`, which is mapped to the new handle. -/
theorem allocate_first_fit (s : GeneralAllocator) (T : ElemType) (amount : Nat)
    (ctor : Nat → Nat)
    (hsorted : s.m_chunks.Pairwise (fun c d => c.pChunk < d.pChunk))
    (hfit : ∃ c ∈ s.m_chunks, mulSizeT amount T.sizeofT ≤ c.size)
    (hempty : ∀ c ∈ s.m_chunks, ∀ d ∈ s.m_chunks,
      0 < c.size → d.size = 0 → d.pChunk ≠ c.pChunk + c.size)
    (hcount : s.m_handleCount < s.m_handles.length) :
    ∃ pre c post,
      s.m_chunks = pre ++ c :: post ∧
      (∀ d ∈ pre, d.size < mulSizeT amount T.sizeofT) ∧
      mulSizeT amount T.sizeofT ≤ c.size ∧
      (∀ d ∈ s.m_chunks, mulSizeT amount T.sizeofT ≤ d.size → c.pChunk ≤ d.pChunk) ∧
      (s.allocate T amount ctor).1 = .ok s.m_handleCount ∧
      (s.allocate T amount ctor).2.handleAt s.m_handleCount =
        ⟨c.pChunk, mulSizeT amount T.sizeofT, T⟩ ∧
      (s.allocate T amount ctor).2.m_chunks =
        (if c.size = mulSizeT amount T.sizeofT then pre ++ post
         else pre ++ ⟨c.pChunk + mulSizeT amount T.sizeofT,
                c.size - mulSizeT amount T.sizeofT⟩ :: post) ∧
      (∀ k, mapContains (s.allocate T amount ctor).2.m_handleTable k = true ↔
        k = c.pChunk ∨ mapContains s.m_handleTable k = true) ∧
      mapFind (s.allocate T amount ctor).2.m_handleTable c.pChunk = some s.m_handleCount := by
  obtain ⟨pre, c, post, hl, hpre, hc⟩ := exists_first_fit hfit
  refine ⟨pre, c, post, hl, hpre, hc, ?_, ?_⟩
  · intro d hd hdfit
    rw [hl] at hd hsorted
    rcases List.mem_append.mp hd with hd | hd
    · have := hpre d hd; omega
    · rcases List.mem_cons.mp hd with rfl | hd
      · exact le_refl _
      · have := (List.pairwise_cons.mp (List.pairwise_append.mp hsorted).2.1).1 d hd
        omega
  · have hcarve := carveFirstFit_append post hpre hc
    rw [← hl] at hcarve
    rw [allocate_of_carve_some hcarve]
    have hnot : ¬ s.m_handleCount ≥ s.m_handles.length := by omega
    have hchunks :
        (if c.size - mulSizeT amount T.sizeofT = 0 then
            (pre ++ ⟨c.pChunk + mulSizeT amount T.sizeofT,
              c.size - mulSizeT amount T.sizeofT⟩ :: post).filter
              (fun d => d != ⟨c.pChunk + mulSizeT amount T.sizeofT,
                c.size - mulSizeT amount T.sizeofT⟩)
          else pre ++ ⟨c.pChunk + mulSizeT amount T.sizeofT,
              c.size - mulSizeT amount T.sizeofT⟩ :: post) =
        (if c.size = mulSizeT amount T.sizeofT then pre ++ post
         else pre ++ ⟨c.pChunk + mulSizeT amount T.sizeofT,
                c.size - mulSizeT amount T.sizeofT⟩ :: post) := by
      by_cases hz : c.size = mulSizeT amount T.sizeofT
      · have hz' : c.size - mulSizeT amount T.sizeofT = 0 := by omega
        rw [if_pos hz, if_pos hz']
        apply filter_ne_of_not_mem
        intro hmem
        have hmem' : (⟨c.pChunk + mulSizeT amount T.sizeofT,
            c.size - mulSizeT amount T.sizeofT⟩ : GeneralAllocatorChunk) ∈ s.m_chunks := by
          rw [hl]
          rcases List.mem_append.mp hmem with h | h
          · exact List.mem_append_left _ h
          · exact List.mem_append_right _ (List.mem_cons_of_mem _ h)
        have hcm : c ∈ s.m_chunks := by rw [hl]; simp
        by_cases hpos : 0 < c.size
        · have := hempty c hcm _ hmem' hpos hz'
          simp only [ne_eq] at this
          omega
        · -- the emptied chunk has the address of `c`: excluded by strict sortedness
          have hc0 : c.size = 0 := by omega
          rw [hl] at hsorted
          have hs := List.pairwise_append.mp hsorted
          rcases List.mem_append.mp hmem with h | h
          · have := hs.2.2 _ h c (List.mem_cons_self _ _)
            simp only at this
            omega
          · have := (List.pairwise_cons.mp hs.2.1).1 _ h
            simp only at this
            omega
      · have hz' : ¬ c.size - mulSizeT amount T.sizeofT = 0 := by omega
        rw [if_neg hz, if_neg hz']
    unfold registerHandle
    simp only [hnot, if_false, hchunks]
    refine ⟨trivial, ?_, trivial, ?_, ?_⟩
    · simp [handleAt, List.getD_eq_getElem?_getD, List.getElem?_set, hcount]
    · intro k
      exact mapContains_mapAssign _ _ _ _
    · exact mapFind_mapAssign _ _ _

set_option maxRecDepth 100000 in
theorem allocate_first_fit_witness :
    (scenarioS4.m_chunks.Pairwise (fun c d => c.pChunk < d.pChunk) ∧
      (∃ c ∈ scenarioS4.m_chunks, mulSizeT 1 Elem64.sizeofT ≤ c.size) ∧
      (∀ c ∈ scenarioS4.m_chunks, ∀ d ∈ scenarioS4.m_chunks,
        0 < c.size → d.size = 0 → d.pChunk ≠ c.pChunk + c.size) ∧
      scenarioS4.m_handleCount < scenarioS4.m_handles.length) ∧
    ∃ pre c post,
      scenarioS4.m_chunks = pre ++ c :: post ∧
      (scenarioS4.allocate Elem64 1 (fun _ => 0)).1 = .ok scenarioS4.m_handleCount ∧
      (scenarioS4.allocate Elem64 1 (fun _ => 0)).2.handleAt scenarioS4.m_handleCount =
        ⟨c.pChunk, mulSizeT 1 Elem64.sizeofT, Elem64⟩ :=
  ⟨⟨by decide, by decide, by decide, by decide⟩,
    (allocate_first_fit scenarioS4 Elem64 1 (fun _ => 0) (by decide) (by decide) (by decide)
      (by decide)).imp fun _ hpre =>
        hpre.imp fun _ hc => hc.imp fun _ h => ⟨h.1, h.2.2.2.2.1, h.2.2.2.2.2.1⟩⟩

set_option maxRecDepth 1000000 in
/-- C3 as stated fails at two states whose free list is sorted by address and holds a chunk
that fits the request. In `exhausted` (100 handle records handed out) `allocate` returns no
handle but OutOfHandles. In `emptyNeighbour` the request of 64 bytes empties the first
chunk, and `std::erase` then also removes the other chunk `(4160, 0)`, which is equal to the
emptied one. -/
theorem allocate_first_fit_counterexample :
    (exhausted.m_chunks.Pairwise (fun c d => c.pChunk < d.pChunk) ∧
        (∃ c ∈ exhausted.m_chunks, mulSizeT 1 Elem1.sizeofT ≤ c.size) ∧
        (exhausted.allocate Elem1 1 (fun _ => 0)).1 = .error .OutOfHandles) ∧
      (emptyNeighbour.m_chunks.Pairwise (fun c d => c.pChunk < d.pChunk) ∧
        (∃ c ∈ emptyNeighbour.m_chunks, mulSizeT 1 Elem64.sizeofT ≤ c.size) ∧
        (emptyNeighbour.allocate Elem64 1 (fun _ => 0)).1 = .ok 0 ∧
        emptyNeighbour.m_chunks = [⟨4096, 64⟩, ⟨4160, 0⟩] ∧
        (emptyNeighbour.allocate Elem64 1 (fun _ => 0)).2.m_chunks = []) := by
  decide

/-! ## deallocate: the merge steps against the specification of coalescing -/

theorem mergeLeft_cons_succ (c : GeneralAllocatorChunk) (rest : List GeneralAllocatorChunk)
    (f : GeneralAllocatorChunk) (l : Nat) :
    mergeLeft (c :: rest) f (some (l + 1)) =
      (c :: (mergeLeft rest f (some l)).1, (mergeLeft rest f (some l)).2) := by
  simp only [mergeLeft, List.getD_cons_succ, List.set_cons_succ]
  split <;> rfl

theorem mergeRight_cons_succ (c : GeneralAllocatorChunk) (X : List GeneralAllocatorChunk)
    (b : Bool) (f : GeneralAllocatorChunk) (l : Nat) (r : Option Nat) :
    mergeRight (c :: X) b f (some (l + 1)) (r.map (· + 1)) =
      (c :: (mergeRight X b f (some l) r).1, (mergeRight X b f (some l) r).2) := by
  cases r with
  | none => rfl
  | some r =>
    simp only [mergeRight, Option.map_some', List.getD_cons_succ, List.set_cons_succ,
      List.eraseIdx_cons_succ]
    split
    · split <;> rfl
    · rfl

theorem releaseChunk_cons_shift (c : GeneralAllocatorChunk) (rest : List GeneralAllocatorChunk)
    (f : GeneralAllocatorChunk) (hc : c.pChunk < f.pChunk) (hpos : lowerBound rest f ≠ 0) :
    releaseChunk (c :: rest) f = c :: releaseChunk rest f := by
  obtain ⟨q, hq⟩ : ∃ q, lowerBound rest f = q + 1 := ⟨lowerBound rest f - 1, by omega⟩
  have hlb : lowerBound (c :: rest) f = q + 1 + 1 := by
    rw [lowerBound, if_pos hc, hq]
  have hright : (if q + 1 + 1 ≠ (c :: rest).length then some (q + 1 + 1) else none) =
      (if q + 1 ≠ rest.length then some (q + 1) else none).map (· + 1) := by
    by_cases h : q + 1 = rest.length
    · simp [h]
    · simp [h]
  simp only [releaseChunk, hlb, hq, hright]
  simp only [ne_eq, Nat.add_one_ne_zero, not_false_eq_true, if_true, Nat.add_sub_cancel,
    mergeLeft_cons_succ, mergeRight_cons_succ, List.insertIdx_succ_cons]
  exact (apply_ite (List.cons c) _ _ _).symm

theorem lowerBound_eq_zero_of_le {r : GeneralAllocatorChunk} {R : List GeneralAllocatorChunk}
    {f : GeneralAllocatorChunk} (h : ¬ r.pChunk < f.pChunk) : lowerBound (r :: R) f = 0 := by
  rw [lowerBound, if_neg h]

theorem lowerBound_ne_zero_of_lt {r : GeneralAllocatorChunk} {R : List GeneralAllocatorChunk}
    {f : GeneralAllocatorChunk} (h : r.pChunk < f.pChunk) : lowerBound (r :: R) f ≠ 0 := by
  rw [lowerBound, if_pos h]
  exact Nat.succ_ne_zero _

theorem isAdjacent_eq_decide (c d : GeneralAllocatorChunk) :
    c.isAdjacent d = decide (c.pChunk + c.size = d.pChunk ∨ d.pChunk + d.size = c.pChunk) := by
  simp only [GeneralAllocatorChunk.isAdjacent, Bool.decide_or]
  rfl

theorem isAdjacent_true {c d : GeneralAllocatorChunk}
    (h : c.pChunk + c.size = d.pChunk ∨ d.pChunk + d.size = c.pChunk) : c.isAdjacent d = true := by
  rw [isAdjacent_eq_decide]; exact decide_eq_true h

theorem isAdjacent_false {c d : GeneralAllocatorChunk}
    (h : ¬ (c.pChunk + c.size = d.pChunk ∨ d.pChunk + d.size = c.pChunk)) :
    c.isAdjacent d = false := by
  rw [isAdjacent_eq_decide]; exact decide_eq_false h

/-- The merge steps of `deallocate` compute the coalescing insertion of the specification,
for a free list with gaps between its chunks and a non-empty freed range that lies apart
from every chunk, all within an arena `[lo, lo + S)` whose size is a `size_t`. -/
theorem releaseChunk_eq_coalescedInsert (lo S : Nat) (hS : S < SIZE_MOD)
    (f : GeneralAllocatorChunk) (hn : 0 < f.size)
    (hf : lo ≤ f.pChunk ∧ f.pChunk + f.size ≤ lo + S) :
    ∀ chunks : List GeneralAllocatorChunk,
      chunks.Pairwise ChunkGap →
      (∀ c ∈ chunks, lo ≤ c.pChunk ∧ c.pChunk + c.size ≤ lo + S) →
      (∀ c ∈ chunks, (c.pChunk < f.pChunk ∧ c.pChunk + c.size ≤ f.pChunk) ∨
        f.pChunk + f.size ≤ c.pChunk) →
      releaseChunk chunks f = coalescedInsert chunks f := by
  intro chunks
  induction chunks with
  | nil =>
    intro _ _ _
    simp [releaseChunk, lowerBound, mergeLeft, mergeRight, coalescedInsert]
  | cons c rest ih =>
    intro hgap hin hdisj
    have hgc := List.pairwise_cons.mp hgap
    have hcin := hin c (List.mem_cons_self _ _)
    have hcd := hdisj c (List.mem_cons_self _ _)
    by_cases hc : c.pChunk < f.pChunk
    · -- `c` lies below the freed range
      have hcend : c.pChunk + c.size ≤ f.pChunk := by omega
      have h2 : ¬ f.pChunk + f.size = c.pChunk := by omega
      have h3 : ¬ f.pChunk < c.pChunk := by omega
      cases rest with
      | nil =>
        have hlb : lowerBound [c] f = 1 := by simp [lowerBound, hc]
        by_cases hadj : c.pChunk + c.size = f.pChunk
        · have e1 : addSizeT c.size f.size = c.size + f.size :=
            addSizeT_of_lt (by simp only [SIZE_MOD] at *; omega)
          have hL : c.isAdjacent f = true := isAdjacent_true (Or.inl hadj)
          rw [show coalescedInsert [c] f = [⟨c.pChunk, c.size + f.size⟩] by
            simp only [coalescedInsert, if_pos hadj]]
          simp [releaseChunk, hlb, mergeLeft, mergeRight, hL, e1]
        · have hL : c.isAdjacent f = false := isAdjacent_false (by omega)
          rw [show coalescedInsert [c] f = [c, f] by
            simp only [coalescedInsert, if_neg hadj, if_neg h2, if_neg h3]]
          simp [releaseChunk, hlb, mergeLeft, mergeRight, hL]
      | cons r R =>
        have hrin := hin r (List.mem_cons_of_mem _ (List.mem_cons_self _ _))
        have hrd := hdisj r (List.mem_cons_of_mem _ (List.mem_cons_self _ _))
        have hcr : c.pChunk + c.size < r.pChunk := hgc.1 r (List.mem_cons_self _ _)
        by_cases hr : r.pChunk < f.pChunk
        · -- the insertion position is further right: both sides recurse
          have h1 : ¬ c.pChunk + c.size = f.pChunk := by omega
          rw [releaseChunk_cons_shift c (r :: R) f hc (lowerBound_ne_zero_of_lt hr)]
          rw [ih hgc.2 (fun d hd => hin d (List.mem_cons_of_mem _ hd))
            (fun d hd => hdisj d (List.mem_cons_of_mem _ hd))]
          conv_rhs => rw [coalescedInsert]
          simp only [h1, h2, h3, if_false]
        · -- `c` is the left neighbour and `r` the right neighbour
          have hrf : f.pChunk + f.size ≤ r.pChunk := by omega
          have h0 : ¬ r.pChunk + r.size = f.pChunk := by omega
          have h4 : f.pChunk < r.pChunk := by omega
          have hlb : lowerBound (c :: r :: R) f = 1 := by
            rw [lowerBound, if_pos hc, lowerBound_eq_zero_of_le hr]
          by_cases hadj : c.pChunk + c.size = f.pChunk
          · have e1 : addSizeT c.size f.size = c.size + f.size :=
              addSizeT_of_lt (by simp only [SIZE_MOD] at *; omega)
            have hL : c.isAdjacent f = true := isAdjacent_true (Or.inl hadj)
            by_cases hadjr : f.pChunk + f.size = r.pChunk
            · have e2 : addSizeT (c.size + f.size) r.size = c.size + f.size + r.size :=
                addSizeT_of_lt (by simp only [SIZE_MOD] at *; omega)
              have hR : f.isAdjacent r = true := isAdjacent_true (Or.inl hadjr)
              rw [show coalescedInsert (c :: r :: R) f =
                  ⟨c.pChunk, c.size + f.size + r.size⟩ :: R by
                simp only [coalescedInsert, if_pos hadj, if_pos hadjr]]
              simp [releaseChunk, hlb, mergeLeft, mergeRight, hL, hR, e1, e2]
            · have hR : f.isAdjacent r = false := isAdjacent_false (by omega)
              rw [show coalescedInsert (c :: r :: R) f =
                  ⟨c.pChunk, c.size + f.size⟩ :: r :: R by
                simp only [coalescedInsert, if_pos hadj, if_neg hadjr]]
              simp [releaseChunk, hlb, mergeLeft, mergeRight, hL, hR, e1]
          · have hL : c.isAdjacent f = false := isAdjacent_false (by omega)
            by_cases hadjr : f.pChunk + f.size = r.pChunk
            · have e3 : addSizeT r.size f.size = r.size + f.size :=
                addSizeT_of_lt (by simp only [SIZE_MOD] at *; omega)
              have hR : f.isAdjacent r = true := isAdjacent_true (Or.inl hadjr)
              rw [show coalescedInsert (c :: r :: R) f =
                  c :: ⟨f.pChunk, r.size + f.size⟩ :: R by
                simp only [coalescedInsert, if_neg hadj, if_neg h2, if_neg h3, if_neg h0,
                  if_pos hadjr]]
              simp [releaseChunk, hlb, mergeLeft, mergeRight, hL, hR, e3]
            · have hR : f.isAdjacent r = false := isAdjacent_false (by omega)
              rw [show coalescedInsert (c :: r :: R) f = c :: f :: r :: R by
                simp only [coalescedInsert, if_neg hadj, if_neg h2, if_neg h3, if_neg h0,
                  if_neg hadjr, if_pos h4]]
              simp [releaseChunk, hlb, mergeLeft, mergeRight, hL, hR]
    · -- `c` is the right neighbour, there is no left neighbour
      have hcf : f.pChunk + f.size ≤ c.pChunk := by omega
      have h0 : ¬ c.pChunk + c.size = f.pChunk := by omega
      have h4 : f.pChunk < c.pChunk := by omega
      have hlb : lowerBound (c :: rest) f = 0 := lowerBound_eq_zero_of_le hc
      by_cases hadjr : f.pChunk + f.size = c.pChunk
      · have e3 : addSizeT c.size f.size = c.size + f.size :=
          addSizeT_of_lt (by simp only [SIZE_MOD] at *; omega)
        have hR : f.isAdjacent c = true := isAdjacent_true (Or.inl hadjr)
        rw [show coalescedInsert (c :: rest) f = ⟨f.pChunk, c.size + f.size⟩ :: rest by
          simp only [coalescedInsert, if_neg h0, if_pos hadjr]]
        simp [releaseChunk, hlb, mergeLeft, mergeRight, hR, e3]
      · have hR : f.isAdjacent c = false := isAdjacent_false (by omega)
        rw [show coalescedInsert (c :: rest) f = f :: c :: rest by
          simp only [coalescedInsert, if_neg h0, if_neg hadjr, if_pos h4]]
        simp [releaseChunk, hlb, mergeLeft, mergeRight, hR]

/-! ## Properties of the coalescing insertion -/

theorem coalescedInsert_cons_of_ne {c f : GeneralAllocatorChunk}
    (rest : List GeneralAllocatorChunk) (h1 : ¬ c.pChunk + c.size = f.pChunk) :
    coalescedInsert (c :: rest) f =
      if f.pChunk + f.size = c.pChunk then ⟨f.pChunk, c.size + f.size⟩ :: rest
      else if f.pChunk < c.pChunk then f :: c :: rest
      else c :: coalescedInsert rest f := by
  cases rest <;> simp only [coalescedInsert, if_neg h1]

theorem coalescedInsert_cons_nil_of_eq {c f : GeneralAllocatorChunk}
    (h1 : c.pChunk + c.size = f.pChunk) :
    coalescedInsert [c] f = [⟨c.pChunk, c.size + f.size⟩] := by
  simp only [coalescedInsert, if_pos h1]

theorem coalescedInsert_cons_cons_of_eq {c f : GeneralAllocatorChunk} (r : GeneralAllocatorChunk)
    (R : List GeneralAllocatorChunk) (h1 : c.pChunk + c.size = f.pChunk) :
    coalescedInsert (c :: r :: R) f =
      if f.pChunk + f.size = r.pChunk then ⟨c.pChunk, c.size + f.size + r.size⟩ :: R
      else ⟨c.pChunk, c.size + f.size⟩ :: r :: R := by
  simp only [coalescedInsert, if_pos h1]

theorem countP_covers_cons (c : GeneralAllocatorChunk) (l : List GeneralAllocatorChunk) (x : Nat) :
    (c :: l).countP (fun d => covers d x) =
      l.countP (fun d => covers d x) +
        (if c.pChunk ≤ x ∧ x < c.pChunk + c.size then 1 else 0) := by
  rw [List.countP_cons]
  simp only [covers, decide_eq_true_eq]

/-- The bytes covered after the insertion are the bytes covered before and the bytes of the
inserted range. -/
theorem countP_covers_coalescedInsert (f : GeneralAllocatorChunk) (x : Nat) :
    ∀ l : List GeneralAllocatorChunk,
      (coalescedInsert l f).countP (fun d => covers d x) =
        l.countP (fun d => covers d x) +
          (if f.pChunk ≤ x ∧ x < f.pChunk + f.size then 1 else 0) := by
  intro l
  induction l with
  | nil => simp [coalescedInsert, countP_covers_cons]
  | cons c rest ih =>
    by_cases h1 : c.pChunk + c.size = f.pChunk
    · cases rest with
      | nil =>
        rw [coalescedInsert_cons_nil_of_eq h1]
        simp only [countP_covers_cons, List.countP_nil]
        split_ifs <;> omega
      | cons r R =>
        rw [coalescedInsert_cons_cons_of_eq r R h1]
        by_cases h2 : f.pChunk + f.size = r.pChunk
        · simp only [if_pos h2, countP_covers_cons]
          split_ifs <;> omega
        · simp only [if_neg h2, countP_covers_cons]
          split_ifs <;> omega
    · rw [coalescedInsert_cons_of_ne rest h1]
      by_cases h2 : f.pChunk + f.size = c.pChunk
      · rw [if_pos h2]
        simp only [countP_covers_cons]
        split_ifs <;> omega
      · rw [if_neg h2]
        by_cases h3 : f.pChunk < c.pChunk
        · rw [if_pos h3]
          simp only [countP_covers_cons]
        · rw [if_neg h3]
          rw [countP_covers_cons, ih, countP_covers_cons]
          omega

theorem totalFree_cons (c : GeneralAllocatorChunk) (l : List GeneralAllocatorChunk) :
    totalFree (c :: l) = c.size + totalFree l := by
  simp [totalFree]

theorem totalFree_coalescedInsert (f : GeneralAllocatorChunk) :
    ∀ l : List GeneralAllocatorChunk, totalFree (coalescedInsert l f) = totalFree l + f.size := by
  intro l
  induction l with
  | nil => simp [coalescedInsert, totalFree]
  | cons c rest ih =>
    by_cases h1 : c.pChunk + c.size = f.pChunk
    · cases rest with
      | nil =>
        rw [coalescedInsert_cons_nil_of_eq h1]
        simp only [totalFree, List.map_cons, List.map_nil, List.sum_cons, List.sum_nil]; omega
      | cons r R =>
        rw [coalescedInsert_cons_cons_of_eq r R h1]
        split_ifs
        · simp only [totalFree_cons]; omega
        · simp only [totalFree_cons]; omega
    · rw [coalescedInsert_cons_of_ne rest h1]
      split_ifs
      · simp only [totalFree_cons]; omega
      · simp only [totalFree_cons]; omega
      · simp only [totalFree_cons, ih]; omega

theorem Fused.mono {l l' : List GeneralAllocatorChunk} {f d : GeneralAllocatorChunk}
    (h : Fused l f d) (hsub : ∀ c ∈ l, c ∈ l') : Fused l' f d := by
  obtain ⟨h1, h2, h3⟩ := h
  refine ⟨?_, ?_, h3⟩
  · rcases h1 with h1 | ⟨c, hc, h1⟩
    · exact Or.inl h1
    · exact Or.inr ⟨c, hsub c hc, h1⟩
  · rcases h2 with h2 | ⟨c, hc, h2⟩
    · exact Or.inl h2
    · exact Or.inr ⟨c, hsub c hc, h2⟩

theorem mem_coalescedInsert (f : GeneralAllocatorChunk) :
    ∀ (l : List GeneralAllocatorChunk) (d : GeneralAllocatorChunk),
      d ∈ coalescedInsert l f → d ∈ l ∨ Fused l f d := by
  intro l
  induction l with
  | nil =>
    intro d hd
    simp only [coalescedInsert, List.mem_singleton] at hd
    subst hd
    exact Or.inr ⟨Or.inl rfl, Or.inl rfl, le_refl _, le_refl _⟩
  | cons c rest ih =>
    intro d hd
    by_cases h1 : c.pChunk + c.size = f.pChunk
    · cases rest with
      | nil =>
        rw [coalescedInsert_cons_nil_of_eq h1, List.mem_singleton] at hd
        subst hd
        exact Or.inr ⟨Or.inr ⟨c, List.mem_cons_self _ _, rfl, h1⟩, Or.inl (by simp only; omega),
          by simp only; omega, by simp only; omega⟩
      | cons r R =>
        rw [coalescedInsert_cons_cons_of_eq r R h1] at hd
        by_cases h2 : f.pChunk + f.size = r.pChunk
        · simp only [if_pos h2] at hd
          rcases List.mem_cons.mp hd with rfl | hd
          · exact Or.inr ⟨Or.inr ⟨c, List.mem_cons_self _ _, rfl, h1⟩,
              Or.inr ⟨r, by simp, by simp only; omega, h2.symm⟩,
              by simp only; omega, by simp only; omega⟩
          · exact Or.inl (List.mem_cons_of_mem _ (List.mem_cons_of_mem _ hd))
        · simp only [if_neg h2] at hd
          rcases List.mem_cons.mp hd with rfl | hd
          · exact Or.inr ⟨Or.inr ⟨c, List.mem_cons_self _ _, rfl, h1⟩,
              Or.inl (by simp only; omega), by simp only; omega, by simp only; omega⟩
          · exact Or.inl (List.mem_cons_of_mem _ hd)
    · rw [coalescedInsert_cons_of_ne rest h1] at hd
      by_cases h2 : f.pChunk + f.size = c.pChunk
      · rw [if_pos h2] at hd
        rcases List.mem_cons.mp hd with rfl | hd
        · exact Or.inr ⟨Or.inl rfl, Or.inr ⟨c, List.mem_cons_self _ _, by simp only; omega,
            h2.symm⟩, le_refl _, by simp only; omega⟩
        · exact Or.inl (List.mem_cons_of_mem _ hd)
      · rw [if_neg h2] at hd
        by_cases h3 : f.pChunk < c.pChunk
        · rw [if_pos h3] at hd
          rcases List.mem_cons.mp hd with rfl | hd
          · exact Or.inr ⟨Or.inl rfl, Or.inl rfl, le_refl _, le_refl _⟩
          · exact Or.inl hd
        · rw [if_neg h3] at hd
          rcases List.mem_cons.mp hd with rfl | hd
          · exact Or.inl (List.mem_cons_self _ _)
          · rcases ih d hd with h | h
            · exact Or.inl (List.mem_cons_of_mem _ h)
            · exact Or.inr (h.mono (fun e he => List.mem_cons_of_mem _ he))

theorem coalescedInsert_pairwise (f : GeneralAllocatorChunk) (hn : 0 < f.size) :
    ∀ l : List GeneralAllocatorChunk,
      l.Pairwise ChunkGap →
      (∀ c ∈ l, (c.pChunk < f.pChunk ∧ c.pChunk + c.size ≤ f.pChunk) ∨
        f.pChunk + f.size ≤ c.pChunk) →
      (coalescedInsert l f).Pairwise ChunkGap := by
  intro l
  induction l with
  | nil => intro _ _; simp [coalescedInsert]
  | cons c rest ih =>
    intro hgap hdisj
    have hgc := List.pairwise_cons.mp hgap
    have hcd := hdisj c (List.mem_cons_self _ _)
    have hrest : ∀ d ∈ rest, c.pChunk + c.size < d.pChunk := hgc.1
    have hdrest : ∀ d ∈ rest, (d.pChunk < f.pChunk ∧ d.pChunk + d.size ≤ f.pChunk) ∨
        f.pChunk + f.size ≤ d.pChunk := fun d hd => hdisj d (List.mem_cons_of_mem _ hd)
    by_cases h1 : c.pChunk + c.size = f.pChunk
    · cases rest with
      | nil =>
        rw [coalescedInsert_cons_nil_of_eq h1]
        exact List.pairwise_singleton _ _
      | cons r R =>
        rw [coalescedInsert_cons_cons_of_eq r R h1]
        have hgr := List.pairwise_cons.mp hgc.2
        have hcr := hrest r (List.mem_cons_self _ _)
        by_cases h2 : f.pChunk + f.size = r.pChunk
        · rw [if_pos h2]
          refine List.pairwise_cons.mpr ⟨fun d hd => ?_, hgr.2⟩
          have := hgr.1 d hd
          unfold ChunkGap at *
          simp only
          omega
        · rw [if_neg h2]
          refine List.pairwise_cons.mpr ⟨fun d hd => ?_, hgc.2⟩
          have h3 := hrest d hd
          have h4 := hdrest d hd
          unfold ChunkGap at *
          simp only
          rcases List.mem_cons.mp hd with rfl | hd'
          · omega
          · have := hgr.1 d hd'
            unfold ChunkGap at this
            have := hdrest r (List.mem_cons_self _ _)
            omega
    · rw [coalescedInsert_cons_of_ne rest h1]
      by_cases h2 : f.pChunk + f.size = c.pChunk
      · rw [if_pos h2]
        refine List.pairwise_cons.mpr ⟨fun d hd => ?_, hgc.2⟩
        have := hrest d hd
        unfold ChunkGap
        simp only
        omega
      · rw [if_neg h2]
        by_cases h3 : f.pChunk < c.pChunk
        · rw [if_pos h3]
          refine List.pairwise_cons.mpr ⟨fun d hd => ?_, hgap⟩
          unfold ChunkGap
          rcases List.mem_cons.mp hd with rfl | hd'
          · omega
          · have := hrest d hd'
            omega
        · rw [if_neg h3]
          refine List.pairwise_cons.mpr ⟨fun d hd => ?_, ih hgc.2 hdrest⟩
          unfold ChunkGap
          rcases mem_coalescedInsert f rest d hd with hd' | ⟨hstart, _, _, _⟩
          · exact hrest d hd'
          · rcases hstart with hs | ⟨e, he, hs, _⟩
            · omega
            · have := hrest e he
              omega

theorem foldl_addSizeT_eq (l : List GeneralAllocatorChunk) :
    ∀ acc : Nat, acc + totalFree l < SIZE_MOD →
      l.foldl (fun availableMemory chunk => addSizeT availableMemory chunk.size) acc =
        acc + totalFree l := by
  induction l with
  | nil => intro acc _; simp [totalFree]
  | cons c rest ih =>
    intro acc h
    rw [totalFree_cons] at h
    rw [List.foldl_cons, addSizeT_of_lt (by omega), ih _ (by omega), totalFree_cons]
    omega

theorem getAvailableMemory_eq_totalFree (s : GeneralAllocator)
    (h : totalFree s.m_chunks < SIZE_MOD) : s.getAvailableMemory = totalFree s.m_chunks := by
  unfold getAvailableMemory
  rw [foldl_addSizeT_eq _ 0 (by omega)]
  omega

/-- Chunks with gaps between them inside `[b, hi]` have at most `hi - b` bytes in total. -/
theorem totalFree_le_of_pairwise (hi : Nat) :
    ∀ (l : List GeneralAllocatorChunk) (b : Nat), b ≤ hi →
      l.Pairwise ChunkGap →
      (∀ c ∈ l, b ≤ c.pChunk ∧ c.pChunk + c.size ≤ hi) →
      totalFree l + b ≤ hi := by
  intro l
  induction l with
  | nil => intro b hb _ _; simp [totalFree]; exact hb
  | cons c rest ih =>
    intro b _ hgap hin
    have hgc := List.pairwise_cons.mp hgap
    have hc := hin c (List.mem_cons_self _ _)
    have := ih (c.pChunk + c.size) hc.2 hgc.2 (fun d hd => by
      have h1 := hgc.1 d hd
      have h2 := hin d (List.mem_cons_of_mem _ hd)
      unfold ChunkGap at h1
      omega)
    rw [totalFree_cons]
    omega

theorem coalesced_iff_chain (l : List GeneralAllocatorChunk) :
    Coalesced l ↔ l.Chain' ChunkGap := by
  induction l with
  | nil => simp [Coalesced, coalescedCheck]
  | cons c rest ih =>
    cases rest with
    | nil => simp [Coalesced, coalescedCheck]
    | cons d rest' =>
      unfold Coalesced at ih ⊢
      rw [coalescedCheck, Bool.and_eq_true, decide_eq_true_eq, ih, List.chain'_cons]

theorem coalesced_iff_pairwise (l : List GeneralAllocatorChunk) :
    Coalesced l ↔ l.Pairwise ChunkGap :=
  (coalesced_iff_chain l).trans List.chain'_iff_pairwise

theorem coalescedInsert_bounds {lo hi : Nat} {f : GeneralAllocatorChunk}
    {l : List GeneralAllocatorChunk}
    (hf : lo ≤ f.pChunk ∧ f.pChunk + f.size ≤ hi)
    (hin : ∀ c ∈ l, lo ≤ c.pChunk ∧ c.pChunk + c.size ≤ hi) :
    ∀ d ∈ coalescedInsert l f, lo ≤ d.pChunk ∧ d.pChunk + d.size ≤ hi := by
  intro d hd
  rcases mem_coalescedInsert f l d hd with hd' | ⟨hs, he, _, _⟩
  · exact hin d hd'
  · constructor
    · rcases hs with hs | ⟨e, hel, hs, _⟩
      · omega
      · have := hin e hel; omega
    · rcases he with he | ⟨e, hel, he, _⟩
      · omega
      · have := hin e hel; omega

theorem deallocate_of_valid {s : GeneralAllocator} {h : MemoryHandle}
    (hvalid : h.m_address ≠ 0 ∧ s.isHandleValid h = true) :
    s.deallocate h =
      (.ok (),
        { s with
          m_chunks := releaseChunk s.m_chunks
            ⟨h.m_address, mulSizeT h.getObjectAmount h.T.sizeofT⟩
          m_handleTable := mapErase s.m_handleTable h.m_address }) := by
  have h1 : ¬ (h.m_address = 0 ∨ s.isHandleValid h = false) := by
    rintro (h0 | h0)
    · exact hvalid.1 h0
    · rw [hvalid.2] at h0; exact absurd h0 (by simp)
  have h2 : mapContains s.m_handleTable h.m_address = true := hvalid.2
  unfold deallocate
  rw [if_neg h1]
  simp only [MemoryHandle.getAddress, h2, releaseChunk, Bool.true_eq_false, if_false]

theorem whole_block_size {h : MemoryHandle} (hdvd : h.T.sizeofT ∣ h.m_size)
    (hlt : h.m_size < SIZE_MOD) : mulSizeT h.getObjectAmount h.T.sizeofT = h.m_size := by
  unfold MemoryHandle.getObjectAmount
  have : h.m_size / h.T.sizeofT * h.T.sizeofT = h.m_size := Nat.div_mul_cancel hdvd
  rw [mulSizeT_of_lt (by rw [this]; exact hlt), this]

/-- C4 (amended). For a free list that is sorted with a gap between consecutive chunks and a
valid handle whose block holds at least one byte and whole elements, every free chunk
starting and ending at or below the start of the block or starting at or above its end
(chunks and block being ranges of the arena, whose size is a `size_t`), `deallocate`
succeeds and leaves the coalescing insertion of the block into the free list: the list is
again coalesced, it covers the bytes it covered before and the bytes of the block, the key
of the block is removed from the handle table and the available memory grows by the size of
the block. -/
theorem deallocate_coalesces (s : GeneralAllocator) (h : MemoryHandle)
    (hS : s.m_size < SIZE_MOD)
    (hco : Coalesced s.m_chunks)
    (hin : ∀ c ∈ s.m_chunks,
      s.m_pMemory ≤ c.pChunk ∧ c.pChunk + c.size ≤ s.m_pMemory + s.m_size)
    (hvalid : h.m_address ≠ 0 ∧ s.isHandleValid h = true)
    (hblock : 0 < h.m_size ∧ h.T.sizeofT ∣ h.m_size)
    (hbin : s.m_pMemory ≤ h.m_address ∧ h.m_address + h.m_size ≤ s.m_pMemory + s.m_size)
    (hdisj : ∀ c ∈ s.m_chunks,
      (c.pChunk < h.m_address ∧ c.pChunk + c.size ≤ h.m_address) ∨
        h.m_address + h.m_size ≤ c.pChunk) :
    (s.deallocate h).1 = .ok () ∧
      (s.deallocate h).2.m_chunks = coalescedInsert s.m_chunks ⟨h.m_address, h.m_size⟩ ∧
      Coalesced (s.deallocate h).2.m_chunks ∧
      (∀ x, (s.deallocate h).2.m_chunks.countP (fun c => covers c x) =
        s.m_chunks.countP (fun c => covers c x) +
          (if h.m_address ≤ x ∧ x < h.m_address + h.m_size then 1 else 0)) ∧
      (s.deallocate h).2.m_handleTable = mapErase s.m_handleTable h.m_address ∧
      mapContains (s.deallocate h).2.m_handleTable h.m_address = false ∧
      (s.deallocate h).2.getAvailableMemory = s.getAvailableMemory + h.m_size := by
  have hpw := (coalesced_iff_pairwise _).mp hco
  have hsize : mulSizeT h.getObjectAmount h.T.sizeofT = h.m_size :=
    whole_block_size hblock.2 (by simp only [SIZE_MOD] at *; omega)
  have hrel : releaseChunk s.m_chunks ⟨h.m_address, h.m_size⟩ =
      coalescedInsert s.m_chunks ⟨h.m_address, h.m_size⟩ :=
    releaseChunk_eq_coalescedInsert s.m_pMemory s.m_size hS ⟨h.m_address, h.m_size⟩ hblock.1
      hbin s.m_chunks hpw hin hdisj
  have hpw' := coalescedInsert_pairwise ⟨h.m_address, h.m_size⟩ hblock.1 s.m_chunks hpw hdisj
  have hin' := coalescedInsert_bounds (f := ⟨h.m_address, h.m_size⟩) hbin hin
  have htot := totalFree_coalescedInsert ⟨h.m_address, h.m_size⟩ s.m_chunks
  have hle := totalFree_le_of_pairwise (s.m_pMemory + s.m_size) _ s.m_pMemory (by omega) hpw' hin'
  rw [deallocate_of_valid hvalid, hsize, hrel]
  refine ⟨rfl, rfl, (coalesced_iff_pairwise _).mpr hpw', ?_, rfl, mapContains_mapErase _ _, ?_⟩
  · intro x
    exact countP_covers_coalescedInsert ⟨h.m_address, h.m_size⟩ x s.m_chunks
  · rw [getAvailableMemory_eq_totalFree _ (by simp only [SIZE_MOD] at *; omega),
      getAvailableMemory_eq_totalFree _ (by simp only [SIZE_MOD] at *; omega)]
    exact htot

set_option maxRecDepth 100000 in
theorem deallocate_coalesces_witness :
    (scenarioS4.m_size < SIZE_MOD ∧ Coalesced scenarioS4.m_chunks ∧
      (∀ c ∈ scenarioS4.m_chunks, scenarioS4.m_pMemory ≤ c.pChunk ∧
        c.pChunk + c.size ≤ scenarioS4.m_pMemory + scenarioS4.m_size) ∧
      ((scenarioS4.handleAt 2).m_address ≠ 0 ∧
        scenarioS4.isHandleValid (scenarioS4.handleAt 2) = true) ∧
      (0 < (scenarioS4.handleAt 2).m_size ∧
        (scenarioS4.handleAt 2).T.sizeofT ∣ (scenarioS4.handleAt 2).m_size) ∧
      (scenarioS4.m_pMemory ≤ (scenarioS4.handleAt 2).m_address ∧
        (scenarioS4.handleAt 2).m_address + (scenarioS4.handleAt 2).m_size ≤
          scenarioS4.m_pMemory + scenarioS4.m_size) ∧
      (∀ c ∈ scenarioS4.m_chunks,
        (c.pChunk < (scenarioS4.handleAt 2).m_address ∧
            c.pChunk + c.size ≤ (scenarioS4.handleAt 2).m_address) ∨
          (scenarioS4.handleAt 2).m_address + (scenarioS4.handleAt 2).m_size ≤ c.pChunk)) ∧
    (scenarioS4.deallocate (scenarioS4.handleAt 2)).1 = .ok () ∧
    Coalesced (scenarioS4.deallocate (scenarioS4.handleAt 2)).2.m_chunks ∧
    (scenarioS4.deallocate (scenarioS4.handleAt 2)).2.getAvailableMemory =
      scenarioS4.getAvailableMemory + (scenarioS4.handleAt 2).m_size :=
  ⟨⟨by decide, by decide, by decide, by decide, by decide, by decide, by decide⟩,
    (deallocate_coalesces scenarioS4 (scenarioS4.handleAt 2) (by decide) (by decide) (by decide)
      (by decide) (by decide) (by decide) (by decide)).1,
    (deallocate_coalesces scenarioS4 (scenarioS4.handleAt 2) (by decide) (by decide) (by decide)
      (by decide) (by decide) (by decide) (by decide)).2.2.1,
    (deallocate_coalesces scenarioS4 (scenarioS4.handleAt 2) (by decide) (by decide) (by decide)
      (by decide) (by decide) (by decide) (by decide)).2.2.2.2.2.2⟩

/-! ## The handle table as a sorted association list -/

theorem mem_mapErase {t : HandleTable} {k : Nat} {e : Nat × Nat} :
    e ∈ mapErase t k ↔ e ∈ t ∧ e.1 ≠ k := by
  simp [mapErase]

theorem mapFind_some_mem {t : HandleTable} {k v : Nat} (h : mapFind t k = some v) :
    (k, v) ∈ t := by
  induction t with
  | nil => simp [mapFind] at h
  | cons e rest ih =>
    rw [mapFind] at h
    by_cases hk : e.1 = k
    · rw [if_pos hk] at h
      have hv : e.2 = v := Option.some.inj h
      have : e = (k, v) := Prod.ext hk hv
      rw [this]; exact List.mem_cons_self _ _
    · rw [if_neg hk] at h
      exact List.mem_cons_of_mem _ (ih h)

theorem mem_mapAssign {t : HandleTable} {k v : Nat} (hk : ∀ e ∈ t, e.1 ≠ k) {e' : Nat × Nat} :
    e' ∈ mapAssign t k v ↔ e' = (k, v) ∨ e' ∈ t := by
  induction t with
  | nil => simp [mapAssign]
  | cons e rest ih =>
    have hne : ¬ k = e.1 := fun h => hk e (List.mem_cons_self _ _) h.symm
    have ih' := ih (fun d hd => hk d (List.mem_cons_of_mem _ hd))
    unfold mapAssign
    by_cases h1 : k < e.1
    · rw [if_pos h1]; simp
    · rw [if_neg h1, if_neg hne, List.mem_cons, ih', List.mem_cons]
      tauto

theorem pairwise_mapAssign {R : Nat × Nat → Nat × Nat → Prop} {t : HandleTable} {k v : Nat}
    (hsorted : t.Pairwise (fun e e' => e.1 < e'.1)) (hR : t.Pairwise R)
    (hk : ∀ e ∈ t, e.1 ≠ k)
    (hlt : ∀ e ∈ t, e.1 < k → R e (k, v)) (hgt : ∀ e ∈ t, k < e.1 → R (k, v) e) :
    (mapAssign t k v).Pairwise R := by
  induction t with
  | nil => simp [mapAssign]
  | cons e rest ih =>
    have hne : ¬ k = e.1 := fun h => hk e (List.mem_cons_self _ _) h.symm
    have hs := List.pairwise_cons.mp hsorted
    have hr := List.pairwise_cons.mp hR
    unfold mapAssign
    by_cases h1 : k < e.1
    · rw [if_pos h1]
      refine List.pairwise_cons.mpr ⟨fun d hd => ?_, hR⟩
      rcases List.mem_cons.mp hd with rfl | hd'
      · exact hgt _ (List.mem_cons_self _ _) h1
      · exact hgt d hd (lt_trans h1 (hs.1 d hd'))
    · rw [if_neg h1, if_neg hne]
      have hrest : ∀ d ∈ rest, d.1 ≠ k := fun d hd => hk d (List.mem_cons_of_mem _ hd)
      refine List.pairwise_cons.mpr ⟨fun d hd => ?_, ih hs.2 hr.2 hrest
        (fun d hd => hlt d (List.mem_cons_of_mem _ hd))
        (fun d hd => hgt d (List.mem_cons_of_mem _ hd))⟩
      rcases (mem_mapAssign hrest).mp hd with rfl | hd'
      · exact hlt e (List.mem_cons_self _ _) (by omega)
      · exact hr.1 d hd'

theorem countP_mapAssign {t : HandleTable} {k v : Nat} (q : Nat × Nat → Bool)
    (hk : ∀ e ∈ t, e.1 ≠ k) :
    (mapAssign t k v).countP q = t.countP q + (if q (k, v) = true then 1 else 0) := by
  induction t with
  | nil => simp [mapAssign, List.countP_cons]
  | cons e rest ih =>
    have hne : ¬ k = e.1 := fun h => hk e (List.mem_cons_self _ _) h.symm
    have ih' := ih (fun d hd => hk d (List.mem_cons_of_mem _ hd))
    unfold mapAssign
    by_cases h1 : k < e.1
    · rw [if_pos h1, List.countP_cons]
    · rw [if_neg h1, if_neg hne, List.countP_cons, ih', List.countP_cons]
      omega

theorem countP_mapErase {t : HandleTable} {k v : Nat} (q : Nat × Nat → Bool)
    (hsorted : t.Pairwise (fun e e' => e.1 < e'.1)) (hmem : (k, v) ∈ t) :
    (mapErase t k).countP q + (if q (k, v) = true then 1 else 0) = t.countP q := by
  induction t with
  | nil => simp at hmem
  | cons e rest ih =>
    have hs := List.pairwise_cons.mp hsorted
    rcases List.mem_cons.mp hmem with he | hrest
    · subst he
      have hfil : mapErase rest k = rest := by
        unfold mapErase
        apply List.filter_eq_self.mpr
        intro d hd
        have := hs.1 d hd
        simp only [bne_iff_ne, ne_eq]
        omega
      have : mapErase ((k, v) :: rest) k = rest := by
        rw [← hfil]
        simp [mapErase]
      rw [this, List.countP_cons]
    · have hne : e.1 ≠ k := by
        have := hs.1 _ hrest
        simp only at this
        omega
      have : mapErase (e :: rest) k = e :: mapErase rest k := by
        simp [mapErase, hne]
      rw [this, List.countP_cons, List.countP_cons, ← ih hs.2 hrest]
      omega

/-- Two distinct members of a pairwise related list are related in one order or the other. -/
theorem pairwise_either {α : Type} {R : α → α → Prop} {l : List α} (h : l.Pairwise R)
    {a b : α} (ha : a ∈ l) (hb : b ∈ l) (hne : a ≠ b) : R a b ∨ R b a := by
  have h' : l.Pairwise (fun x y => R x y ∨ R y x) := h.imp (fun hxy => Or.inl hxy)
  exact h'.forall (fun x y hxy => hxy.symm) ha hb hne

theorem handleAt_set_ne {s : GeneralAllocator} {l : List MemoryHandle} {i j : Nat}
    {h : MemoryHandle} (hij : i ≠ j) :
    handleAt { s with m_handles := l.set i h } j = l.getD j default := by
  simp [handleAt, List.getD_eq_getElem?_getD, List.getElem?_set_ne hij]

/-! ## allocate keeps the invariant -/

theorem getD_set_self (l : List MemoryHandle) (i : Nat) (h : MemoryHandle) (hi : i < l.length) :
    (l.set i h).getD i default = h := by
  simp [List.getD_eq_getElem?_getD, List.getElem?_set, hi]

theorem getD_set_ne (l : List MemoryHandle) {i j : Nat} (h : MemoryHandle) (hij : i ≠ j) :
    (l.set i h).getD j default = l.getD j default := by
  simp [List.getD_eq_getElem?_getD, List.getElem?_set_ne hij]

theorem Sound.keys_sorted {s : GeneralAllocator} (hs : Sound s) :
    s.m_handleTable.Pairwise (fun e e' => e.1 < e'.1) := by
  refine hs.blocks_gap.imp_of_mem ?_
  intro e e' he _ h
  have := (hs.entries e he).2.2.1
  omega

theorem registerHandle_snd (s : GeneralAllocator) (T : ElemType) (data size : Nat) :
    (s.registerHandle T data size).2 =
      if s.m_handleCount ≥ s.m_handles.length then s
      else
        { s with
          m_handles := s.m_handles.set s.m_handleCount ⟨data, size, T⟩
          m_handleTable := mapAssign s.m_handleTable data s.m_handleCount
          m_handleCount := s.m_handleCount + 1 } := by
  unfold registerHandle
  split <;> rfl

theorem registerHandle_fst (s : GeneralAllocator) (T : ElemType) (data size : Nat) :
    (s.registerHandle T data size).1 =
      if s.m_handleCount ≥ s.m_handles.length then .error .OutOfHandles
      else .ok s.m_handleCount := by
  unfold registerHandle
  split <;> rfl

/-- Registering a new block that lies in the arena apart from the chunks and the other
blocks keeps the invariant. -/
theorem sound_register {s : GeneralAllocator} (hs : Sound s) (T : ElemType) (data size : Nat)
    (hcnt : s.m_handleCount < s.m_handles.length)
    (hpos : 0 < size) (hdvd : T.sizeofT ∣ size)
    (hin : s.m_pMemory ≤ data ∧ data + size ≤ s.m_pMemory + s.m_size)
    (hblocks : ∀ e ∈ s.m_handleTable,
      e.1 + (s.handleAt e.2).m_size ≤ data ∨ data + size ≤ e.1)
    (hchunks : ∀ c ∈ s.m_chunks,
      (c.pChunk < data ∧ c.pChunk + c.size ≤ data) ∨ data + size ≤ c.pChunk) :
    Sound
      { s with
        m_handles := s.m_handles.set s.m_handleCount ⟨data, size, T⟩
        m_handleTable := mapAssign s.m_handleTable data s.m_handleCount
        m_handleCount := s.m_handleCount + 1 } := by
  have hold : ∀ e ∈ s.m_handleTable,
      (s.m_handles.set s.m_handleCount ⟨data, size, T⟩).getD e.2 default = s.handleAt e.2 := by
    intro e he
    have := (hs.entries e he).1
    rw [getD_set_ne _ _ (by omega)]
    rfl
  have hnew : (s.m_handles.set s.m_handleCount ⟨data, size, T⟩).getD s.m_handleCount default =
      ⟨data, size, T⟩ := getD_set_self _ _ _ hcnt
  have hkey : ∀ e ∈ s.m_handleTable, e.1 ≠ data := by
    intro e he
    have := (hs.entries e he).2.2.1
    have := hblocks e he
    omega
  refine
    { size_lt := hs.size_lt
      count_le := ?_
      chunks_gap := hs.chunks_gap
      chunks_in := hs.chunks_in
      chunks_pos := hs.chunks_pos
      blocks_gap := ?_
      entries := ?_
      apart := ?_ }
  · simp only [List.length_set]
    omega
  · simp only [handleAt]
    apply pairwise_mapAssign hs.keys_sorted _ hkey
    · intro e he hlt
      rw [hold e he]
      have := (hs.entries e he).1
      have := hblocks e he
      simp only
      omega
    · intro e he hgt
      simp only
      rw [hnew]
      have := (hs.entries e he).1
      have := (hs.entries e he).2.2.1
      have := hblocks e he
      simp only
      omega
    · refine hs.blocks_gap.imp_of_mem ?_
      intro e e' he _ h
      rw [hold e he]
      exact h
  · intro e he
    simp only [handleAt]
    rcases (mem_mapAssign hkey).mp he with rfl | he'
    · rw [hnew]
      exact ⟨Nat.lt_succ_self _, rfl, hpos, hdvd, hin.1, hin.2⟩
    · rw [hold e he']
      have := hs.entries e he'
      exact ⟨by omega, this.2⟩
  · intro e he c hc
    simp only [handleAt]
    rcases (mem_mapAssign hkey).mp he with rfl | he'
    · rw [hnew]
      exact hchunks c hc
    · rw [hold e he']
      exact hs.apart e he' c hc

/-- The chunk list after the carve of `allocate`, for a free list with gaps. -/
theorem carved_chunks_eq {pre post : List GeneralAllocatorChunk} {c : GeneralAllocatorChunk}
    {req : Nat} (hreq : 0 < req) (hc : req ≤ c.size)
    (hgap : (pre ++ c :: post).Pairwise ChunkGap) :
    (if c.size - req = 0 then
        (pre ++ ⟨c.pChunk + req, c.size - req⟩ :: post).filter
          (fun d => d != ⟨c.pChunk + req, c.size - req⟩)
      else pre ++ ⟨c.pChunk + req, c.size - req⟩ :: post) =
    (if c.size = req then pre ++ post
      else pre ++ ⟨c.pChunk + req, c.size - req⟩ :: post) := by
  by_cases hz : c.size = req
  · have hz' : c.size - req = 0 := by omega
    rw [if_pos hz, if_pos hz']
    apply filter_ne_of_not_mem
    intro hmem
    have hp := List.pairwise_append.mp hgap
    rcases List.mem_append.mp hmem with h | h
    · have := hp.2.2 _ h c (List.mem_cons_self _ _)
      unfold ChunkGap at this
      simp only at this
      omega
    · have := (List.pairwise_cons.mp hp.2.1).1 _ h
      unfold ChunkGap at this
      simp only at this
      omega
  · have hz' : ¬ c.size - req = 0 := by omega
    rw [if_neg hz, if_neg hz']

/-- Shrinking (or removing) the first fitting chunk keeps the invariant; the carved range is
then apart from all blocks and all remaining chunks. -/
theorem sound_carve {s : GeneralAllocator} (hs : Sound s) (memory : Nat → Nat)
    {pre post : List GeneralAllocatorChunk} {c : GeneralAllocatorChunk} {req : Nat}
    (hreq : 0 < req) (hc : req ≤ c.size) (hl : s.m_chunks = pre ++ c :: post) :
    Sound
        { s with
          m_chunks :=
            if c.size = req then pre ++ post
            else pre ++ ⟨c.pChunk + req, c.size - req⟩ :: post
          memory := memory } ∧
      (s.m_pMemory ≤ c.pChunk ∧ c.pChunk + req ≤ s.m_pMemory + s.m_size) ∧
      (∀ e ∈ s.m_handleTable,
        e.1 + (s.handleAt e.2).m_size ≤ c.pChunk ∨ c.pChunk + req ≤ e.1) ∧
      (∀ d ∈ (if c.size = req then pre ++ post
          else pre ++ ⟨c.pChunk + req, c.size - req⟩ :: post),
        (d.pChunk < c.pChunk ∧ d.pChunk + d.size ≤ c.pChunk) ∨ c.pChunk + req ≤ d.pChunk) := by
  have hgap := hs.chunks_gap
  rw [hl] at hgap
  have hp := List.pairwise_append.mp hgap
  have hpc := List.pairwise_cons.mp hp.2.1
  have hcm : c ∈ s.m_chunks := by rw [hl]; simp
  have hcin := hs.chunks_in c hcm
  have hpre_mem : ∀ d ∈ pre, d ∈ s.m_chunks := fun d hd => by
    rw [hl]; exact List.mem_append_left _ hd
  have hpost_mem : ∀ d ∈ post, d ∈ s.m_chunks := fun d hd => by
    rw [hl]; exact List.mem_append_right _ (List.mem_cons_of_mem _ hd)
  -- membership in the new list
  have hmem : ∀ d ∈ (if c.size = req then pre ++ post
      else pre ++ ⟨c.pChunk + req, c.size - req⟩ :: post),
      d ∈ pre ∨ d ∈ post ∨
        (d = ⟨c.pChunk + req, c.size - req⟩ ∧ req < c.size) := by
    intro d hd
    by_cases hz : c.size = req
    · rw [if_pos hz] at hd
      rcases List.mem_append.mp hd with h | h
      · exact Or.inl h
      · exact Or.inr (Or.inl h)
    · rw [if_neg hz] at hd
      rcases List.mem_append.mp hd with h | h
      · exact Or.inl h
      · rcases List.mem_cons.mp h with h | h
        · exact Or.inr (Or.inr ⟨h, by omega⟩)
        · exact Or.inr (Or.inl h)
  have hgap' : (if c.size = req then pre ++ post
      else pre ++ ⟨c.pChunk + req, c.size - req⟩ :: post).Pairwise ChunkGap := by
    by_cases hz : c.size = req
    · rw [if_pos hz]
      exact List.pairwise_append.mpr ⟨hp.1, hpc.2, fun a ha b hb =>
        hp.2.2 a ha b (List.mem_cons_of_mem _ hb)⟩
    · rw [if_neg hz]
      refine List.pairwise_append.mpr ⟨hp.1, List.pairwise_cons.mpr ⟨fun d hd => ?_, hpc.2⟩,
        fun a ha b hb => ?_⟩
      · have := hpc.1 d hd
        unfold ChunkGap at *
        simp only
        omega
      · rcases List.mem_cons.mp hb with rfl | hb'
        · have := hp.2.2 a ha c (List.mem_cons_self _ _)
          unfold ChunkGap at *
          simp only
          omega
        · exact hp.2.2 a ha b (List.mem_cons_of_mem _ hb')
  refine ⟨?_, ⟨hcin.1, by omega⟩, ?_, ?_⟩
  · refine
      { size_lt := hs.size_lt
        count_le := hs.count_le
        chunks_gap := hgap'
        chunks_in := ?_
        chunks_pos := ?_
        blocks_gap := hs.blocks_gap
        entries := hs.entries
        apart := ?_ }
    · intro d hd
      rcases hmem d hd with h | h | ⟨rfl, _⟩
      · exact hs.chunks_in d (hpre_mem d h)
      · exact hs.chunks_in d (hpost_mem d h)
      · simp only
        omega
    · intro d hd hz
      rcases hmem d hd with h | h | ⟨rfl, hlt⟩
      · exact hs.chunks_pos d (hpre_mem d h) hz
      · exact hs.chunks_pos d (hpost_mem d h) hz
      · simp only at hz
        omega
    · intro e he d hd
      show (d.pChunk < e.1 ∧ d.pChunk + d.size ≤ e.1) ∨ e.1 + (s.handleAt e.2).m_size ≤ d.pChunk
      rcases hmem d hd with h | h | ⟨rfl, hlt⟩
      · exact hs.apart e he d (hpre_mem d h)
      · exact hs.apart e he d (hpost_mem d h)
      · have := hs.apart e he c hcm
        simp only
        omega
  · intro e he
    have := hs.apart e he c hcm
    have := (hs.entries e he).2.2.1
    omega
  · intro d hd
    rcases hmem d hd with h | h | ⟨rfl, hlt⟩
    · have := hp.2.2 d h c (List.mem_cons_self _ _)
      unfold ChunkGap at this
      omega
    · have := hpc.1 d h
      unfold ChunkGap at this
      omega
    · simp only
      omega

/-- The state after `allocate` when the chunk list splits at the first fitting chunk. -/
theorem allocate_eq_of_split {s : GeneralAllocator} (T : ElemType) (amount : Nat)
    (ctor : Nat → Nat) {pre post : List GeneralAllocatorChunk} {c : GeneralAllocatorChunk}
    (hgap : s.m_chunks.Pairwise ChunkGap)
    (hreq : 0 < mulSizeT amount T.sizeofT)
    (hl : s.m_chunks = pre ++ c :: post)
    (hpre : ∀ d ∈ pre, d.size < mulSizeT amount T.sizeofT)
    (hc : mulSizeT amount T.sizeofT ≤ c.size) :
    s.allocate T amount ctor =
      registerHandle
        { s with
          m_chunks :=
            if c.size = mulSizeT amount T.sizeofT then pre ++ post
            else pre ++ ⟨c.pChunk + mulSizeT amount T.sizeofT,
              c.size - mulSizeT amount T.sizeofT⟩ :: post
          memory := constructObjects s.memory c.pChunk T.sizeofT amount ctor }
        T c.pChunk (mulSizeT amount T.sizeofT) := by
  have hcarve := carveFirstFit_append post hpre hc
  rw [← hl] at hcarve
  rw [allocate_of_carve_some hcarve]
  rw [hl] at hgap
  simp only [carved_chunks_eq hreq hc hgap]

/-- `allocate` keeps the invariant, whether it succeeds or fails. -/
theorem sound_allocate {s : GeneralAllocator} (hs : Sound s) (T : ElemType) (amount : Nat)
    (ctor : Nat → Nat) (hp : Proper s (.allocate T amount ctor)) :
    Sound (s.allocate T amount ctor).2 := by
  obtain ⟨ha, hT, hlt⟩ := hp
  have hreq_eq : mulSizeT amount T.sizeofT = amount * T.sizeofT := mulSizeT_of_lt hlt
  have hreq : 0 < mulSizeT amount T.sizeofT := by
    rw [hreq_eq]; exact Nat.mul_pos ha hT
  cases hcv : carveFirstFit (mulSizeT amount T.sizeofT) s.m_chunks with
  | none => rw [allocate_of_carve_none hcv]; exact hs
  | some r =>
    have hfit : ∃ c ∈ s.m_chunks, mulSizeT amount T.sizeofT ≤ c.size := by
      by_contra hno
      have : carveFirstFit (mulSizeT amount T.sizeofT) s.m_chunks = none :=
        (carveFirstFit_eq_none_iff _ _).mpr (fun c hc => by
          by_contra hge
          exact hno ⟨c, hc, by omega⟩)
      rw [this] at hcv
      exact absurd hcv (by simp)
    obtain ⟨pre, c, post, hl, hpre, hc⟩ := exists_first_fit hfit
    rw [allocate_eq_of_split T amount ctor hs.chunks_gap hreq hl hpre hc, registerHandle_snd]
    obtain ⟨hs1, hin, hblocks, hchunks⟩ :=
      sound_carve hs (constructObjects s.memory c.pChunk T.sizeofT amount ctor) hreq hc hl
    by_cases hcnt : s.m_handleCount ≥ s.m_handles.length
    · rw [if_pos hcnt]
      exact hs1
    · rw [if_neg hcnt]
      exact sound_register hs1 T c.pChunk (mulSizeT amount T.sizeofT)
        (by simp only [ge_iff_le, not_le] at hcnt; exact hcnt) hreq
        (by rw [hreq_eq]; exact Dvd.intro_left amount rfl) hin hblocks hchunks

/-! ## deallocate keeps the invariant -/

/-- The state after `deallocate` of a live handle, in a state that satisfies the invariant. -/
theorem deallocate_live_eq {s : GeneralAllocator} (hs : Sound s) {idx : Nat}
    (h0 : (s.handleAt idx).m_address ≠ 0) (hlive : Live s idx) :
    ((s.handleAt idx).m_address, idx) ∈ s.m_handleTable ∧
      s.deallocate (s.handleAt idx) =
        (.ok (),
          { s with
            m_chunks := coalescedInsert s.m_chunks
              ⟨(s.handleAt idx).m_address, (s.handleAt idx).m_size⟩
            m_handleTable := mapErase s.m_handleTable (s.handleAt idx).m_address }) := by
  have hmem : ((s.handleAt idx).m_address, idx) ∈ s.m_handleTable := mapFind_some_mem hlive
  have hvalid : s.isHandleValid (s.handleAt idx) = true :=
    mapContains_iff.mpr ⟨_, hmem, rfl⟩
  have he := hs.entries _ hmem
  simp only at he
  have hsize : mulSizeT (s.handleAt idx).getObjectAmount (s.handleAt idx).T.sizeofT =
      (s.handleAt idx).m_size :=
    whole_block_size he.2.2.2.1 (by have := hs.size_lt; simp only [SIZE_MOD] at *; omega)
  have hrel := releaseChunk_eq_coalescedInsert s.m_pMemory s.m_size hs.size_lt
    ⟨(s.handleAt idx).m_address, (s.handleAt idx).m_size⟩ he.2.2.1
    ⟨he.2.2.2.2.1, he.2.2.2.2.2⟩ s.m_chunks hs.chunks_gap hs.chunks_in
    (fun c hc => hs.apart _ hmem c hc)
  refine ⟨hmem, ?_⟩
  rw [deallocate_of_valid ⟨h0, hvalid⟩, hsize, hrel]

/-- `deallocate` keeps the invariant, whether it succeeds or fails. -/
theorem sound_deallocate {s : GeneralAllocator} (hs : Sound s) (idx : Nat)
    (hp : Proper s (.deallocate idx)) : Sound (s.deallocate (s.handleAt idx)).2 := by
  by_cases hinv : (s.handleAt idx).m_address = 0 ∨
      mapContains s.m_handleTable (s.handleAt idx).m_address = false
  · rw [deallocate_of_invalid hinv]
    exact hs
  · have h0 : (s.handleAt idx).m_address ≠ 0 := fun h => hinv (Or.inl h)
    have hv : s.isHandleValid (s.handleAt idx) = true := by
      by_contra hv
      exact hinv (Or.inr (by simpa [isHandleValid, MemoryHandle.getAddress] using hv))
    have hlive : Live s idx := hp h0 hv
    obtain ⟨hmem, heq⟩ := deallocate_live_eq hs h0 hlive
    rw [heq]
    have he := hs.entries _ hmem
    simp only at he
    have hdisj : ∀ c ∈ s.m_chunks,
        (c.pChunk < (s.handleAt idx).m_address ∧
            c.pChunk + c.size ≤ (s.handleAt idx).m_address) ∨
          (s.handleAt idx).m_address + (s.handleAt idx).m_size ≤ c.pChunk :=
      fun c hc => hs.apart _ hmem c hc
    refine
      { size_lt := hs.size_lt
        count_le := hs.count_le
        chunks_gap :=
          coalescedInsert_pairwise ⟨(s.handleAt idx).m_address, (s.handleAt idx).m_size⟩
            he.2.2.1 s.m_chunks hs.chunks_gap hdisj
        chunks_in := coalescedInsert_bounds ⟨he.2.2.2.2.1, he.2.2.2.2.2⟩ hs.chunks_in
        chunks_pos := ?_
        blocks_gap := hs.blocks_gap.sublist (List.filter_sublist _)
        entries := fun e he' => hs.entries e (mem_mapErase.mp he').1
        apart := ?_ }
    · intro d hd hz
      rcases mem_coalescedInsert _ _ d hd with hd' | ⟨_, _, _, hsz⟩
      · exact hs.chunks_pos d hd' hz
      · simp only at hsz
        omega
    · intro e he' d hd
      obtain ⟨het, hne⟩ := mem_mapErase.mp he'
      show (d.pChunk < e.1 ∧ d.pChunk + d.size ≤ e.1) ∨ e.1 + (s.handleAt e.2).m_size ≤ d.pChunk
      rcases mem_coalescedInsert _ _ d hd with hd' | ⟨hstart, hend, hle, hsz⟩
      · exact hs.apart e het d hd'
      · have hpos := (hs.entries e het).2.2.1
        have hord := pairwise_either hs.blocks_gap hmem het
          (fun heq => hne (by rw [← heq]))
        simp only at hord hstart hend hle hsz
        rcases hstart with hst | ⟨c, hc, hst, hcend⟩ <;>
          rcases hend with hen | ⟨r, hr, hen, hrst⟩
        · omega
        · have := hs.apart e het r hr
          omega
        · have := hs.apart e het c hc
          omega
        · have := hs.apart e het c hc
          have := hs.apart e het r hr
          omega

/-! ## allocate and deallocate keep the tiling -/

theorem coverCount_eq (s : GeneralAllocator) (x : Nat) :
    s.coverCount x =
      s.m_handleTable.countP (fun e => covers (s.blockOf e) x) +
        s.m_chunks.countP (fun c => covers c x) := by
  unfold coverCount liveBlocks
  rw [List.countP_map]
  rfl

theorem covers_iff (c : GeneralAllocatorChunk) (x : Nat) :
    covers c x = true ↔ c.pChunk ≤ x ∧ x < c.pChunk + c.size := by
  simp [covers]

theorem countP_covers_carved (pre post : List GeneralAllocatorChunk) {c : GeneralAllocatorChunk}
    {req : Nat} (hc : req ≤ c.size) (x : Nat) :
    (if c.size = req then pre ++ post
        else pre ++ ⟨c.pChunk + req, c.size - req⟩ :: post).countP (fun d => covers d x) +
      (if c.pChunk ≤ x ∧ x < c.pChunk + req then 1 else 0) =
    (pre ++ c :: post).countP (fun d => covers d x) := by
  by_cases hz : c.size = req
  · rw [if_pos hz, List.countP_append, List.countP_append, countP_covers_cons]
    split_ifs <;> omega
  · rw [if_neg hz, List.countP_append, List.countP_append, countP_covers_cons,
      countP_covers_cons]
    simp only
    split_ifs <;> omega

/-- A successful or out-of-memory `allocate` keeps the tiling. -/
theorem tiling_allocate {s : GeneralAllocator} (hs : Sound s) (ht : Tiling s) (T : ElemType)
    (amount : Nat) (ctor : Nat → Nat) (hp : Proper s (.allocate T amount ctor))
    (hserved : Served s (.allocate T amount ctor)) :
    Tiling (s.allocate T amount ctor).2 := by
  obtain ⟨ha, hT, hlt⟩ := hp
  have hreq_eq : mulSizeT amount T.sizeofT = amount * T.sizeofT := mulSizeT_of_lt hlt
  have hreq : 0 < mulSizeT amount T.sizeofT := by
    rw [hreq_eq]; exact Nat.mul_pos ha hT
  have hserved : (s.allocate T amount ctor).1 ≠ .error .OutOfHandles := hserved
  cases hcv : carveFirstFit (mulSizeT amount T.sizeofT) s.m_chunks with
  | none => rw [allocate_of_carve_none hcv]; exact ht
  | some r =>
    have hfit : ∃ c ∈ s.m_chunks, mulSizeT amount T.sizeofT ≤ c.size := by
      by_contra hno
      have : carveFirstFit (mulSizeT amount T.sizeofT) s.m_chunks = none :=
        (carveFirstFit_eq_none_iff _ _).mpr (fun c hc => by
          by_contra hge
          exact hno ⟨c, hc, by omega⟩)
      rw [this] at hcv
      exact absurd hcv (by simp)
    obtain ⟨pre, c, post, hl, hpre, hc⟩ := exists_first_fit hfit
    have heq := allocate_eq_of_split T amount ctor hs.chunks_gap hreq hl hpre hc
    rw [heq, registerHandle_fst] at hserved
    rw [heq, registerHandle_snd]
    obtain ⟨hs1, hin, hblocks, hchunks⟩ :=
      sound_carve hs (constructObjects s.memory c.pChunk T.sizeofT amount ctor) hreq hc hl
    have hcnt : ¬ s.m_handleCount ≥ s.m_handles.length := by
      intro hge
      exact hserved (if_pos hge)
    rw [if_neg hcnt]
    have hkey : ∀ e ∈ s.m_handleTable, e.1 ≠ c.pChunk := by
      intro e he
      have := (hs.entries e he).2.2.1
      have := hblocks e he
      omega
    intro x
    have hx := ht x
    rw [coverCount_eq] at hx ⊢
    simp only
    rw [countP_mapAssign _ hkey]
    have hold : s.m_handleTable.countP
        (fun e => covers (blockOf
          { s with
            m_chunks :=
              if c.size = mulSizeT amount T.sizeofT then pre ++ post
              else pre ++ ⟨c.pChunk + mulSizeT amount T.sizeofT,
                c.size - mulSizeT amount T.sizeofT⟩ :: post
            memory := constructObjects s.memory c.pChunk T.sizeofT amount ctor
            m_handles := s.m_handles.set s.m_handleCount
              ⟨c.pChunk, mulSizeT amount T.sizeofT, T⟩
            m_handleTable := mapAssign s.m_handleTable c.pChunk s.m_handleCount
            m_handleCount := s.m_handleCount + 1 } e) x) =
        s.m_handleTable.countP (fun e => covers (s.blockOf e) x) := by
      apply List.countP_congr
      intro e he
      have := (hs.entries e he).1
      simp only [blockOf, handleAt]
      rw [getD_set_ne _ _ (by omega)]
    have hnewblock : blockOf
          { s with
            m_chunks :=
              if c.size = mulSizeT amount T.sizeofT then pre ++ post
              else pre ++ ⟨c.pChunk + mulSizeT amount T.sizeofT,
                c.size - mulSizeT amount T.sizeofT⟩ :: post
            memory := constructObjects s.memory c.pChunk T.sizeofT amount ctor
            m_handles := s.m_handles.set s.m_handleCount
              ⟨c.pChunk, mulSizeT amount T.sizeofT, T⟩
            m_handleTable := mapAssign s.m_handleTable c.pChunk s.m_handleCount
            m_handleCount := s.m_handleCount + 1 } (c.pChunk, s.m_handleCount) =
        ⟨c.pChunk, mulSizeT amount T.sizeofT⟩ := by
      simp only [blockOf, handleAt]
      rw [getD_set_self _ _ _ (by omega)]
      rfl
    rw [hold, hnewblock]
    have hcar := countP_covers_carved pre post hc x
    rw [← hl] at hcar
    simp only [covers_iff]
    omega

/-- `deallocate` keeps the tiling, whether it succeeds or fails. -/
theorem tiling_deallocate {s : GeneralAllocator} (hs : Sound s) (ht : Tiling s) (idx : Nat)
    (hp : Proper s (.deallocate idx)) : Tiling (s.deallocate (s.handleAt idx)).2 := by
  by_cases hinv : (s.handleAt idx).m_address = 0 ∨
      mapContains s.m_handleTable (s.handleAt idx).m_address = false
  · rw [deallocate_of_invalid hinv]
    exact ht
  · have h0 : (s.handleAt idx).m_address ≠ 0 := fun h => hinv (Or.inl h)
    have hv : s.isHandleValid (s.handleAt idx) = true := by
      by_contra hv
      exact hinv (Or.inr (by simpa [isHandleValid, MemoryHandle.getAddress] using hv))
    have hlive : Live s idx := hp h0 hv
    obtain ⟨hmem, heq⟩ := deallocate_live_eq hs h0 hlive
    rw [heq]
    intro x
    have hx := ht x
    rw [coverCount_eq] at hx ⊢
    simp only
    have hchunks := countP_covers_coalescedInsert
      ⟨(s.handleAt idx).m_address, (s.handleAt idx).m_size⟩ x s.m_chunks
    have htable := countP_mapErase (fun e => covers (s.blockOf e) x) hs.keys_sorted hmem
    have hblock : covers (s.blockOf ((s.handleAt idx).m_address, idx)) x = true ↔
        (s.handleAt idx).m_address ≤ x ∧
          x < (s.handleAt idx).m_address + (s.handleAt idx).m_size := covers_iff _ _
    simp only [hblock] at htable
    simp only at hchunks
    have hsame : (mapErase s.m_handleTable (s.handleAt idx).m_address).countP
        (fun e => covers (blockOf
          { s with
            m_chunks := coalescedInsert s.m_chunks
              ⟨(s.handleAt idx).m_address, (s.handleAt idx).m_size⟩
            m_handleTable := mapErase s.m_handleTable (s.handleAt idx).m_address } e) x) =
        (mapErase s.m_handleTable (s.handleAt idx).m_address).countP
          (fun e => covers (s.blockOf e) x) := rfl
    rw [hsame, hchunks]
    omega

/-! ## defragment: relocation of one block -/

theorem moveBytes_apply (memory : Nat → Nat) (dst src n x : Nat) :
    moveBytes memory dst src n x =
      if dst ≤ x ∧ x < dst + n then memory (src + (x - dst)) else memory x := rfl

/-- The element-wise loop of `relocateHandle` after `i` elements, for a move downwards. -/
theorem moveLoop_apply (memory : Nat → Nat) (dst src sz : Nat) (hle : dst ≤ src) :
    ∀ (i x : Nat),
      (List.range i).foldl
          (fun m j => moveBytes m (dst + j * sz) (src + j * sz) sz) memory x =
        if dst ≤ x ∧ x < dst + i * sz then memory (src + (x - dst)) else memory x := by
  intro i
  induction i with
  | zero =>
    intro x
    simp only [List.range_zero, List.foldl_nil, Nat.zero_mul, Nat.add_zero]
    split
    · omega
    · rfl
  | succ i ih =>
    intro x
    rw [List.range_succ, List.foldl_append, List.foldl_cons, List.foldl_nil, moveBytes_apply,
      ih, ih]
    have hmul : (i + 1) * sz = i * sz + sz := Nat.succ_mul i sz
    by_cases h1 : dst + i * sz ≤ x ∧ x < dst + i * sz + sz
    · rw [if_pos h1]
      have h2 : ¬ (dst ≤ src + i * sz + (x - (dst + i * sz)) ∧
          src + i * sz + (x - (dst + i * sz)) < dst + i * sz) := by omega
      have h3 : dst ≤ x ∧ x < dst + (i + 1) * sz := by omega
      rw [if_neg h2, if_pos h3]
      congr 1
      omega
    · rw [if_neg h1]
      by_cases h4 : dst ≤ x ∧ x < dst + i * sz
      · have h3 : dst ≤ x ∧ x < dst + (i + 1) * sz := by omega
        rw [if_pos h4, if_pos h3]
      · have h3 : ¬ (dst ≤ x ∧ x < dst + (i + 1) * sz) := by omega
        rw [if_neg h4, if_neg h3]

/-- The record that `defragment` stores for a relocated handle. -/
theorem relocateHandle_updateAddress (memory : Nat → Nat) (h : MemoryHandle) (new_address : Nat) :
    (relocateHandle memory h new_address).2.updateAddress new_address =
      { h with m_address := new_address } := by
  unfold relocateHandle MemoryHandle.updateAddress
  split <;> rfl

/-- The memory after the relocation of a block of whole elements to a lower or equal
address: the block has been copied, the rest is untouched. -/
theorem relocateHandle_memory (memory : Nat → Nat) (h : MemoryHandle) (new_address : Nat)
    (hle : new_address ≤ h.m_address) (hdvd : h.T.sizeofT ∣ h.m_size) (x : Nat) :
    (relocateHandle memory h new_address).1 x =
      if new_address ≤ x ∧ x < new_address + h.m_size then
        memory (h.m_address + (x - new_address))
      else memory x := by
  unfold relocateHandle
  split
  · simp only
    rw [moveLoop_apply memory new_address h.m_address h.T.sizeofT hle]
    have : h.getObjectAmount * h.T.sizeofT = h.m_size := Nat.div_mul_cancel hdvd
    rw [this]
  · rfl

/-- The relocation loop writes no byte below the destination. -/
theorem moveLoop_below (memory : Nat → Nat) (dst src sz : Nat) :
    ∀ (i x : Nat), x < dst →
      (List.range i).foldl
          (fun m j => moveBytes m (dst + j * sz) (src + j * sz) sz) memory x = memory x := by
  intro i
  induction i with
  | zero => intro x _; rfl
  | succ i ih =>
    intro x hx
    rw [List.range_succ, List.foldl_append, List.foldl_cons, List.foldl_nil, moveBytes_apply,
      if_neg (by omega), ih x hx]

theorem relocateHandle_below (memory : Nat → Nat) (h : MemoryHandle) (new_address x : Nat)
    (hx : x < new_address) : (relocateHandle memory h new_address).1 x = memory x := by
  unfold relocateHandle
  split
  · exact moveLoop_below memory new_address h.m_address h.T.sizeofT _ x hx
  · simp only [moveBytes_apply]
    rw [if_neg (by omega)]

/-! ## defragment: the first loop -/

theorem set_getD_self (l : List MemoryHandle) (i : Nat) : l.set i (l.getD i default) = l := by
  by_cases hi : i < l.length
  · apply List.ext_getElem
    · simp
    · intro n h1 h2
      by_cases hn : i = n
      · subst hn
        simp [List.getD_eq_getElem?_getD, List.getElem?_eq_getElem hi]
      · simp [List.getElem_set_ne hn]
  · exact List.set_eq_of_length_le (by omega)

/-- One iteration of the first loop of `defragment`. -/
theorem defragLoop_cons (e : Nat × Nat) (rest : HandleTable) (st : DefragState) :
    defragLoop (e :: rest) st =
      defragLoop rest
        { pCurrentMemoryPosition :=
            st.pCurrentMemoryPosition + (st.handles.getD e.2 default).m_size
          handles := st.handles.set e.2
            { st.handles.getD e.2 default with m_address := st.pCurrentMemoryPosition }
          memory :=
            if (st.handles.getD e.2 default).m_address = st.pCurrentMemoryPosition then st.memory
            else (relocateHandle st.memory (st.handles.getD e.2 default)
              st.pCurrentMemoryPosition).1 } := by
  rw [defragLoop]
  by_cases h : (st.handles.getD e.2 default).m_address = st.pCurrentMemoryPosition
  · have hsame : ({ st.handles.getD e.2 default with
        m_address := st.pCurrentMemoryPosition } : MemoryHandle) =
        st.handles.getD e.2 default := by
      rw [← h]
    simp only [MemoryHandle.getAddress, MemoryHandle.getTotalSize, h, if_true, hsame,
      set_getD_self]
  · simp only [MemoryHandle.getAddress, MemoryHandle.getTotalSize, h, if_false,
      relocateHandle_updateAddress]

theorem getD_set_size (hs : List MemoryHandle) (i c j : Nat) :
    ((hs.set i { hs.getD i default with m_address := c }).getD j default).m_size =
      (hs.getD j default).m_size := by
  by_cases hij : i = j
  · subst hij
    by_cases hi : i < hs.length
    · rw [getD_set_self _ _ _ hi]
    · rw [List.set_eq_of_length_le (by omega)]
  · rw [getD_set_ne _ _ hij]

theorem getD_set_T (hs : List MemoryHandle) (i c j : Nat) :
    ((hs.set i { hs.getD i default with m_address := c }).getD j default).T =
      (hs.getD j default).T := by
  by_cases hij : i = j
  · subst hij
    by_cases hi : i < hs.length
    · rw [getD_set_self _ _ _ hi]
    · rw [List.set_eq_of_length_le (by omega)]
  · rw [getD_set_ne _ _ hij]

theorem blockBytes_congr {hs hs' : List MemoryHandle} (t : HandleTable)
    (h : ∀ j, (hs'.getD j default).m_size = (hs.getD j default).m_size) :
    blockBytes hs' t = blockBytes hs t := by
  unfold blockBytes
  congr 1
  apply List.map_congr_left
  intro e _
  exact h e.2

theorem packedTable_congr {hs hs' : List MemoryHandle}
    (h : ∀ j, (hs'.getD j default).m_size = (hs.getD j default).m_size) :
    ∀ (t : HandleTable) (cur : Nat), packedTable hs' cur t = packedTable hs cur t := by
  intro t
  induction t with
  | nil => intro cur; rfl
  | cons e rest ih =>
    intro cur
    rw [packedTable, packedTable, h e.2, ih]

theorem blockBytes_cons (hs : List MemoryHandle) (e : Nat × Nat) (t : HandleTable) :
    blockBytes hs (e :: t) = (hs.getD e.2 default).m_size + blockBytes hs t := by
  simp [blockBytes]

/-- The first loop of `defragment` leaves the cursor at the end of the packed blocks and
changes no size, element type or number of records. -/
theorem defragLoop_cursor :
    ∀ (t : HandleTable) (st : DefragState),
      (defragLoop t st).pCurrentMemoryPosition =
          st.pCurrentMemoryPosition + blockBytes st.handles t ∧
        (defragLoop t st).handles.length = st.handles.length ∧
        (∀ j, ((defragLoop t st).handles.getD j default).m_size =
          (st.handles.getD j default).m_size) ∧
        (∀ j, ((defragLoop t st).handles.getD j default).T = (st.handles.getD j default).T) := by
  intro t
  induction t with
  | nil => intro st; simp [defragLoop, blockBytes]
  | cons e rest ih =>
    intro st
    rw [defragLoop_cons]
    obtain ⟨h1, h2, h3, h4⟩ := ih
      { pCurrentMemoryPosition :=
          st.pCurrentMemoryPosition + (st.handles.getD e.2 default).m_size
        handles := st.handles.set e.2
          { st.handles.getD e.2 default with m_address := st.pCurrentMemoryPosition }
        memory :=
          if (st.handles.getD e.2 default).m_address = st.pCurrentMemoryPosition then st.memory
          else (relocateHandle st.memory (st.handles.getD e.2 default)
            st.pCurrentMemoryPosition).1 }
    simp only at h1 h2 h3 h4
    refine ⟨?_, ?_, ?_, ?_⟩
    · rw [h1, blockBytes_cons, blockBytes_congr rest (getD_set_size st.handles e.2 _)]
      omega
    · rw [h2, List.length_set]
    · intro j
      rw [h3, getD_set_size]
    · intro j
      rw [h4, getD_set_T]

/-- The first loop of `defragment` leaves the records of other handles as they are. -/
theorem defragLoop_untouched :
    ∀ (t : HandleTable) (st : DefragState) (j : Nat), (∀ e ∈ t, e.2 ≠ j) →
      (defragLoop t st).handles.getD j default = st.handles.getD j default := by
  intro t
  induction t with
  | nil => intro st j _; rfl
  | cons e rest ih =>
    intro st j hj
    rw [defragLoop_cons, ih _ j (fun e' he' => hj e' (List.mem_cons_of_mem _ he'))]
    exact getD_set_ne _ _ (hj e (List.mem_cons_self _ _))

/-- The first loop of `defragment` gives every handle of the table the address of the
packed layout. -/
theorem defragLoop_addresses :
    ∀ (t : HandleTable) (st : DefragState),
      t.Pairwise (fun e e' => e.2 ≠ e'.2) →
      (∀ e ∈ t, e.2 < st.handles.length) →
      ∀ p ∈ packedTable st.handles st.pCurrentMemoryPosition t,
        (defragLoop t st).handles.getD p.2 default =
          { st.handles.getD p.2 default with m_address := p.1 } := by
  intro t
  induction t with
  | nil => intro st _ _ p hp; simp [packedTable] at hp
  | cons e rest ih =>
    intro st hnd hlen p hp
    have hnd' := List.pairwise_cons.mp hnd
    rw [defragLoop_cons]
    rw [packedTable] at hp
    rcases List.mem_cons.mp hp with rfl | hp'
    · rw [defragLoop_untouched rest _ e.2 (fun e' he' => (hnd'.1 e' he').symm)]
      exact getD_set_self _ _ _ (hlen e (List.mem_cons_self _ _))
    · have hp2 : ∃ e' ∈ rest, e'.2 = p.2 := by
        clear ih hnd hnd' hlen hp
        generalize st.pCurrentMemoryPosition + (st.handles.getD e.2 default).m_size = c at hp'
        induction rest generalizing c with
        | nil => simp [packedTable] at hp'
        | cons d rest' ih' =>
          rw [packedTable] at hp'
          rcases List.mem_cons.mp hp' with rfl | h
          · exact ⟨d, List.mem_cons_self _ _, rfl⟩
          · obtain ⟨e', he', h2⟩ := ih' _ h
            exact ⟨e', List.mem_cons_of_mem _ he', h2⟩
      obtain ⟨e', he', he2⟩ := hp2
      have hne : e.2 ≠ p.2 := by rw [← he2]; exact hnd'.1 e' he'
      have := ih
        { pCurrentMemoryPosition :=
            st.pCurrentMemoryPosition + (st.handles.getD e.2 default).m_size
          handles := st.handles.set e.2
            { st.handles.getD e.2 default with m_address := st.pCurrentMemoryPosition }
          memory :=
            if (st.handles.getD e.2 default).m_address = st.pCurrentMemoryPosition then st.memory
            else (relocateHandle st.memory (st.handles.getD e.2 default)
              st.pCurrentMemoryPosition).1 }
        hnd'.2
        (fun d hd => by
          simp only [List.length_set]
          exact hlen d (List.mem_cons_of_mem _ hd))
        p
        (by
          simp only
          rw [packedTable_congr (getD_set_size st.handles e.2 _)]
          exact hp')
      rw [this]
      simp only
      rw [getD_set_ne _ _ hne]

/-- The first loop of `defragment` writes no byte below its cursor. -/
theorem defragLoop_memory_below :
    ∀ (t : HandleTable) (st : DefragState) (x : Nat), x < st.pCurrentMemoryPosition →
      (defragLoop t st).memory x = st.memory x := by
  intro t
  induction t with
  | nil => intro st x _; rfl
  | cons e rest ih =>
    intro st x hx
    rw [defragLoop_cons, ih _ x (by simp only; omega)]
    simp only
    split
    · rfl
    · exact relocateHandle_below _ _ _ _ hx

/-- The first loop of `defragment` preserves the contents of every block: when the blocks
of the table are ordered by address without overlap, none below the cursor, and consist of
whole elements, the bytes found at the new address of a handle are the bytes that were at
its old address. -/
theorem defragLoop_contents :
    ∀ (t : HandleTable) (st : DefragState),
      t.Pairwise (fun e e' => e.2 ≠ e'.2) →
      (∀ e ∈ t, e.2 < st.handles.length) →
      t.Pairwise (fun e e' =>
        (st.handles.getD e.2 default).m_address + (st.handles.getD e.2 default).m_size ≤
          (st.handles.getD e'.2 default).m_address) →
      (∀ e ∈ t, st.pCurrentMemoryPosition ≤ (st.handles.getD e.2 default).m_address) →
      (∀ e ∈ t, (st.handles.getD e.2 default).T.sizeofT ∣
        (st.handles.getD e.2 default).m_size) →
      ∀ e ∈ t, ∀ o, o < (st.handles.getD e.2 default).m_size →
        (defragLoop t st).memory (((defragLoop t st).handles.getD e.2 default).m_address + o) =
          st.memory ((st.handles.getD e.2 default).m_address + o) := by
  intro t
  induction t with
  | nil => intro st _ _ _ _ _ e he; simp at he
  | cons e0 rest ih =>
    intro st hnd hlen hgeo hcur hdvd e he o ho
    have hnd' := List.pairwise_cons.mp hnd
    have hgeo' := List.pairwise_cons.mp hgeo
    have hlen0 := hlen e0 (List.mem_cons_self _ _)
    have hcur0 := hcur e0 (List.mem_cons_self _ _)
    have hdvd0 := hdvd e0 (List.mem_cons_self _ _)
    rw [defragLoop_cons]
    -- the memory after the step of `e0`
    have hmem1 : ∀ x,
        (if (st.handles.getD e0.2 default).m_address = st.pCurrentMemoryPosition then st.memory
          else (relocateHandle st.memory (st.handles.getD e0.2 default)
            st.pCurrentMemoryPosition).1) x =
        if st.pCurrentMemoryPosition ≤ x ∧
            x < st.pCurrentMemoryPosition + (st.handles.getD e0.2 default).m_size then
          st.memory ((st.handles.getD e0.2 default).m_address + (x - st.pCurrentMemoryPosition))
        else st.memory x := by
      intro x
      by_cases hsame : (st.handles.getD e0.2 default).m_address = st.pCurrentMemoryPosition
      · rw [if_pos hsame]
        split
        · congr 1; omega
        · rfl
      · rw [if_neg hsame]
        exact relocateHandle_memory _ _ _ hcur0 hdvd0 x
    rcases List.mem_cons.mp he with rfl | hrest
    · rw [defragLoop_untouched rest _ e.2 (fun e' he' => (hnd'.1 e' he').symm)]
      simp only
      rw [getD_set_self _ _ _ hlen0]
      simp only
      rw [defragLoop_memory_below rest _ _ (by simp only; omega)]
      simp only
      rw [hmem1, if_pos (by omega)]
      congr 1
      omega
    · have hne : e0.2 ≠ e.2 := hnd'.1 e hrest
      have hsame : ∀ d ∈ rest,
          (st.handles.set e0.2
            { st.handles.getD e0.2 default with
              m_address := st.pCurrentMemoryPosition }).getD d.2 default =
          st.handles.getD d.2 default :=
        fun d hd => getD_set_ne _ _ (hnd'.1 d hd)
      have := ih
        { pCurrentMemoryPosition :=
            st.pCurrentMemoryPosition + (st.handles.getD e0.2 default).m_size
          handles := st.handles.set e0.2
            { st.handles.getD e0.2 default with m_address := st.pCurrentMemoryPosition }
          memory :=
            if (st.handles.getD e0.2 default).m_address = st.pCurrentMemoryPosition then
              st.memory
            else (relocateHandle st.memory (st.handles.getD e0.2 default)
              st.pCurrentMemoryPosition).1 }
        hnd'.2
        (fun d hd => by
          simp only [List.length_set]
          exact hlen d (List.mem_cons_of_mem _ hd))
        (by
          simp only
          refine hgeo'.2.imp_of_mem ?_
          intro a b ha hb hab
          rw [hsame a ha, hsame b hb]
          exact hab)
        (by
          intro d hd
          simp only
          rw [hsame d hd]
          have := hgeo'.1 d hd
          omega)
        (by
          intro d hd
          simp only
          rw [hsame d hd]
          exact hdvd d (List.mem_cons_of_mem _ hd))
        e hrest o
        (by simp only; rw [hsame e hrest]; exact ho)
      rw [this]
      simp only
      rw [hsame e hrest, hmem1]
      have := hgeo'.1 e hrest
      rw [if_neg (by omega)]

/-! ## defragment: the rebuild of the handle table -/

theorem mapFind_append_of_ne {P : HandleTable} (R : HandleTable) {k : Nat}
    (hP : ∀ p ∈ P, p.1 ≠ k) : mapFind (P ++ R) k = mapFind R k := by
  induction P with
  | nil => rfl
  | cons p P ih =>
    rw [List.cons_append, mapFind, if_neg (hP p (List.mem_cons_self _ _))]
    exact ih (fun q hq => hP q (List.mem_cons_of_mem _ hq))

theorem mapNext_append_of_le {P : HandleTable} (R : HandleTable) {k : Nat}
    (hP : ∀ p ∈ P, p.1 ≤ k) : mapNext (P ++ R) k = mapNext R k := by
  induction P with
  | nil => rfl
  | cons p P ih =>
    have := hP p (List.mem_cons_self _ _)
    rw [List.cons_append, mapNext, if_neg (by omega)]
    exact ih (fun q hq => hP q (List.mem_cons_of_mem _ hq))

theorem mapErase_of_ne {P : HandleTable} {k : Nat} (hP : ∀ p ∈ P, p.1 ≠ k) :
    mapErase P k = P := by
  unfold mapErase
  apply List.filter_eq_self.mpr
  intro p hp
  simp only [bne_iff_ne, ne_eq]
  exact hP p hp

theorem mapAssign_append_of_lt {P : HandleTable} (R : HandleTable) {c i : Nat}
    (hP : ∀ p ∈ P, p.1 < c) : mapAssign (P ++ R) c i = P ++ mapAssign R c i := by
  induction P with
  | nil => rfl
  | cons p P ih =>
    have := hP p (List.mem_cons_self _ _)
    rw [List.cons_append, mapAssign, if_neg (by omega), if_neg (by omega),
      ih (fun q hq => hP q (List.mem_cons_of_mem _ hq)), List.cons_append]

theorem mapAssign_of_lt_all {R : HandleTable} {c i : Nat} (hR : ∀ e ∈ R, c < e.1) :
    mapAssign R c i = (c, i) :: R := by
  cases R with
  | nil => rfl
  | cons e rest => rw [mapAssign, if_pos (hR e (List.mem_cons_self _ _))]

theorem mapNext_of_lt_all {R : HandleTable} {k : Nat} (hR : ∀ e ∈ R, k < e.1) :
    mapNext R k = R.head?.map Prod.fst := by
  cases R with
  | nil => rfl
  | cons e rest =>
    rw [mapNext, if_pos (hR e (List.mem_cons_self _ _))]
    rfl

/-- The loop of `updateHandleTableAddresses`, entered with the entries `P` already keyed by
their packed addresses and the entries `R` still keyed by their old addresses, ends with
the packed table when the fuel is at least the number of entries left. -/
theorem updateLoop_packed (H : List MemoryHandle) :
    ∀ (R P : HandleTable) (cur fuel : Nat),
      R.length ≤ fuel →
      (∀ p ∈ P, p.1 < cur) →
      R.Pairwise (fun e e' => e.1 < e'.1) →
      PackedFrom H cur R →
      updateLoop H fuel (P ++ R) (R.head?.map Prod.fst) = P ++ packedTable H cur R := by
  intro R
  induction R with
  | nil =>
    intro P cur fuel _ _ _ _
    cases fuel <;> simp [updateLoop, packedTable]
  | cons e rest ih =>
    intro P cur fuel hfuel hP hsorted hpacked
    obtain ⟨f, rfl⟩ : ∃ f, fuel = f + 1 := ⟨fuel - 1, by simp at hfuel; omega⟩
    obtain ⟨haddr, hle, hpos, hrest⟩ := hpacked
    have hs := List.pairwise_cons.mp hsorted
    have hfind : mapFind (P ++ e :: rest) e.1 = some e.2 := by
      rw [mapFind_append_of_ne _ (fun p hp => by have := hP p hp; omega), mapFind, if_pos rfl]
    have hnext : mapNext (P ++ e :: rest) e.1 = rest.head?.map Prod.fst := by
      rw [mapNext_append_of_le _ (fun p hp => by have := hP p hp; omega), mapNext,
        if_neg (by omega), mapNext_of_lt_all hs.1]
    have herase : mapErase (P ++ e :: rest) e.1 = P ++ rest := by
      have h1 : mapErase P e.1 = P :=
        mapErase_of_ne (fun p hp => by have := hP p hp; omega)
      have h2 : mapErase rest e.1 = rest :=
        mapErase_of_ne (fun d hd => by have := hs.1 d hd; omega)
      have h3 : mapErase (e :: rest) e.1 = mapErase rest e.1 := by
        simp [mapErase]
      unfold mapErase at *
      rw [List.filter_append, h1, h3, h2]
    have hassign : mapAssign (P ++ rest) cur e.2 = (P ++ [(cur, e.2)]) ++ rest := by
      rw [mapAssign_append_of_lt _ hP,
        mapAssign_of_lt_all (fun d hd => by have := hs.1 d hd; omega)]
      simp
    have hIH := ih (P ++ [(cur, e.2)]) (cur + (H.getD e.2 default).m_size) f
      (by simp at hfuel; omega)
      (by
        intro p hp
        rcases List.mem_append.mp hp with h | h
        · have := hP p h; omega
        · simp only [List.mem_singleton] at h
          subst h
          simp only
          omega)
      hs.2 hrest
    have htarget : P ++ packedTable H cur (e :: rest) =
        (P ++ [(cur, e.2)]) ++ packedTable H (cur + (H.getD e.2 default).m_size) rest := by
      rw [packedTable]; simp
    rw [htarget, ← hIH]
    show updateLoop H (f + 1) (P ++ e :: rest) (some e.1) = _
    rw [updateLoop]
    simp only [hfind, MemoryHandle.getAddress, haddr, hnext, herase, hassign]
    by_cases hk : e.1 = cur
    · have he : e = (cur, e.2) := Prod.ext hk rfl
      have hsame : P ++ e :: rest = (P ++ [(cur, e.2)]) ++ rest := by
        rw [List.append_assoc, List.singleton_append, ← he]
      simp only [hk, ne_eq, not_true_eq_false, if_false]
      rw [hsame]
    · simp only [ne_eq, hk, not_false_eq_true, if_true]

/-! ## defragment: the state it leaves -/

theorem packedTable_map_snd (H : List MemoryHandle) :
    ∀ (t : HandleTable) (cur : Nat), (packedTable H cur t).map Prod.snd = t.map Prod.snd := by
  intro t
  induction t with
  | nil => intro cur; rfl
  | cons e rest ih => intro cur; rw [packedTable, List.map_cons, List.map_cons, ih]

theorem packedTable_length (H : List MemoryHandle) (t : HandleTable) (cur : Nat) :
    (packedTable H cur t).length = t.length := by
  have := congrArg List.length (packedTable_map_snd H t cur)
  simpa using this

/-- Every entry of the packed table is an entry of the old table under a new key, and its
block lies between the cursor and the end of the packed blocks. -/
theorem mem_packedTable (H : List MemoryHandle) :
    ∀ (t : HandleTable) (cur : Nat) (p : Nat × Nat), p ∈ packedTable H cur t →
      (∃ e ∈ t, e.2 = p.2) ∧ cur ≤ p.1 ∧
        p.1 + (H.getD p.2 default).m_size ≤ cur + blockBytes H t := by
  intro t
  induction t with
  | nil => intro cur p hp; simp [packedTable] at hp
  | cons e rest ih =>
    intro cur p hp
    rw [packedTable] at hp
    rw [blockBytes_cons]
    rcases List.mem_cons.mp hp with rfl | hp'
    · exact ⟨⟨e, List.mem_cons_self _ _, rfl⟩, le_refl _, by simp only; omega⟩
    · obtain ⟨⟨e', he', h2⟩, h3, h4⟩ := ih _ p hp'
      exact ⟨⟨e', List.mem_cons_of_mem _ he', h2⟩, by omega, by omega⟩

theorem mem_packedTable_of_mem (H : List MemoryHandle) :
    ∀ (t : HandleTable) (cur : Nat) (e : Nat × Nat), e ∈ t →
      ∃ p ∈ packedTable H cur t, p.2 = e.2 := by
  intro t cur e he
  have h1 : e.2 ∈ t.map Prod.snd := List.mem_map_of_mem _ he
  rw [← packedTable_map_snd H t cur] at h1
  obtain ⟨p, hp, hp2⟩ := List.mem_map.mp h1
  exact ⟨p, hp, hp2⟩

/-- The packed table is ordered: each block ends at or below the key of every later entry,
and the handles are distinct when they were. -/
theorem packedTable_pairwise (H : List MemoryHandle) :
    ∀ (t : HandleTable) (cur : Nat), t.Pairwise (fun e e' => e.2 ≠ e'.2) →
      (packedTable H cur t).Pairwise
        (fun p p' => p.1 + (H.getD p.2 default).m_size ≤ p'.1 ∧ p.2 ≠ p'.2) := by
  intro t
  induction t with
  | nil => intro cur _; simp [packedTable]
  | cons e rest ih =>
    intro cur hnd
    have hnd' := List.pairwise_cons.mp hnd
    rw [packedTable]
    refine List.pairwise_cons.mpr ⟨fun p hp => ?_, ih _ hnd'.2⟩
    obtain ⟨⟨e', he', h2⟩, h3, _⟩ := mem_packedTable H rest _ p hp
    exact ⟨h3, by rw [← h2]; exact hnd'.1 e' he'⟩

/-- Blocks ordered by key without overlap inside `[lo, hi]` have at most `hi - lo` bytes. -/
theorem blockBytes_le (H : List MemoryHandle) (hi : Nat) :
    ∀ (t : HandleTable) (lo : Nat), lo ≤ hi →
      t.Pairwise (fun e e' => e.1 + (H.getD e.2 default).m_size ≤ e'.1) →
      (∀ e ∈ t, lo ≤ e.1 ∧ e.1 + (H.getD e.2 default).m_size ≤ hi) →
      lo + blockBytes H t ≤ hi := by
  intro t
  induction t with
  | nil => intro lo hlo _ _; simp [blockBytes]; exact hlo
  | cons e rest ih =>
    intro lo _ hgeo hin
    have hg := List.pairwise_cons.mp hgeo
    have he := hin e (List.mem_cons_self _ _)
    have := ih (e.1 + (H.getD e.2 default).m_size) he.2 hg.2 (fun d hd =>
      ⟨hg.1 d hd, (hin d (List.mem_cons_of_mem _ hd)).2⟩)
    rw [blockBytes_cons]
    omega

/-- Records that hold the packed addresses are `PackedFrom` the cursor when no block lies
below it. -/
theorem packedFrom_of (H : List MemoryHandle) :
    ∀ (t : HandleTable) (cur : Nat),
      (∀ p ∈ packedTable H cur t, (H.getD p.2 default).m_address = p.1) →
      t.Pairwise (fun e e' => e.1 + (H.getD e.2 default).m_size ≤ e'.1) →
      (∀ e ∈ t, cur ≤ e.1) →
      (∀ e ∈ t, 0 < (H.getD e.2 default).m_size) →
      PackedFrom H cur t := by
  intro t
  induction t with
  | nil => intro cur _ _ _ _; trivial
  | cons e rest ih =>
    intro cur h4 hgeo hcur hpos
    have hg := List.pairwise_cons.mp hgeo
    have hc := hcur e (List.mem_cons_self _ _)
    refine ⟨h4 (cur, e.2) (by rw [packedTable]; exact List.mem_cons_self _ _), hc,
      hpos e (List.mem_cons_self _ _), ih _ ?_ hg.2 ?_ ?_⟩
    · intro p hp
      exact h4 p (by rw [packedTable]; exact List.mem_cons_of_mem _ hp)
    · intro d hd
      have := hg.1 d hd
      omega
    · intro d hd
      exact hpos d (List.mem_cons_of_mem _ hd)

theorem Sound.handles_distinct {s : GeneralAllocator} (hs : Sound s) :
    s.m_handleTable.Pairwise (fun e e' => e.2 ≠ e'.2) :=
  hs.blocks_gap.imp (fun h => h.2)

theorem Sound.index_lt {s : GeneralAllocator} (hs : Sound s) :
    ∀ e ∈ s.m_handleTable, e.2 < s.m_handles.length := by
  intro e he
  have := (hs.entries e he).1
  have := hs.count_le
  omega

theorem Sound.liveBytes_le {s : GeneralAllocator} (hs : Sound s) : s.liveBytes ≤ s.m_size := by
  have := blockBytes_le s.m_handles (s.m_pMemory + s.m_size) s.m_handleTable s.m_pMemory
    (by omega) (hs.blocks_gap.imp (fun h => h.1))
    (fun e he => ⟨(hs.entries e he).2.2.2.2.1, (hs.entries e he).2.2.2.2.2⟩)
  unfold liveBytes
  omega

/-- The state after `defragment`, in a state that satisfies the invariant: the records of
the first loop, the packed handle table and one free chunk behind the packed blocks. -/
theorem defragment_eq {s : GeneralAllocator} (hs : Sound s) :
    s.defragment =
      { s with
        m_chunks := [⟨s.m_pMemory + s.liveBytes, s.m_size - s.liveBytes⟩]
        m_handles := (defragLoop s.m_handleTable ⟨s.m_pMemory, s.m_handles, s.memory⟩).handles
        memory := (defragLoop s.m_handleTable ⟨s.m_pMemory, s.m_handles, s.memory⟩).memory
        m_handleTable := packedTable s.m_handles s.m_pMemory s.m_handleTable } := by
  obtain ⟨hcur, hlen, hsize, hT⟩ :=
    defragLoop_cursor s.m_handleTable ⟨s.m_pMemory, s.m_handles, s.memory⟩
  simp only at hcur hlen hsize hT
  have hL := hs.liveBytes_le
  have hrem : subSizeT s.m_size
      ((defragLoop s.m_handleTable ⟨s.m_pMemory, s.m_handles, s.memory⟩).pCurrentMemoryPosition -
        s.m_pMemory) = s.m_size - s.liveBytes := by
    rw [hcur]
    have : s.m_pMemory + blockBytes s.m_handles s.m_handleTable - s.m_pMemory = s.liveBytes := by
      unfold liveBytes; omega
    rw [this, subSizeT_of_le hs.size_lt hL]
  have haddr := defragLoop_addresses s.m_handleTable ⟨s.m_pMemory, s.m_handles, s.memory⟩
    hs.handles_distinct hs.index_lt
  simp only at haddr
  have hpackedEq := packedTable_congr hsize s.m_handleTable s.m_pMemory
  have hpacked : PackedFrom
      (defragLoop s.m_handleTable ⟨s.m_pMemory, s.m_handles, s.memory⟩).handles
      s.m_pMemory s.m_handleTable := by
    apply packedFrom_of
    · intro p hp
      rw [hpackedEq] at hp
      rw [haddr p hp]
    · refine hs.blocks_gap.imp ?_
      intro e e' h
      rw [hsize]
      exact h.1
    · intro e he
      exact (hs.entries e he).2.2.2.2.1
    · intro e he
      rw [hsize]
      exact (hs.entries e he).2.2.1
  have hloop := updateLoop_packed
    (defragLoop s.m_handleTable ⟨s.m_pMemory, s.m_handles, s.memory⟩).handles
    s.m_handleTable [] s.m_pMemory (2 * s.m_handleTable.length + 1) (by omega)
    (by simp) hs.keys_sorted hpacked
  rw [List.nil_append, List.nil_append, hpackedEq] at hloop
  unfold defragment updateHandleTableAddresses
  simp only [hrem, hloop]
  rw [hcur]
  rfl

/-! ## defragment keeps the invariant and establishes the tiling -/

/-- What the invariant gives about the records after the first loop of `defragment`. -/
theorem defragment_records {s : GeneralAllocator} (hs : Sound s) :
    (∀ j, s.defragment.handleAt j = { s.handleAt j with
        m_address := (s.defragment.handleAt j).m_address }) ∧
      (∀ p ∈ packedTable s.m_handles s.m_pMemory s.m_handleTable,
        s.defragment.handleAt p.2 = { s.handleAt p.2 with m_address := p.1 }) ∧
      s.defragment.m_handles.length = s.m_handles.length := by
  obtain ⟨_, hlen, hsize, hT⟩ :=
    defragLoop_cursor s.m_handleTable ⟨s.m_pMemory, s.m_handles, s.memory⟩
  have haddr := defragLoop_addresses s.m_handleTable ⟨s.m_pMemory, s.m_handles, s.memory⟩
    hs.handles_distinct hs.index_lt
  rw [defragment_eq hs]
  refine ⟨fun j => ?_, haddr, hlen⟩
  have h1 := hsize j
  have h2 := hT j
  simp only [handleAt] at *
  cases hj : (defragLoop s.m_handleTable ⟨s.m_pMemory, s.m_handles, s.memory⟩).handles.getD j
    default with
  | mk a n T =>
    rw [hj] at h1 h2
    simp only at h1 h2
    rw [← h1, ← h2]

/-- `defragment` keeps the invariant. -/
theorem sound_defragment {s : GeneralAllocator} (hs : Sound s) : Sound s.defragment := by
  obtain ⟨hrec, haddr, hlen⟩ := defragment_records hs
  have hL := hs.liveBytes_le
  have hentry : ∀ p ∈ packedTable s.m_handles s.m_pMemory s.m_handleTable,
      p.2 < s.m_handleCount ∧ (s.defragment.handleAt p.2).m_address = p.1 ∧
        0 < (s.defragment.handleAt p.2).m_size ∧
        (s.defragment.handleAt p.2).T.sizeofT ∣ (s.defragment.handleAt p.2).m_size ∧
        s.m_pMemory ≤ p.1 ∧
        p.1 + (s.defragment.handleAt p.2).m_size ≤ s.m_pMemory + s.liveBytes := by
    intro p hp
    obtain ⟨⟨e, he, he2⟩, hlo, hhi⟩ := mem_packedTable s.m_handles s.m_handleTable _ p hp
    have hent := hs.entries e he
    rw [he2] at hent
    rw [haddr p hp]
    exact ⟨hent.1, rfl, hent.2.2.1, hent.2.2.2.1, hlo, hhi⟩
  have hgap := packedTable_pairwise s.m_handles s.m_handleTable s.m_pMemory hs.handles_distinct
  have hstate := defragment_eq hs
  have hchunks : s.defragment.m_chunks =
      [⟨s.m_pMemory + s.liveBytes, s.m_size - s.liveBytes⟩] := by rw [hstate]
  have htable : s.defragment.m_handleTable =
      packedTable s.m_handles s.m_pMemory s.m_handleTable := by rw [hstate]
  have hbase : s.defragment.m_pMemory = s.m_pMemory := by rw [hstate]
  have hsz : s.defragment.m_size = s.m_size := by rw [hstate]
  have hcount : s.defragment.m_handleCount = s.m_handleCount := by rw [hstate]
  refine
    { size_lt := by rw [hsz]; exact hs.size_lt
      count_le := by rw [hcount, hlen]; exact hs.count_le
      chunks_gap := by rw [hchunks]; exact List.pairwise_singleton _ _
      chunks_in := ?_
      chunks_pos := ?_
      blocks_gap := ?_
      entries := ?_
      apart := ?_ }
  · intro c hc
    rw [hchunks, List.mem_singleton] at hc
    subst hc
    rw [hbase, hsz]
    simp only
    omega
  · intro c hc hz
    rw [hchunks, List.mem_singleton] at hc
    subst hc
    rw [hbase, hsz]
    simp only at hz ⊢
    omega
  · rw [htable]
    refine hgap.imp_of_mem ?_
    intro p p' hp _ h
    rw [haddr p hp]
    exact h
  · intro p hp
    rw [htable] at hp
    rw [hcount, hbase, hsz]
    have := hentry p hp
    exact ⟨this.1, this.2.1, this.2.2.1, this.2.2.2.1, this.2.2.2.2.1, by omega⟩
  · intro p hp c hc
    rw [htable] at hp
    rw [hchunks, List.mem_singleton] at hc
    subst hc
    have := hentry p hp
    exact Or.inr this.2.2.2.2.2

/-- The blocks of the packed table cover the bytes from the cursor to the end of the packed
blocks, each once. -/
theorem countP_covers_packed (H : List MemoryHandle) (x : Nat) :
    ∀ (t : HandleTable) (cur : Nat),
      (packedTable H cur t).countP
          (fun p => covers ⟨p.1, (H.getD p.2 default).m_size⟩ x) =
        if cur ≤ x ∧ x < cur + blockBytes H t then 1 else 0 := by
  intro t
  induction t with
  | nil =>
    intro cur
    simp only [packedTable, List.countP_nil, blockBytes, List.map_nil, List.sum_nil]
    rw [if_neg (by omega)]
  | cons e rest ih =>
    intro cur
    rw [packedTable, List.countP_cons, ih, blockBytes_cons]
    simp only [covers_iff]
    split_ifs <;> omega

/-- After `defragment` the tiling holds, in every state that satisfies the invariant. -/
theorem tiling_defragment {s : GeneralAllocator} (hs : Sound s) : Tiling s.defragment := by
  obtain ⟨_, haddr, _⟩ := defragment_records hs
  have hL := hs.liveBytes_le
  have hstate := defragment_eq hs
  have hchunks : s.defragment.m_chunks =
      [⟨s.m_pMemory + s.liveBytes, s.m_size - s.liveBytes⟩] := by rw [hstate]
  have htable : s.defragment.m_handleTable =
      packedTable s.m_handles s.m_pMemory s.m_handleTable := by rw [hstate]
  have hbase : s.defragment.m_pMemory = s.m_pMemory := by rw [hstate]
  have hsz : s.defragment.m_size = s.m_size := by rw [hstate]
  intro x
  rw [coverCount_eq, hchunks, htable, hbase, hsz]
  have hblocks : (packedTable s.m_handles s.m_pMemory s.m_handleTable).countP
      (fun p => covers (s.defragment.blockOf p) x) =
      (packedTable s.m_handles s.m_pMemory s.m_handleTable).countP
        (fun p => covers ⟨p.1, (s.m_handles.getD p.2 default).m_size⟩ x) := by
    apply List.countP_congr
    intro p hp
    simp only [blockOf, MemoryHandle.getAddress, MemoryHandle.getTotalSize]
    rw [haddr p hp]
    rfl
  rw [hblocks, countP_covers_packed, countP_covers_cons, List.countP_nil]
  simp only
  unfold liveBytes at *
  split_ifs <;> omega

/-! ## The invariants along call sequences -/

/-- A freshly constructed allocator satisfies the invariant. -/
theorem sound_create (base size : Nat) (memory : Nat → Nat) (hsize : size < SIZE_MOD) :
    Sound (create base size memory) := by
  refine
    { size_lt := hsize
      count_le := by simp [create]
      chunks_gap := List.pairwise_singleton _ _
      chunks_in := ?_
      chunks_pos := ?_
      blocks_gap := List.Pairwise.nil
      entries := ?_
      apart := ?_ }
  · intro c hc
    simp only [create, List.mem_singleton] at hc
    subst hc
    simp [create]
  · intro c hc hz
    simp only [create, List.mem_singleton] at hc
    subst hc
    simp only [create] at hz ⊢
    omega
  · intro e he
    simp [create] at he
  · intro e he
    simp [create] at he

/-- A freshly constructed allocator satisfies the tiling invariant. -/
theorem tiling_create (base size : Nat) (memory : Nat → Nat) :
    Tiling (create base size memory) := by
  intro x
  rw [coverCount_eq]
  simp only [create, List.countP_nil, countP_covers_cons, Nat.zero_add]

theorem sound_step {s : GeneralAllocator} (hs : Sound s) (c : Call) (hp : Proper s c) :
    Sound (s.step c) := by
  cases c with
  | allocate T amount ctor => exact sound_allocate hs T amount ctor hp
  | deallocate idx => exact sound_deallocate hs idx hp
  | defragment => exact sound_defragment hs

theorem tiling_step {s : GeneralAllocator} (hs : Sound s) (ht : Tiling s) (c : Call)
    (hp : Proper s c) (hserved : Served s c) : Tiling (s.step c) := by
  cases c with
  | allocate T amount ctor => exact tiling_allocate hs ht T amount ctor hp hserved
  | deallocate idx => exact tiling_deallocate hs ht idx hp
  | defragment => exact tiling_defragment hs

theorem sound_run : ∀ (calls : List Call) (s : GeneralAllocator), Sound s →
    ProperRun s calls → Sound (s.run calls) := by
  intro calls
  induction calls with
  | nil => intro s hs _; exact hs
  | cons c rest ih =>
    intro s hs hp
    exact ih (s.step c) (sound_step hs c hp.1) hp.2

theorem tiling_run : ∀ (calls : List Call) (s : GeneralAllocator), Sound s → Tiling s →
    ProperRun s calls → ServedRun s calls → Tiling (s.run calls) := by
  intro calls
  induction calls with
  | nil => intro s _ ht _ _; exact ht
  | cons c rest ih =>
    intro s hs ht hp hserved
    exact ih (s.step c) (sound_step hs c hp.1) (tiling_step hs ht c hp.1 hserved.1) hp.2
      hserved.2

/-- The tiling invariant along call sequences. Starting from a freshly constructed allocator
whose size is a `size_t`, after every sequence of allocate, deallocate and defragment calls
in which every allocate asks for at least one element without wrap of the byte count, every
deallocate is given a handle that is live whenever it passes the validity test, and no
allocate fails with OutOfHandles (calls that fail with OutOfMemory or InvalidHandle
included), every byte of the arena lies in exactly one live block or free chunk and none of
them reaches outside the arena. -/
theorem tiling_after_proper_calls (base size : Nat) (memory : Nat → Nat) (calls : List Call)
    (hsize : size < SIZE_MOD)
    (hproper : ProperRun (create base size memory) calls)
    (hserved : ServedRun (create base size memory) calls) :
    Tiling ((create base size memory).run calls) :=
  tiling_run calls _ (sound_create base size memory hsize) (tiling_create base size memory)
    hproper hserved

set_option maxRecDepth 1000000 in
/-- C1. Two call sequences on a fresh arena of 1024 bytes after which the tiling fails.
After the first 100 calls of `exhaustingCalls` (one-byte allocations, all served) the tiling
holds; the next allocation fails with OutOfHandles and leaves byte 4196 in no live block and
in no free chunk. In `staleCalls` the last call, a second deallocate of a handle whose old
address has become a key again, succeeds and leaves byte 4160 in two free chunks. -/
theorem tiling_counterexample :
    (Tiling (arena1024.run (exhaustingCalls.take 100)) ∧
        ((arena1024.run (exhaustingCalls.take 100)).allocate Elem1 1 (fun _ => 0)).1 =
          .error .OutOfHandles ∧
        ¬ Tiling (arena1024.run exhaustingCalls) ∧
        (arena1024.run exhaustingCalls).coverCount 4196 = 0) ∧
      (Tiling (arena1024.run (staleCalls.take 3)) ∧
        ((arena1024.run (staleCalls.take 3)).deallocate
          ((arena1024.run (staleCalls.take 3)).handleAt 0)).1 = .ok () ∧
        ¬ Tiling (arena1024.run staleCalls) ∧
        (arena1024.run staleCalls).coverCount 4160 = 2) :=
  ⟨⟨tiling_run _ arena1024 (sound_create 4096 1024 _ (by decide)) (tiling_create 4096 1024 _)
      (by decide) (by decide),
      by decide, fun h => absurd (h 4196) (by decide), by decide⟩,
    ⟨tiling_run _ arena1024 (sound_create 4096 1024 _ (by decide)) (tiling_create 4096 1024 _)
      (by decide) (by decide),
      by decide, fun h => absurd (h 4160) (by decide), by decide⟩⟩

/-- C2 (amended). Starting from a freshly constructed allocator whose size is a `size_t`,
after every sequence of calls in which every allocate asks for at least one element without
wrap of the byte count and every deallocate is given a handle that is live whenever it
passes the validity test, the free list is strictly ordered by address and each chunk ends
strictly below the start of the next one. -/
theorem coalesced_after_proper_calls (base size : Nat) (memory : Nat → Nat)
    (calls : List Call) (hsize : size < SIZE_MOD)
    (hproper : ProperRun (create base size memory) calls) :
    Coalesced ((create base size memory).run calls).m_chunks ∧
      ((create base size memory).run calls).m_chunks.Pairwise
        (fun c d => c.pChunk < d.pChunk) := by
  have hs := sound_run calls _ (sound_create base size memory hsize) hproper
  refine ⟨(coalesced_iff_pairwise _).mpr hs.chunks_gap, hs.chunks_gap.imp ?_⟩
  intro c d h
  unfold ChunkGap at h
  omega

set_option maxRecDepth 100000 in
theorem coalesced_after_proper_calls_witness :
    ((1024 : Nat) < SIZE_MOD ∧ ProperRun (create 4096 1024 (fun _ => 0)) callsS3) ∧
    Coalesced ((create 4096 1024 (fun _ => 0)).run callsS3).m_chunks :=
  ⟨⟨by decide, by decide⟩,
    (coalesced_after_proper_calls 4096 1024 (fun _ => 0) callsS3 (by decide) (by decide)).1⟩

set_option maxRecDepth 100000 in
/-- C2 as stated fails. In `zeroCalls` every deallocate is given a live handle and
succeeds, and the free list is `(4096, 1024), (4160, 0)` afterwards: the empty chunk of the
block of no element starts inside the other chunk. In `staleCalls` the last deallocate is
given a handle that is not live, succeeds all the same, and the free list is
`(4096, 128), (4160, 960)` afterwards: the chunks overlap. -/
theorem coalesced_counterexample :
    (Live (arena1024.run (zeroCalls.take 2)) 0 ∧ Live (arena1024.run (zeroCalls.take 3)) 1 ∧
        ((arena1024.run (zeroCalls.take 3)).deallocate
          ((arena1024.run (zeroCalls.take 3)).handleAt 1)).1 = .ok () ∧
        (arena1024.run zeroCalls).m_chunks = [⟨4096, 1024⟩, ⟨4160, 0⟩] ∧
        ¬ Coalesced (arena1024.run zeroCalls).m_chunks) ∧
      (¬ Live (arena1024.run (staleCalls.take 3)) 0 ∧
        ((arena1024.run (staleCalls.take 3)).deallocate
          ((arena1024.run (staleCalls.take 3)).handleAt 0)).1 = .ok () ∧
        (arena1024.run staleCalls).m_chunks = [⟨4096, 128⟩, ⟨4160, 960⟩] ∧
        ¬ Coalesced (arena1024.run staleCalls).m_chunks) := by
  decide

/-! ## From the tiling to the order of the blocks -/

theorem countP_covers_le_coverCount (s : GeneralAllocator) (x : Nat) :
    s.m_handleTable.countP (fun e => covers (s.blockOf e) x) ≤ s.coverCount x := by
  rw [coverCount_eq]
  omega

theorem Tiling.coverCount_le_one {s : GeneralAllocator} (ht : Tiling s) (x : Nat) :
    s.coverCount x ≤ 1 := by
  rw [ht x]
  split <;> omega

theorem Tiling.inside {s : GeneralAllocator} (ht : Tiling s) (x : Nat)
    (hx : 0 < s.coverCount x) : s.m_pMemory ≤ x ∧ x < s.m_pMemory + s.m_size := by
  rw [ht x] at hx
  by_contra h
  rw [if_neg h] at hx
  omega

/-- Blocks that cover no byte twice, keyed in ascending order by the address of their
non-empty ranges, do not overlap. -/
theorem blocks_ordered_of_countP (f : Nat × Nat → GeneralAllocatorChunk) :
    ∀ t : HandleTable,
      (∀ x, t.countP (fun e => covers (f e) x) ≤ 1) →
      t.Pairwise (fun e e' => e.1 < e'.1) →
      (∀ e ∈ t, (f e).pChunk = e.1 ∧ 0 < (f e).size) →
      t.Pairwise (fun e e' => e.1 + (f e).size ≤ e'.1) := by
  intro t
  induction t with
  | nil => intro _ _ _; exact List.Pairwise.nil
  | cons e rest ih =>
    intro hcount hsorted hent
    have hs := List.pairwise_cons.mp hsorted
    refine List.pairwise_cons.mpr ⟨fun e' he' => ?_, ih (fun x => ?_) hs.2
      (fun d hd => hent d (List.mem_cons_of_mem _ hd))⟩
    · by_contra hover
      have hlt := hs.1 e' he'
      have he := hent e (List.mem_cons_self _ _)
      have he2 := hent e' (List.mem_cons_of_mem _ he')
      have h1 : covers (f e) e'.1 = true := (covers_iff _ _).mpr (by omega)
      have h2 : covers (f e') e'.1 = true := (covers_iff _ _).mpr (by omega)
      have h3 : 0 < rest.countP (fun d => covers (f d) e'.1) :=
        List.countP_pos_iff.mpr ⟨e', he', h2⟩
      have := hcount e'.1
      rw [List.countP_cons, if_pos h1] at this
      omega
    · have := hcount x
      rw [List.countP_cons] at this
      omega

theorem TableConsistent.keys_lt {s : GeneralAllocator} (hc : TableConsistent s) :
    s.m_handleTable.Pairwise (fun e e' => e.1 < e'.1) :=
  hc.keys_sorted.imp (fun h => h.1)

/-- In a state with a consistent handle table that satisfies the tiling invariant, the
blocks are ordered by key without overlap and lie in the arena: the state with the free list
left out satisfies the structural invariant. -/
theorem sound_of_tiling {s : GeneralAllocator} (ht : Tiling s) (hc : TableConsistent s) :
    Sound { s with m_chunks := [] } := by
  have hle : ∀ x, s.m_handleTable.countP (fun e => covers (s.blockOf e) x) ≤ 1 := fun x =>
    le_trans (countP_covers_le_coverCount s x) (ht.coverCount_le_one x)
  have hblock : ∀ e ∈ s.m_handleTable, (s.blockOf e).pChunk = e.1 ∧ 0 < (s.blockOf e).size :=
    fun e he => ⟨(hc.entries e he).2.1, (hc.entries e he).2.2.1⟩
  have hord := blocks_ordered_of_countP s.blockOf s.m_handleTable hle hc.keys_lt hblock
  have hin : ∀ e ∈ s.m_handleTable,
      s.m_pMemory ≤ e.1 ∧ e.1 + (s.handleAt e.2).m_size ≤ s.m_pMemory + s.m_size := by
    intro e he
    have hb := hblock e he
    have hfirst : covers (s.blockOf e) e.1 = true := (covers_iff _ _).mpr (by omega)
    have hlast : covers (s.blockOf e) (e.1 + (s.handleAt e.2).m_size - 1) = true :=
      (covers_iff _ _).mpr (by
        have : (s.blockOf e).size = (s.handleAt e.2).m_size := rfl
        omega)
    have h1 := ht.inside e.1 (lt_of_lt_of_le
      (List.countP_pos_iff.mpr ⟨e, he, hfirst⟩) (countP_covers_le_coverCount s _))
    have h2 := ht.inside (e.1 + (s.handleAt e.2).m_size - 1) (lt_of_lt_of_le
      (List.countP_pos_iff.mpr ⟨e, he, hlast⟩) (countP_covers_le_coverCount s _))
    have : 0 < (s.handleAt e.2).m_size := (hc.entries e he).2.2.1
    omega
  refine
    { size_lt := hc.size_lt
      count_le := hc.count_le
      chunks_gap := List.Pairwise.nil
      chunks_in := fun c hc' => by simp at hc'
      chunks_pos := fun c hc' => by simp at hc'
      blocks_gap := ?_
      entries := fun e he =>
        ⟨(hc.entries e he).1, (hc.entries e he).2.1, (hc.entries e he).2.2.1,
          (hc.entries e he).2.2.2, hin e he⟩
      apart := fun e _ c hc' => by simp at hc' }
  have h2 : s.m_handleTable.Pairwise (fun e e' => e.2 ≠ e'.2) :=
    hc.keys_sorted.imp (fun h => h.2)
  exact hord.and h2

theorem defragment_without_chunks (s : GeneralAllocator) :
    ({ s with m_chunks := [] } : GeneralAllocator).defragment = s.defragment := rfl

theorem Sound.tableConsistent {s : GeneralAllocator} (hs : Sound s) : TableConsistent s :=
  { size_lt := hs.size_lt
    count_le := hs.count_le
    keys_sorted := hs.blocks_gap.imp_of_mem (fun he _ h => by
      have := (hs.entries _ he).2.2.1
      exact ⟨by omega, h.2⟩)
    entries := fun e he =>
      ⟨(hs.entries e he).1, (hs.entries e he).2.1, (hs.entries e he).2.2.1,
        (hs.entries e he).2.2.2.1⟩ }

/-! ## defragment: layout and handle identity -/

theorem mapFind_of_mem_sorted {t : HandleTable} (hsorted : t.Pairwise (fun e e' => e.1 < e'.1))
    {k v : Nat} (hmem : (k, v) ∈ t) : mapFind t k = some v := by
  induction t with
  | nil => simp at hmem
  | cons e rest ih =>
    have hs := List.pairwise_cons.mp hsorted
    rw [mapFind]
    rcases List.mem_cons.mp hmem with he | hrest
    · rw [← he]
      simp
    · have := hs.1 _ hrest
      simp only at this
      rw [if_neg (by omega)]
      exact ih hs.2 hrest

theorem backToBack_packed (H : List MemoryHandle) :
    ∀ (t : HandleTable) (cur : Nat),
      backToBack cur ((packedTable H cur t).map
        (fun p => (⟨p.1, (H.getD p.2 default).m_size⟩ : GeneralAllocatorChunk))) = true := by
  intro t
  induction t with
  | nil => intro cur; rfl
  | cons e rest ih =>
    intro cur
    rw [packedTable, List.map_cons, backToBack, ih]
    simp

theorem blockBytes_packed (H : List MemoryHandle) (t : HandleTable) (cur : Nat) :
    blockBytes H (packedTable H cur t) = blockBytes H t := by
  unfold blockBytes
  have h1 : ∀ l : HandleTable, l.map (fun e => (H.getD e.2 default).m_size) =
      (l.map Prod.snd).map (fun i => (H.getD i default).m_size) := by
    intro l
    rw [List.map_map]
    rfl
  rw [h1, h1, packedTable_map_snd]

/-- The facts about `defragment` in a state with a consistent handle table that satisfies
the tiling invariant, collected for the theorems on the layout and on handle identity. -/
theorem defragment_facts {s : GeneralAllocator} (ht : Tiling s) (hc : TableConsistent s) :
    s.defragment.m_handleTable = packedTable s.m_handles s.m_pMemory s.m_handleTable ∧
      s.defragment.m_chunks = [⟨s.m_pMemory + s.liveBytes, s.m_size - s.liveBytes⟩] ∧
      s.liveBytes ≤ s.m_size ∧
      (∀ j, (s.defragment.handleAt j).m_size = (s.handleAt j).m_size ∧
        (s.defragment.handleAt j).T = (s.handleAt j).T) ∧
      (∀ p ∈ packedTable s.m_handles s.m_pMemory s.m_handleTable,
        s.defragment.handleAt p.2 = { s.handleAt p.2 with m_address := p.1 }) ∧
      (packedTable s.m_handles s.m_pMemory s.m_handleTable).Pairwise
        (fun p p' => p.1 < p'.1) := by
  have hs := sound_of_tiling ht hc
  have hstate := defragment_eq hs
  rw [defragment_without_chunks] at hstate
  obtain ⟨hrec, haddr, _⟩ := defragment_records hs
  rw [defragment_without_chunks] at hrec haddr
  have hL : s.liveBytes ≤ s.m_size := hs.liveBytes_le
  refine ⟨by rw [hstate], by rw [hstate]; rfl, hL, fun j => ?_, haddr, ?_⟩
  · have := hrec j
    constructor
    · rw [this]; rfl
    · rw [this]; rfl
  · have hgap := packedTable_pairwise s.m_handles s.m_handleTable s.m_pMemory
      (hc.keys_sorted.imp (fun h => h.2))
    refine hgap.imp_of_mem ?_
    intro p p' hp _ h
    obtain ⟨⟨e, he, he2⟩, _, _⟩ := mem_packedTable s.m_handles s.m_handleTable _ p hp
    have hpos := (hc.entries e he).2.2.1
    rw [he2] at hpos
    have : (s.m_handles.getD p.2 default).m_size = (s.handleAt p.2).m_size := rfl
    omega

/-- C5 (amended). In every state that satisfies the tiling invariant and whose handle table
is consistent with the handle records, every live block holding at least one byte, after
`defragment` the handle table holds the same handles in the same order, each block has
its total size unchanged, the blocks lie back to back from the arena base, the table is keyed
by the new addresses, and the free list is the one chunk `(base + L, S - L)` where `L`, the
sum of the sizes of the live blocks, is at most `S`. -/
theorem defragment_layout (s : GeneralAllocator) (ht : Tiling s) (hc : TableConsistent s) :
    s.defragment.m_handleTable.map Prod.snd = s.m_handleTable.map Prod.snd ∧
      s.defragment.liveBlocks.map (fun b => b.size) = s.liveBlocks.map (fun b => b.size) ∧
      backToBack s.m_pMemory s.defragment.liveBlocks = true ∧
      (∀ e ∈ s.defragment.m_handleTable, (s.defragment.handleAt e.2).m_address = e.1) ∧
      s.defragment.m_chunks = [⟨s.m_pMemory + s.liveBytes, s.m_size - s.liveBytes⟩] ∧
      s.liveBytes ≤ s.m_size ∧
      s.defragment.liveBytes = s.liveBytes := by
  obtain ⟨htable, hchunks, hL, hrec, haddr, _⟩ := defragment_facts ht hc
  have hblocks : s.defragment.liveBlocks =
      (packedTable s.m_handles s.m_pMemory s.m_handleTable).map
        (fun p => (⟨p.1, (s.m_handles.getD p.2 default).m_size⟩ : GeneralAllocatorChunk)) := by
    unfold liveBlocks
    rw [htable]
    apply List.map_congr_left
    intro p hp
    simp only [blockOf, MemoryHandle.getAddress, MemoryHandle.getTotalSize]
    rw [haddr p hp]
    rfl
  refine ⟨?_, ?_, ?_, ?_, hchunks, hL, ?_⟩
  · rw [htable, packedTable_map_snd]
  · rw [hblocks, List.map_map]
    unfold liveBlocks
    rw [List.map_map]
    have h1 : ∀ l : HandleTable,
        l.map ((fun b : GeneralAllocatorChunk => b.size) ∘
          (fun p => (⟨p.1, (s.m_handles.getD p.2 default).m_size⟩ : GeneralAllocatorChunk))) =
        (l.map Prod.snd).map (fun i => (s.m_handles.getD i default).m_size) := by
      intro l
      rw [List.map_map]
      rfl
    have h2 : s.m_handleTable.map ((fun b : GeneralAllocatorChunk => b.size) ∘ s.blockOf) =
        (s.m_handleTable.map Prod.snd).map (fun i => (s.m_handles.getD i default).m_size) := by
      rw [List.map_map]
      rfl
    rw [h1, h2, packedTable_map_snd]
  · rw [hblocks]
    exact backToBack_packed _ _ _
  · intro e he
    rw [htable] at he
    rw [haddr e he]
  · unfold liveBytes
    rw [htable]
    have hsz : ∀ j, (s.defragment.m_handles.getD j default).m_size =
        (s.m_handles.getD j default).m_size := fun j => (hrec j).1
    rw [blockBytes_congr _ hsz, blockBytes_packed]

/-- C6 (amended). In every state that satisfies the tiling invariant and whose handle table
is consistent with the handle records, every live block holding at least one byte, a handle
that is live before `defragment` is live after it: `isHandleValid` holds, the rebuilt handle
table maps its new address to it and has as many keys as before, and its total size and
element type are unchanged. When no relocation constructs an object over its own source
(`MovesApart`), every byte read through the handle is the byte read through it before. -/
theorem defragment_handle_identity (s : GeneralAllocator) (ht : Tiling s)
    (hc : TableConsistent s) (idx : Nat) (hlive : Live s idx) :
    Live s.defragment idx ∧
      s.defragment.isHandleValid (s.defragment.handleAt idx) = true ∧
      s.defragment.m_handleTable.length = s.m_handleTable.length ∧
      (s.defragment.handleAt idx).m_size = (s.handleAt idx).m_size ∧
      (s.defragment.handleAt idx).T = (s.handleAt idx).T ∧
      (MovesApart s →
        ∀ j, j < (s.handleAt idx).m_size →
          s.defragment.contents idx j = s.contents idx j) := by
  obtain ⟨htable, _, _, hrec, haddr, hsorted⟩ := defragment_facts ht hc
  have hmem : ((s.handleAt idx).m_address, idx) ∈ s.m_handleTable := mapFind_some_mem hlive
  obtain ⟨p, hp, hp2⟩ := mem_packedTable_of_mem s.m_handles s.m_handleTable s.m_pMemory _ hmem
  simp only at hp2
  have hnew : (s.defragment.handleAt idx).m_address = p.1 := by
    rw [← hp2, haddr p hp]
  have hp' : (p.1, idx) ∈ s.defragment.m_handleTable := by
    rw [htable, ← hp2]
    exact hp
  have hlive' : Live s.defragment idx := by
    unfold Live MemoryHandle.getAddress
    rw [hnew]
    apply mapFind_of_mem_sorted _ hp'
    rw [htable]
    exact hsorted
  refine ⟨hlive', ?_, ?_, (hrec idx).1, (hrec idx).2, ?_⟩
  · unfold isHandleValid MemoryHandle.getAddress
    rw [hnew]
    exact mapContains_iff.mpr ⟨_, hp', rfl⟩
  · rw [htable, packedTable_length]
  · intro _ j hj
    have hs := sound_of_tiling ht hc
    have hstate := defragment_eq hs
    rw [defragment_without_chunks] at hstate
    have hcont := defragLoop_contents s.m_handleTable ⟨s.m_pMemory, s.m_handles, s.memory⟩
      hs.handles_distinct hs.index_lt
      (hs.blocks_gap.imp_of_mem (fun {a b} he he' h => by
        have h1 : (s.m_handles.getD a.2 default).m_address = a.1 := (hs.entries _ he).2.1
        have h2 : (s.m_handles.getD b.2 default).m_address = b.1 := (hs.entries _ he').2.1
        have h3 : a.1 + (s.m_handles.getD a.2 default).m_size ≤ b.1 := h.1
        simp only
        omega))
      (fun e he => by
        have h1 : (s.m_handles.getD e.2 default).m_address = e.1 := (hs.entries e he).2.1
        have h2 : s.m_pMemory ≤ e.1 := (hs.entries e he).2.2.2.2.1
        simp only
        omega)
      (fun e he => (hs.entries e he).2.2.2.1)
      _ hmem j hj
    unfold contents MemoryHandle.getAddress
    have hmemory : s.defragment.memory =
        (defragLoop s.m_handleTable ⟨s.m_pMemory, s.m_handles, s.memory⟩).memory := by
      rw [hstate]
    have hhandles : s.defragment.handleAt idx =
        (defragLoop s.m_handleTable ⟨s.m_pMemory, s.m_handles, s.memory⟩).handles.getD idx
          default := by
      rw [hstate]; rfl
    rw [hmemory, hhandles]
    exact hcont

set_option maxRecDepth 100000 in
theorem defragment_layout_witness :
    (Tiling (arena1024.run callsS2) ∧ TableConsistent (arena1024.run callsS2)) ∧
      backToBack 4096 (arena1024.run callsS2).defragment.liveBlocks = true ∧
      (arena1024.run callsS2).defragment.m_chunks =
        [⟨(arena1024.run callsS2).m_pMemory + (arena1024.run callsS2).liveBytes,
          (arena1024.run callsS2).m_size - (arena1024.run callsS2).liveBytes⟩] :=
  ⟨⟨tiling_run callsS2 arena1024 (sound_create 4096 1024 _ (by decide))
        (tiling_create 4096 1024 _) (by decide) (by decide),
      (sound_run callsS2 arena1024 (sound_create 4096 1024 _ (by decide))
        (by decide)).tableConsistent⟩,
    (defragment_layout (arena1024.run callsS2)
      (tiling_run callsS2 arena1024 (sound_create 4096 1024 _ (by decide))
        (tiling_create 4096 1024 _) (by decide) (by decide))
      (sound_run callsS2 arena1024 (sound_create 4096 1024 _ (by decide))
        (by decide)).tableConsistent).2.2.1,
    (defragment_layout (arena1024.run callsS2)
      (tiling_run callsS2 arena1024 (sound_create 4096 1024 _ (by decide))
        (tiling_create 4096 1024 _) (by decide) (by decide))
      (sound_run callsS2 arena1024 (sound_create 4096 1024 _ (by decide))
        (by decide)).tableConsistent).2.2.2.2.1⟩

set_option maxRecDepth 100000 in
theorem defragment_handle_identity_witness :
    (Tiling (arena1024.run callsS2) ∧ TableConsistent (arena1024.run callsS2) ∧
      Live (arena1024.run callsS2) 3 ∧ MovesApart (arena1024.run callsS2)) ∧
      Live (arena1024.run callsS2).defragment 3 ∧
      ∀ j, j < ((arena1024.run callsS2).handleAt 3).m_size →
        (arena1024.run callsS2).defragment.contents 3 j = (arena1024.run callsS2).contents 3 j :=
  ⟨⟨tiling_run callsS2 arena1024 (sound_create 4096 1024 _ (by decide))
        (tiling_create 4096 1024 _) (by decide) (by decide),
      (sound_run callsS2 arena1024 (sound_create 4096 1024 _ (by decide))
        (by decide)).tableConsistent,
      by decide, by decide⟩,
    (defragment_handle_identity (arena1024.run callsS2)
      (tiling_run callsS2 arena1024 (sound_create 4096 1024 _ (by decide))
        (tiling_create 4096 1024 _) (by decide) (by decide))
      (sound_run callsS2 arena1024 (sound_create 4096 1024 _ (by decide))
        (by decide)).tableConsistent 3 (by decide)).1,
    (defragment_handle_identity (arena1024.run callsS2)
      (tiling_run callsS2 arena1024 (sound_create 4096 1024 _ (by decide))
        (tiling_create 4096 1024 _) (by decide) (by decide))
      (sound_run callsS2 arena1024 (sound_create 4096 1024 _ (by decide))
        (by decide)).tableConsistent 3 (by decide)).2.2.2.2.2 (by decide)⟩

/-! ## The handle records -/

/-- When a chunk fits, the outcome of `allocate` is decided by `registerHandle`: the next
record, or OutOfHandles when all records have been handed out. -/
theorem allocate_fst_of_fit (s : GeneralAllocator) (T : ElemType) (amount : Nat)
    (ctor : Nat → Nat) (hfit : ∃ c ∈ s.m_chunks, mulSizeT amount T.sizeofT ≤ c.size) :
    (s.allocate T amount ctor).1 =
      if s.m_handleCount ≥ s.m_handles.length then .error .OutOfHandles
      else .ok s.m_handleCount := by
  cases hc : carveFirstFit (mulSizeT amount T.sizeofT) s.m_chunks with
  | none =>
    obtain ⟨c, hmem, hle⟩ := hfit
    have := (carveFirstFit_eq_none_iff _ _).mp hc c hmem
    omega
  | some r =>
    obtain ⟨data, shrunk, chunks⟩ := r
    rw [allocate_of_carve_some hc, registerHandle_fst]

/-- The array of handle records keeps its length under `allocate`, and the count of records
handed out grows by one when `allocate` returns a handle and not at all when it throws. -/
theorem allocate_handles (s : GeneralAllocator) (T : ElemType) (amount : Nat)
    (ctor : Nat → Nat) :
    (s.allocate T amount ctor).2.m_handles.length = s.m_handles.length ∧
      (s.allocate T amount ctor).2.m_handleCount =
        s.m_handleCount +
          (match (s.allocate T amount ctor).1 with
            | .ok _ => 1
            | .error _ => 0) := by
  cases hc : carveFirstFit (mulSizeT amount T.sizeofT) s.m_chunks with
  | none => rw [allocate_of_carve_none hc]; exact ⟨rfl, rfl⟩
  | some r =>
    obtain ⟨data, shrunk, chunks⟩ := r
    rw [allocate_of_carve_some hc, registerHandle_snd, registerHandle_fst]
    by_cases hfull : s.m_handleCount ≥ s.m_handles.length
    · rw [if_pos hfull, if_pos hfull]
      exact ⟨rfl, rfl⟩
    · rw [if_neg hfull, if_neg hfull]
      exact ⟨List.length_set _ _ _, rfl⟩

/-- No statement of `deallocate` touches the handle records or their count. -/
theorem deallocate_handles (s : GeneralAllocator) (h : MemoryHandle) :
    (s.deallocate h).2.m_handles = s.m_handles ∧
      (s.deallocate h).2.m_handleCount = s.m_handleCount := by
  unfold deallocate
  split
  · exact ⟨rfl, rfl⟩
  · split <;> exact ⟨rfl, rfl⟩

/-- Compaction keeps the number of handle records and the count of records handed out. -/
theorem defragment_handles (s : GeneralAllocator) :
    s.defragment.m_handles.length = s.m_handles.length ∧
      s.defragment.m_handleCount = s.m_handleCount :=
  ⟨(defragLoop_cursor s.m_handleTable ⟨s.m_pMemory, s.m_handles, s.memory⟩).2.1, rfl⟩

/-- Along every call sequence the count of records handed out is the count at the start
plus the number of `allocate` calls that returned a handle. -/
theorem handleCount_run :
    ∀ (calls : List Call) (s : GeneralAllocator),
      (s.run calls).m_handles.length = s.m_handles.length ∧
        (s.run calls).m_handleCount = s.m_handleCount + s.allocations calls := by
  intro calls
  induction calls with
  | nil => intro s; exact ⟨rfl, rfl⟩
  | cons c rest ih =>
    intro s
    cases c with
    | allocate T amount ctor =>
      have h := allocate_handles s T amount ctor
      have h' := ih (s.allocate T amount ctor).2
      simp only [run, step, allocations]
      refine ⟨h'.1.trans h.1, ?_⟩
      rw [h'.2, h.2]
      omega
    | deallocate handle =>
      have h := deallocate_handles s (s.handleAt handle)
      have h' := ih (s.deallocate (s.handleAt handle)).2
      simp only [run, step, allocations]
      refine ⟨h'.1.trans (congrArg List.length h.1), ?_⟩
      rw [h'.2, h.2]
    | defragment =>
      have h := defragment_handles s
      have h' := ih s.defragment
      simp only [run, step, allocations]
      exact ⟨h'.1.trans h.1, by rw [h'.2, h.2]⟩

set_option maxRecDepth 1000000 in
/-- C11, as stated, fails: after 100 allocate/deallocate pairs on a fresh arena of 1024
bytes no block is live and the whole arena is one free chunk, yet the next `allocate` of one
element of 64 bytes fails with OutOfHandles. -/
theorem handle_records_reused_counterexample :
    (arena1024.run (pairCalls 100)).m_handleTable = [] ∧
      (arena1024.run (pairCalls 100)).m_chunks = [⟨4096, 1024⟩] ∧
      arena1024.allocations (pairCalls 100) = 100 ∧
      ((arena1024.run (pairCalls 100)).allocate Elem64 1 (fun _ => 0)).1 =
        .error .OutOfHandles := by
  decide

/-- C11 (amended). Handle records are not reused: in the state after any call sequence on a
fresh allocator the count of records handed out is the number of `allocate` calls that have
returned a handle (deallocate and defragment give none back), `allocate` fails with
OutOfHandles exactly when a free chunk fits the request and 100 allocations have succeeded,
and it succeeds, with the next record, whenever a free chunk fits the request and fewer than
100 allocations have succeeded. -/
theorem allocate_outOfHandles_iff (base size : Nat) (memory : Nat → Nat) (calls : List Call)
    (T : ElemType) (amount : Nat) (ctor : Nat → Nat) :
    ((create base size memory).run calls).m_handleCount =
        (create base size memory).allocations calls ∧
      ((((create base size memory).run calls).allocate T amount ctor).1 =
          .error .OutOfHandles ↔
        (∃ c ∈ ((create base size memory).run calls).m_chunks,
            mulSizeT amount T.sizeofT ≤ c.size) ∧
          100 ≤ (create base size memory).allocations calls) ∧
      ((∃ c ∈ ((create base size memory).run calls).m_chunks,
            mulSizeT amount T.sizeofT ≤ c.size) →
        (create base size memory).allocations calls < 100 →
        (((create base size memory).run calls).allocate T amount ctor).1 =
          .ok ((create base size memory).allocations calls)) := by
  obtain ⟨hlen, hcount⟩ := handleCount_run calls (create base size memory)
  have hlen' : ((create base size memory).run calls).m_handles.length = 100 := by
    rw [hlen]; simp [create]
  have hcount' : ((create base size memory).run calls).m_handleCount =
      (create base size memory).allocations calls := by
    rw [hcount]; simp [create]
  refine ⟨hcount', ⟨fun h => ?_, fun h => ?_⟩, fun hfit hlt => ?_⟩
  · have hfit : ∃ c ∈ ((create base size memory).run calls).m_chunks,
        mulSizeT amount T.sizeofT ≤ c.size := by
      by_contra hno
      have hnone := (carveFirstFit_eq_none_iff (mulSizeT amount T.sizeofT)
        ((create base size memory).run calls).m_chunks).mpr (fun c hc => by
          by_contra hge
          exact hno ⟨c, hc, by omega⟩)
      rw [allocate_of_carve_none hnone] at h
      simp at h
    refine ⟨hfit, ?_⟩
    rw [allocate_fst_of_fit _ T amount ctor hfit, hlen', hcount'] at h
    by_contra hlt
    rw [if_neg (by omega)] at h
    simp at h
  · rw [allocate_fst_of_fit _ T amount ctor h.1, hlen', hcount', if_pos (by omega)]
  · rw [allocate_fst_of_fit _ T amount ctor hfit, hlen', hcount', if_neg (by omega)]

/-! ## Scenarios S2, S5 and S1 -/

set_option maxRecDepth 100000 in
/-- C13, as stated, fails: in the state of scenario S2 the free list has two chunks, the
hole `(64, 128)` and the chunk `(256, 768)` behind D, so `getAvailableMemory` is 896 and
not 768. -/
theorem available_memory_S2_counterexample :
    scenarioS2.m_chunks.length = 2 ∧ scenarioS2.getAvailableMemory = 896 ∧
      scenarioS2.getAvailableMemory ≠ 768 := by
  decide

set_option maxRecDepth 100000 in
/-- C13 (amended). Scenario S2: after A, B, C, D of 64 bytes and the deallocation of B then
C in an arena of 1024 bytes at address 4096, A is at offset 0 and D at offset 192, the free
list is `(64, 128)`, `(256, 768)`, exactly one free chunk lies between A and D, and
`getAvailableMemory`, the sum of the sizes of all free chunks, is 896. -/
theorem scenario_S2_free_list :
    scenarioS2.m_chunks = [⟨4096 + 64, 128⟩, ⟨4096 + 256, 768⟩] ∧
      scenarioS2.liveBlocks = [⟨4096, 64⟩, ⟨4096 + 192, 64⟩] ∧
      scenarioS2.m_chunks.filter
          (fun c => decide (4096 + 64 ≤ c.pChunk ∧ c.pChunk + c.size ≤ 4096 + 192)) =
        [⟨4096 + 64, 128⟩] ∧
      scenarioS2.getAvailableMemory = 128 + 768 ∧
      totalFree scenarioS2.m_chunks = 896 := by
  decide

set_option maxRecDepth 100000 in
/-- C12, as stated, fails: in the state of scenario S2 an `allocate` of three elements of 64
bytes does not fail with OutOfMemory; it returns record 4, a block of 192 bytes at offset
256, carved from the chunk `(256, 768)`. -/
theorem allocate_192_S2_counterexample :
    (scenarioS2.allocate Elem64 3 (fun _ => 0)).1 = .ok 4 ∧
      (scenarioS2.allocate Elem64 3 (fun _ => 0)).1 ≠ .error .OutOfMemory ∧
      (scenarioS2.allocate Elem64 3 (fun _ => 0)).2.handleAt 4 = ⟨4096 + 256, 192, Elem64⟩ ∧
      (scenarioS2.allocate Elem64 3 (fun _ => 0)).2.m_chunks =
        [⟨4096 + 64, 128⟩, ⟨4096 + 448, 576⟩] := by
  decide

set_option maxRecDepth 100000 in
theorem scenarioS2_chunks : scenarioS2.m_chunks = [⟨4160, 128⟩, ⟨4352, 768⟩] := by
  decide

set_option maxRecDepth 100000 in
theorem scenarioS3_state :
    scenarioS2.defragment.m_chunks = [⟨4224, 896⟩] ∧
      scenarioS2.defragment.m_handleCount = 4 ∧
      scenarioS2.defragment.m_handles.length = 100 := by
  decide

set_option maxRecDepth 100000 in
/-- C12 (amended). Scenario S5: in the state of scenario S2 a 192-byte `allocate` succeeds
(from the chunk behind D), and it succeeds again after a subsequent `defragment`. A request
of more than 768 and at most 896 bytes fails with OutOfMemory in the state of S2, which it
leaves unchanged, and the same request succeeds after `defragment`, at offset 128. -/
theorem allocate_retry_after_defragment (T : ElemType) (amount : Nat) (ctor : Nat → Nat)
    (hlo : 768 < mulSizeT amount T.sizeofT) (hhi : mulSizeT amount T.sizeofT ≤ 896) :
    (scenarioS2.allocate Elem64 3 (fun _ => 0)).1 = .ok 4 ∧
      ((scenarioS2.allocate Elem64 3 (fun _ => 0)).2.defragment.allocate Elem64 3
        (fun _ => 0)).1 = .ok 5 ∧
      (scenarioS2.defragment.allocate Elem64 3 (fun _ => 0)).1 = .ok 4 ∧
      scenarioS2.allocate T amount ctor = (.error .OutOfMemory, scenarioS2) ∧
      (scenarioS2.defragment.allocate T amount ctor).1 = .ok 4 ∧
      (scenarioS2.defragment.allocate T amount ctor).2.handleAt 4 =
        ⟨4096 + 128, mulSizeT amount T.sizeofT, T⟩ := by
  obtain ⟨hchunks, hcount, hlen⟩ := scenarioS3_state
  have hcarve : carveFirstFit (mulSizeT amount T.sizeofT) scenarioS2.defragment.m_chunks =
      some (4224, ⟨4224 + mulSizeT amount T.sizeofT, 896 - mulSizeT amount T.sizeofT⟩,
        [⟨4224 + mulSizeT amount T.sizeofT, 896 - mulSizeT amount T.sizeofT⟩]) := by
    rw [hchunks, carveFirstFit, if_pos hhi]
  refine ⟨by decide, by decide, by decide, ?_, ?_, ?_⟩
  · apply allocate_of_carve_none
    rw [carveFirstFit_eq_none_iff, scenarioS2_chunks]
    intro c hc
    simp only [List.mem_cons, List.mem_singleton, List.not_mem_nil, or_false] at hc
    rcases hc with rfl | rfl
    · show 128 < _
      omega
    · exact hlo
  · rw [allocate_fst_of_fit _ T amount ctor
      (by rw [hchunks]; exact ⟨_, List.mem_singleton_self _, hhi⟩), hcount, hlen]
    rfl
  · rw [allocate_of_carve_some hcarve, registerHandle_snd]
    have hc4 : ¬ scenarioS2.defragment.m_handleCount ≥ scenarioS2.defragment.m_handles.length := by
      rw [hcount, hlen]; omega
    simp only [hc4, if_false]
    unfold handleAt
    simp only [hcount]
    exact getD_set_self _ _ _ (by rw [hlen]; omega)

set_option maxRecDepth 100000 in
theorem allocate_retry_after_defragment_witness :
    (768 < mulSizeT 13 Elem64.sizeofT ∧ mulSizeT 13 Elem64.sizeofT ≤ 896) ∧
      scenarioS2.allocate Elem64 13 (fun _ => 0) = (.error .OutOfMemory, scenarioS2) ∧
      (scenarioS2.defragment.allocate Elem64 13 (fun _ => 0)).1 = .ok 4 :=
  ⟨by decide,
    (allocate_retry_after_defragment Elem64 13 (fun _ => 0) (by decide) (by decide)).2.2.2.1,
    (allocate_retry_after_defragment Elem64 13 (fun _ => 0) (by decide) (by decide)).2.2.2.2.1⟩

set_option maxRecDepth 1000000 in
/-- C19. Scenario S1 followed by `defragment`: the 16th `allocate` of 64 bytes consumes the
last free byte and removes the emptied chunk, so the free list is empty; `defragment` then
puts the chunk `(base + 1024, 0)` of size 0 into the free list. In every state the free
list after `defragment` has exactly one chunk. -/
theorem defragment_full_arena_keeps_empty_chunk :
    scenarioFull.m_chunks = [] ∧ scenarioFull.liveBytes = 1024 ∧
      scenarioFull.getAvailableMemory = 0 ∧
      scenarioFull.defragment.m_chunks = [⟨4096 + 1024, 0⟩] ∧
      scenarioFull.defragment.m_chunks ≠ [] ∧
      (∀ s : GeneralAllocator, s.defragment.m_chunks.length = 1) :=
  ⟨by decide, by decide, by decide, by decide, by decide, fun _ => rfl⟩

/-! ## The direction of the moves of `defragment` -/

/-- The first loop of `defragment` over a table that is cut in two. -/
theorem defragLoop_append :
    ∀ (pre post : HandleTable) (st : DefragState),
      defragLoop (pre ++ post) st = defragLoop post (defragLoop pre st) := by
  intro pre
  induction pre with
  | nil => intro post st; rfl
  | cons e rest ih =>
    intro post st
    rw [List.cons_append, defragLoop_cons, defragLoop_cons, ih]

/-- C18 (amended). In a state that satisfies the tiling invariant and whose handle table is
consistent with the handle records, every live block holding at least one byte, when the first loop of `defragment` has visited the entries `pre` and
visits the entry `e` next: the record of `e` still has the address under which `e` is keyed,
the write cursor is not above that address, so a relocation has destination <= source, and
the destination range ends at or below the address of every block not visited yet, whose
record still holds its old address. -/
theorem defragment_moves_down (s : GeneralAllocator) (ht : Tiling s) (hc : TableConsistent s)
    (pre post : HandleTable) (e : Nat × Nat) (hsplit : s.m_handleTable = pre ++ e :: post) :
    defragLoop s.m_handleTable ⟨s.m_pMemory, s.m_handles, s.memory⟩ =
        defragLoop (e :: post) (defragLoop pre ⟨s.m_pMemory, s.m_handles, s.memory⟩) ∧
      ((defragLoop pre ⟨s.m_pMemory, s.m_handles, s.memory⟩).handles.getD e.2 default).getAddress
        = e.1 ∧
      (defragLoop pre ⟨s.m_pMemory, s.m_handles, s.memory⟩).pCurrentMemoryPosition ≤
        ((defragLoop pre ⟨s.m_pMemory, s.m_handles, s.memory⟩).handles.getD e.2
          default).getAddress ∧
      ∀ e' ∈ post,
        ((defragLoop pre ⟨s.m_pMemory, s.m_handles, s.memory⟩).handles.getD e'.2
            default).getAddress = (s.handleAt e'.2).getAddress ∧
          (defragLoop pre ⟨s.m_pMemory, s.m_handles, s.memory⟩).pCurrentMemoryPosition +
              ((defragLoop pre ⟨s.m_pMemory, s.m_handles, s.memory⟩).handles.getD e.2
                default).getTotalSize ≤
            ((defragLoop pre ⟨s.m_pMemory, s.m_handles, s.memory⟩).handles.getD e'.2
              default).getAddress := by
  have hs := sound_of_tiling ht hc
  have hgap : (pre ++ e :: post).Pairwise
      (fun a b => a.1 + (s.m_handles.getD a.2 default).m_size ≤ b.1 ∧ a.2 ≠ b.2) := by
    have := hs.blocks_gap
    rw [← hsplit]
    exact this
  have hent : ∀ a ∈ pre ++ e :: post,
      (s.m_handles.getD a.2 default).m_address = a.1 ∧ s.m_pMemory ≤ a.1 := by
    intro a ha
    have := hs.entries a (by rw [← hsplit] at ha; exact ha)
    exact ⟨this.2.1, this.2.2.2.2.1⟩
  obtain ⟨hpre, hrest, hcross⟩ := List.pairwise_append.mp hgap
  have hrest' := List.pairwise_cons.mp hrest
  have hemem : e ∈ pre ++ e :: post := List.mem_append_right _ (List.mem_cons_self _ _)
  have hcur := (defragLoop_cursor pre ⟨s.m_pMemory, s.m_handles, s.memory⟩).1
  simp only at hcur
  have hkeep : ∀ a ∈ e :: post,
      (defragLoop pre ⟨s.m_pMemory, s.m_handles, s.memory⟩).handles.getD a.2 default =
        s.m_handles.getD a.2 default := fun a ha =>
    defragLoop_untouched pre _ a.2 (fun p hp => (hcross p hp a ha).2)
  have hbytes : s.m_pMemory + blockBytes s.m_handles pre ≤ e.1 :=
    blockBytes_le s.m_handles e.1 pre s.m_pMemory (hent e hemem).2
      (hpre.imp (fun h => h.1))
      (fun a ha => ⟨(hent a (List.mem_append_left _ ha)).2,
        (hcross a ha e (List.mem_cons_self _ _)).1⟩)
  have he := hkeep e (List.mem_cons_self _ _)
  refine ⟨by rw [hsplit, defragLoop_append], ?_, ?_, fun e' he' => ⟨?_, ?_⟩⟩
  · rw [he]
    exact (hent e hemem).1
  · rw [he, hcur]
    unfold MemoryHandle.getAddress
    rw [(hent e hemem).1]
    exact hbytes
  · rw [hkeep e' (List.mem_cons_of_mem _ he')]
    rfl
  · rw [hkeep e' (List.mem_cons_of_mem _ he'), he, hcur]
    unfold MemoryHandle.getAddress MemoryHandle.getTotalSize
    rw [(hent e' (List.mem_append_right _ (List.mem_cons_of_mem _ he'))).1]
    have := (hrest'.1 e' he').1
    omega

set_option maxRecDepth 100000 in
theorem defragment_moves_down_witness :
    (Tiling (arena1024.run holesCalls) ∧ TableConsistent (arena1024.run holesCalls) ∧
        (arena1024.run holesCalls).m_handleTable =
          [(4096, 0)] ++ (4096 + 128, 2) :: [(4096 + 256, 4)]) ∧
      (defragLoop [(4096, 0)] ⟨(arena1024.run holesCalls).m_pMemory,
          (arena1024.run holesCalls).m_handles,
          (arena1024.run holesCalls).memory⟩).pCurrentMemoryPosition ≤
        ((defragLoop [(4096, 0)] ⟨(arena1024.run holesCalls).m_pMemory,
          (arena1024.run holesCalls).m_handles,
          (arena1024.run holesCalls).memory⟩).handles.getD 2 default).getAddress ∧
      (defragLoop [(4096, 0)] ⟨(arena1024.run holesCalls).m_pMemory,
            (arena1024.run holesCalls).m_handles,
            (arena1024.run holesCalls).memory⟩).pCurrentMemoryPosition +
          ((defragLoop [(4096, 0)] ⟨(arena1024.run holesCalls).m_pMemory,
            (arena1024.run holesCalls).m_handles,
            (arena1024.run holesCalls).memory⟩).handles.getD 2 default).getTotalSize ≤
        ((defragLoop [(4096, 0)] ⟨(arena1024.run holesCalls).m_pMemory,
          (arena1024.run holesCalls).m_handles,
          (arena1024.run holesCalls).memory⟩).handles.getD 4 default).getAddress :=
  ⟨⟨tiling_run holesCalls arena1024 (sound_create 4096 1024 _ (by decide))
        (tiling_create 4096 1024 _) (by decide) (by decide),
      (sound_run holesCalls arena1024 (sound_create 4096 1024 _ (by decide))
        (by decide)).tableConsistent, by decide⟩,
    (defragment_moves_down (arena1024.run holesCalls)
      (tiling_run holesCalls arena1024 (sound_create 4096 1024 _ (by decide))
        (tiling_create 4096 1024 _) (by decide) (by decide))
      (sound_run holesCalls arena1024 (sound_create 4096 1024 _ (by decide))
        (by decide)).tableConsistent
      [(4096, 0)] [(4096 + 256, 4)] (4096 + 128, 2) (by decide)).2.2.1,
    ((defragment_moves_down (arena1024.run holesCalls)
      (tiling_run holesCalls arena1024 (sound_create 4096 1024 _ (by decide))
        (tiling_create 4096 1024 _) (by decide) (by decide))
      (sound_run holesCalls arena1024 (sound_create 4096 1024 _ (by decide))
        (by decide)).tableConsistent
      [(4096, 0)] [(4096 + 256, 4)] (4096 + 128, 2) (by decide)).2.2.2
        (4096 + 256, 4) (List.mem_singleton_self _)).2⟩

/-! ## The round trip of `allocate` and `deallocate` -/

/-- Assigning a key that the table does not have and erasing it again gives the table
back. -/
theorem mapErase_mapAssign (v : Nat) :
    ∀ (t : HandleTable) (k : Nat), mapContains t k = false →
      mapErase (mapAssign t k v) k = t := by
  intro t
  induction t with
  | nil => intro k _; simp [mapAssign, mapErase]
  | cons e rest ih =>
    intro k hk
    have hne : ∀ p ∈ e :: rest, p.1 ≠ k := by
      intro p hp hpk
      have : mapContains (e :: rest) k = true := mapContains_iff.mpr ⟨p, hp, hpk⟩
      rw [hk] at this
      exact absurd this (by simp)
    have he : e.1 ≠ k := hne e (List.mem_cons_self _ _)
    have hrest : mapContains rest k = false := by
      cases hc : mapContains rest k with
      | false => rfl
      | true =>
        obtain ⟨p, hp, hpk⟩ := mapContains_iff.mp hc
        exact absurd hpk (hne p (List.mem_cons_of_mem _ hp))
    unfold mapAssign
    by_cases h1 : k < e.1
    · rw [if_pos h1]
      show mapErase ((k, v) :: e :: rest) k = e :: rest
      have : mapErase ((k, v) :: e :: rest) k = mapErase (e :: rest) k := by
        simp [mapErase]
      rw [this, mapErase_of_ne hne]
    · rw [if_neg h1, if_neg (fun h => he h.symm)]
      show mapErase (e :: mapAssign rest k v) k = e :: rest
      have : mapErase (e :: mapAssign rest k v) k = e :: mapErase (mapAssign rest k v) k := by
        simp [mapErase, he]
      rw [this, ih k hrest]

/-- The coalescing insertion passes the chunks that end below the freed range. -/
theorem coalescedInsert_append_of_below (f : GeneralAllocatorChunk)
    (l : List GeneralAllocatorChunk) :
    ∀ pre : List GeneralAllocatorChunk, (∀ d ∈ pre, d.pChunk + d.size < f.pChunk) →
      coalescedInsert (pre ++ l) f = pre ++ coalescedInsert l f := by
  intro pre
  induction pre with
  | nil => intro _; rfl
  | cons d rest ih =>
    intro h
    have hd := h d (List.mem_cons_self _ _)
    rw [List.cons_append, coalescedInsert_cons_of_ne _ (by omega), if_neg (by omega),
      if_neg (by omega), ih (fun d' hd' => h d' (List.mem_cons_of_mem _ hd'))]
    rfl

/-- Returning the low end of a chunk to the chunk that was shrunk gives the chunk back. -/
theorem coalescedInsert_shrunk (c : GeneralAllocatorChunk) (req : Nat)
    (post : List GeneralAllocatorChunk) (hreq : 0 < req) (hlt : req < c.size) :
    coalescedInsert (⟨c.pChunk + req, c.size - req⟩ :: post) ⟨c.pChunk, req⟩ = c :: post := by
  rw [coalescedInsert_cons_of_ne _ (by simp only; omega), if_pos (by simp only)]
  have : c.size - req + req = c.size := by omega
  simp only [this]

/-- Returning a whole chunk that was removed from the free list puts it back in its
place. -/
theorem coalescedInsert_removed (c : GeneralAllocatorChunk) (post : List GeneralAllocatorChunk)
    (hpost : ∀ d ∈ post, c.pChunk + c.size < d.pChunk) :
    coalescedInsert post ⟨c.pChunk, c.size⟩ = c :: post := by
  cases post with
  | nil => rfl
  | cons d rest =>
    have hd := hpost d (List.mem_cons_self _ _)
    rw [coalescedInsert_cons_of_ne _ (by simp only; omega), if_neg (by simp only; omega),
      if_pos (by simp only; omega)]

set_option maxRecDepth 100000 in
/-- C20, as stated, fails: after `allocate<T>(0)` on a fresh arena the free list is the one
positive chunk `(base, 1024)` and the handle table has the key `base` (record 0). An
`allocate` of one element of 64 bytes succeeds (record 1) and takes over the key; the
`deallocate` of the handle just returned restores the free list but leaves the handle table
empty, not what it was before the `allocate`. -/
theorem round_trip_counterexample :
    zeroKeyed.m_chunks = [⟨4096, 1024⟩] ∧ zeroKeyed.m_handleTable = [(4096, 0)] ∧
      (zeroKeyed.allocate Elem64 1 (fun _ => 0)).1 = .ok 1 ∧
      ((zeroKeyed.allocate Elem64 1 (fun _ => 0)).2.deallocate
        ((zeroKeyed.allocate Elem64 1 (fun _ => 0)).2.handleAt 1)).1 = .ok () ∧
      ((zeroKeyed.allocate Elem64 1 (fun _ => 0)).2.deallocate
        ((zeroKeyed.allocate Elem64 1 (fun _ => 0)).2.handleAt 1)).2.m_chunks =
          zeroKeyed.m_chunks ∧
      ((zeroKeyed.allocate Elem64 1 (fun _ => 0)).2.deallocate
        ((zeroKeyed.allocate Elem64 1 (fun _ => 0)).2.handleAt 1)).2.m_handleTable = [] ∧
      ((zeroKeyed.allocate Elem64 1 (fun _ => 0)).2.deallocate
        ((zeroKeyed.allocate Elem64 1 (fun _ => 0)).2.handleAt 1)).2.m_handleTable ≠
          zeroKeyed.m_handleTable := by
  decide

/-- C20 (amended). For a free list of non-empty chunks of the arena, sorted by address with
a gap between consecutive chunks, none starting at the null address or at a key of the
handle table, and a request of at least one element whose byte count does not wrap and that
succeeds: `deallocate` of the handle just returned succeeds and restores the free list and
the handle table exactly; the count of records handed out is one more than before. -/
theorem allocate_deallocate_round_trip (s : GeneralAllocator) (T : ElemType) (amount : Nat)
    (ctor : Nat → Nat) (idx : Nat)
    (hS : s.m_size < SIZE_MOD)
    (hsorted : s.m_chunks.Pairwise ChunkGap)
    (hin : ∀ c ∈ s.m_chunks,
      s.m_pMemory ≤ c.pChunk ∧ c.pChunk + c.size ≤ s.m_pMemory + s.m_size)
    (hpos : ∀ c ∈ s.m_chunks, 0 < c.size ∧ c.pChunk ≠ 0)
    (hkeys : ∀ c ∈ s.m_chunks, mapContains s.m_handleTable c.pChunk = false)
    (hcount : 1 ≤ amount) (hT : 1 ≤ T.sizeofT) (hwrap : amount * T.sizeofT < SIZE_MOD)
    (hok : (s.allocate T amount ctor).1 = .ok idx) :
    ((s.allocate T amount ctor).2.deallocate
        ((s.allocate T amount ctor).2.handleAt idx)).1 = .ok () ∧
      ((s.allocate T amount ctor).2.deallocate
        ((s.allocate T amount ctor).2.handleAt idx)).2.m_chunks = s.m_chunks ∧
      ((s.allocate T amount ctor).2.deallocate
        ((s.allocate T amount ctor).2.handleAt idx)).2.m_handleTable = s.m_handleTable ∧
      ((s.allocate T amount ctor).2.deallocate
        ((s.allocate T amount ctor).2.handleAt idx)).2.m_handleCount = s.m_handleCount + 1 ∧
      ((s.allocate T amount ctor).2.deallocate
        ((s.allocate T amount ctor).2.handleAt idx)).2.m_pMemory = s.m_pMemory ∧
      ((s.allocate T amount ctor).2.deallocate
        ((s.allocate T amount ctor).2.handleAt idx)).2.m_size = s.m_size := by
  have hreq_eq : mulSizeT amount T.sizeofT = amount * T.sizeofT := mulSizeT_of_lt hwrap
  have hreq : 0 < mulSizeT amount T.sizeofT := by
    rw [hreq_eq]; exact Nat.mul_pos hcount hT
  have hfit : ∃ c ∈ s.m_chunks, mulSizeT amount T.sizeofT ≤ c.size := by
    by_contra hno
    have hnone : carveFirstFit (mulSizeT amount T.sizeofT) s.m_chunks = none :=
      (carveFirstFit_eq_none_iff _ _).mpr (fun c hc => by
        by_contra hge
        exact hno ⟨c, hc, by omega⟩)
    rw [allocate_of_carve_none hnone] at hok
    simp at hok
  obtain ⟨pre, c, post, hl, hpre, hc⟩ := exists_first_fit hfit
  have hcmem : c ∈ s.m_chunks := by rw [hl]; simp
  have hal := allocate_eq_of_split T amount ctor hsorted hreq hl hpre hc
  rw [hal, registerHandle_fst] at hok
  have hfree : ¬ s.m_handleCount ≥ s.m_handles.length := by
    intro hfull
    rw [if_pos hfull] at hok
    simp at hok
  rw [if_neg hfree] at hok
  have hidx : idx = s.m_handleCount := by
    injection hok with h
    exact h.symm
  subst hidx
  rw [hal, registerHandle_snd, if_neg hfree]
  have hrec : handleAt
      { s with
        m_chunks :=
          if c.size = mulSizeT amount T.sizeofT then pre ++ post
          else pre ++ ⟨c.pChunk + mulSizeT amount T.sizeofT,
            c.size - mulSizeT amount T.sizeofT⟩ :: post
        memory := constructObjects s.memory c.pChunk T.sizeofT amount ctor
        m_handles := s.m_handles.set s.m_handleCount ⟨c.pChunk, mulSizeT amount T.sizeofT, T⟩
        m_handleTable := mapAssign s.m_handleTable c.pChunk s.m_handleCount
        m_handleCount := s.m_handleCount + 1 } s.m_handleCount =
      ⟨c.pChunk, mulSizeT amount T.sizeofT, T⟩ :=
    getD_set_self _ _ _ (by omega)
  rw [hrec]
  have hvalid : (⟨c.pChunk, mulSizeT amount T.sizeofT, T⟩ : MemoryHandle).m_address ≠ 0 ∧
      isHandleValid
        { s with
          m_chunks :=
            if c.size = mulSizeT amount T.sizeofT then pre ++ post
            else pre ++ ⟨c.pChunk + mulSizeT amount T.sizeofT,
              c.size - mulSizeT amount T.sizeofT⟩ :: post
          memory := constructObjects s.memory c.pChunk T.sizeofT amount ctor
          m_handles := s.m_handles.set s.m_handleCount
            ⟨c.pChunk, mulSizeT amount T.sizeofT, T⟩
          m_handleTable := mapAssign s.m_handleTable c.pChunk s.m_handleCount
          m_handleCount := s.m_handleCount + 1 }
        ⟨c.pChunk, mulSizeT amount T.sizeofT, T⟩ = true :=
    ⟨(hpos c hcmem).2, (mapContains_mapAssign _ _ _ _).mpr (Or.inl rfl)⟩
  rw [deallocate_of_valid hvalid]
  have hwhole : mulSizeT
      (⟨c.pChunk, mulSizeT amount T.sizeofT, T⟩ : MemoryHandle).getObjectAmount T.sizeofT =
      mulSizeT amount T.sizeofT :=
    whole_block_size (h := ⟨c.pChunk, mulSizeT amount T.sizeofT, T⟩)
      (by rw [hreq_eq]; exact Dvd.intro_left amount rfl)
      (by rw [hreq_eq]; exact hwrap)
  refine ⟨rfl, ?_, mapErase_mapAssign _ _ _ (hkeys c hcmem), rfl, rfl, rfl⟩
  show releaseChunk _ ⟨c.pChunk, _⟩ = s.m_chunks
  rw [hwhole]
  rw [hl] at hsorted hin
  obtain ⟨hpp, hcp, hcross⟩ := List.pairwise_append.mp hsorted
  obtain ⟨hcpost, hpostp⟩ := List.pairwise_cons.mp hcp
  have hcin := hin c (by simp)
  have hbelow : ∀ d ∈ pre, d.pChunk + d.size < c.pChunk := fun d hd =>
    hcross d hd c (List.mem_cons_self _ _)
  by_cases hex : c.size = mulSizeT amount T.sizeofT
  · rw [if_pos hex, hl, ← hex]
    rw [releaseChunk_eq_coalescedInsert s.m_pMemory s.m_size hS ⟨c.pChunk, c.size⟩
      (by simp only; omega) (by simp only; exact hcin) (pre ++ post)
      (List.pairwise_append.mpr ⟨hpp, hpostp, fun a ha b hb =>
        hcross a ha b (List.mem_cons_of_mem _ hb)⟩)
      (fun d hd => by
        rcases List.mem_append.mp hd with h | h
        · exact (hin d (List.mem_append_left _ h))
        · exact (hin d (List.mem_append_right _ (List.mem_cons_of_mem _ h))))
      (fun d hd => by
        rcases List.mem_append.mp hd with h | h
        · have := hbelow d h
          exact Or.inl ⟨by simp only; omega, by simp only; omega⟩
        · have := hcpost d h
          unfold ChunkGap at this
          exact Or.inr (by simp only; omega))]
    rw [coalescedInsert_append_of_below ⟨c.pChunk, c.size⟩ post pre
        (fun d hd => hbelow d hd),
      coalescedInsert_removed c post (fun d hd => hcpost d hd)]
  · rw [if_neg hex, hl]
    have hlt : mulSizeT amount T.sizeofT < c.size := by omega
    rw [releaseChunk_eq_coalescedInsert s.m_pMemory s.m_size hS
      ⟨c.pChunk, mulSizeT amount T.sizeofT⟩
      (by simp only; omega) (by simp only; omega)
      (pre ++ ⟨c.pChunk + mulSizeT amount T.sizeofT, c.size - mulSizeT amount T.sizeofT⟩ :: post)
      (List.pairwise_append.mpr ⟨hpp,
        List.pairwise_cons.mpr ⟨fun d hd => by
          have := hcpost d hd
          unfold ChunkGap at this ⊢
          simp only
          omega, hpostp⟩,
        fun a ha b hb => by
          rcases List.mem_cons.mp hb with h | h
          · have := hbelow a ha
            subst h
            unfold ChunkGap
            simp only
            omega
          · exact hcross a ha b (List.mem_cons_of_mem _ h)⟩)
      (fun d hd => by
        rcases List.mem_append.mp hd with h | h
        · exact (hin d (List.mem_append_left _ h))
        · rcases List.mem_cons.mp h with h' | h'
          · subst h'
            simp only
            omega
          · exact (hin d (List.mem_append_right _ (List.mem_cons_of_mem _ h'))))
      (fun d hd => by
        rcases List.mem_append.mp hd with h | h
        · have := hbelow d h
          exact Or.inl ⟨by simp only; omega, by simp only; omega⟩
        · rcases List.mem_cons.mp h with h' | h'
          · subst h'
            exact Or.inr (by simp only; omega)
          · have := hcpost d h'
            unfold ChunkGap at this
            exact Or.inr (by simp only; omega))]
    rw [coalescedInsert_append_of_below ⟨c.pChunk, mulSizeT amount T.sizeofT⟩
        (⟨c.pChunk + mulSizeT amount T.sizeofT, c.size - mulSizeT amount T.sizeofT⟩ :: post) pre
        (fun d hd => hbelow d hd),
      coalescedInsert_shrunk c _ post hreq hlt]

set_option maxRecDepth 100000 in
theorem allocate_deallocate_round_trip_witness :
    (scenarioS4.m_chunks.Pairwise ChunkGap ∧
        (∀ c ∈ scenarioS4.m_chunks, 0 < c.size ∧ c.pChunk ≠ 0) ∧
        (∀ c ∈ scenarioS4.m_chunks, mapContains scenarioS4.m_handleTable c.pChunk = false) ∧
        (scenarioS4.allocate Elem64 1 (fun _ => 0)).1 = .ok 4) ∧
      ((scenarioS4.allocate Elem64 1 (fun _ => 0)).2.deallocate
        ((scenarioS4.allocate Elem64 1 (fun _ => 0)).2.handleAt 4)).2.m_chunks =
          scenarioS4.m_chunks ∧
      ((scenarioS4.allocate Elem64 1 (fun _ => 0)).2.deallocate
        ((scenarioS4.allocate Elem64 1 (fun _ => 0)).2.handleAt 4)).2.m_handleTable =
          scenarioS4.m_handleTable :=
  ⟨⟨by decide, by decide, by decide, by decide⟩,
    (allocate_deallocate_round_trip scenarioS4 Elem64 1 (fun _ => 0) 4 (by decide) (by decide)
      (by decide) (by decide) (by decide) (by decide) (by decide) (by decide)
      (by decide)).2.1,
    (allocate_deallocate_round_trip scenarioS4 Elem64 1 (fun _ => 0) 4 (by decide) (by decide)
      (by decide) (by decide) (by decide) (by decide) (by decide) (by decide)
      (by decide)).2.2.1⟩

/-! ## Blocks of no bytes -/

set_option maxRecDepth 100000 in
/-- The state after `zeroAtHoleCalls` satisfies the tiling invariant. -/
theorem tiling_zeroAtHole : Tiling zeroAtHole := by
  intro x
  have hb : zeroAtHole.liveBlocks = [⟨4096, 0⟩, ⟨4160, 64⟩] := by decide
  have hc : zeroAtHole.m_chunks = [⟨4096, 64⟩, ⟨4224, 896⟩] := by decide
  have hp : zeroAtHole.m_pMemory = 4096 := by decide
  have hs : zeroAtHole.m_size = 1024 := by decide
  unfold coverCount
  rw [hb, hc, hp, hs]
  simp only [List.countP_cons, List.countP_nil, covers, decide_eq_true_eq]
  split_ifs <;> omega

set_option maxRecDepth 100000 in
/-- The state after `twoEmptyCalls` satisfies the tiling invariant. -/
theorem tiling_twoEmpty : Tiling twoEmpty := by
  intro x
  have hb : twoEmpty.liveBlocks = [⟨4096, 0⟩, ⟨4160, 0⟩] := by decide
  have hc : twoEmpty.m_chunks = [⟨4096, 1024⟩] := by decide
  have hp : twoEmpty.m_pMemory = 4096 := by decide
  have hs : twoEmpty.m_size = 1024 := by decide
  unfold coverCount
  rw [hb, hc, hp, hs]
  simp only [List.countP_cons, List.countP_nil, covers, decide_eq_true_eq]
  split_ifs <;> omega

set_option maxRecDepth 100000 in
/-- The state after `zeroInsideCalls` satisfies the tiling invariant. -/
theorem tiling_zeroInside : Tiling zeroInside := by
  intro x
  have hb : zeroInside.liveBlocks = [⟨4096, 128⟩, ⟨4160, 0⟩] := by decide
  have hc : zeroInside.m_chunks = [⟨4224, 896⟩] := by decide
  have hp : zeroInside.m_pMemory = 4096 := by decide
  have hs : zeroInside.m_size = 1024 := by decide
  unfold coverCount
  rw [hb, hc, hp, hs]
  simp only [List.countP_cons, List.countP_nil, covers, decide_eq_true_eq]
  split_ifs <;> omega

set_option maxRecDepth 100000 in
/-- C4, as stated, fails. After one element of 64 bytes and a block of no element have been
allocated and the first block deallocated, the free list is the one chunk `(0, 1024)` and
the handle of record 1 is valid with the block `[64, 64)`, which has no byte in a free chunk;
`deallocate` succeeds and leaves `(0, 1024)`, `(64, 0)`, which is not coalesced. After
`emptyChunkCalls` the free list is the one chunk `(64, 0)`, which has no byte in the block
`[0, 1024)` of the valid handle of record 2; `deallocate` succeeds and leaves `(0, 1024)`,
`(64, 0)` again. -/
theorem deallocate_coalesces_counterexample :
    (Coalesced emptyBlock.m_chunks ∧ emptyBlock.m_chunks = [⟨4096, 1024⟩] ∧
        emptyBlock.handleAt 1 = ⟨4096 + 64, 0, Elem64⟩ ∧
        emptyBlock.isHandleValid (emptyBlock.handleAt 1) = true ∧
        (∀ c ∈ emptyBlock.m_chunks, ∀ x,
          ¬ (covers c x = true ∧ (emptyBlock.handleAt 1).m_address ≤ x ∧
            x < (emptyBlock.handleAt 1).m_address + (emptyBlock.handleAt 1).m_size)) ∧
        (emptyBlock.deallocate (emptyBlock.handleAt 1)).1 = .ok () ∧
        (emptyBlock.deallocate (emptyBlock.handleAt 1)).2.m_chunks =
          [⟨4096, 1024⟩, ⟨4096 + 64, 0⟩] ∧
        ¬ Coalesced (emptyBlock.deallocate (emptyBlock.handleAt 1)).2.m_chunks) ∧
      (Coalesced emptyChunkInside.m_chunks ∧ emptyChunkInside.m_chunks = [⟨4096 + 64, 0⟩] ∧
        emptyChunkInside.handleAt 2 = ⟨4096, 1024, Elem64⟩ ∧
        emptyChunkInside.isHandleValid (emptyChunkInside.handleAt 2) = true ∧
        (∀ c ∈ emptyChunkInside.m_chunks, ∀ x,
          ¬ (covers c x = true ∧ (emptyChunkInside.handleAt 2).m_address ≤ x ∧
            x < (emptyChunkInside.handleAt 2).m_address +
              (emptyChunkInside.handleAt 2).m_size)) ∧
        (emptyChunkInside.deallocate (emptyChunkInside.handleAt 2)).1 = .ok () ∧
        (emptyChunkInside.deallocate (emptyChunkInside.handleAt 2)).2.m_chunks =
          [⟨4096, 1024⟩, ⟨4096 + 64, 0⟩] ∧
        ¬ Coalesced (emptyChunkInside.deallocate (emptyChunkInside.handleAt 2)).2.m_chunks) := by
  have h1 : emptyBlock.handleAt 1 = ⟨4096 + 64, 0, Elem64⟩ := by decide
  have h2 : emptyChunkInside.m_chunks = [⟨4096 + 64, 0⟩] := by decide
  refine ⟨⟨by decide, by decide, h1, by decide, ?_, by decide, by decide, by decide⟩,
    ⟨by decide, h2, by decide, by decide, ?_, by decide, by decide, by decide⟩⟩
  · intro c _ x hx
    rw [h1] at hx
    have := hx.2
    simp only at this
    omega
  · intro c hc x hx
    rw [h2, List.mem_singleton] at hc
    subst hc
    have := (covers_iff _ _).mp hx.1
    simp only at this
    omega

set_option maxRecDepth 100000 in
/-- C5, as stated, fails. After two elements of 64 bytes have been allocated, the first
deallocated and a block of no element allocated (three allocations, all successful), the
tiling invariant holds and the handle table has the entries of record 2, a block of no bytes
at offset 0, and of record 1, at offset 64. After `defragment` both records have the address
of the base, and the rebuilt handle table has the one entry of record 1: the live blocks are
not the blocks that were live before. -/
theorem defragment_layout_counterexample :
    Tiling zeroAtHole ∧ arena1024.allocations zeroAtHoleCalls = 3 ∧
      zeroAtHole.m_handleTable = [(4096, 2), (4096 + 64, 1)] ∧
      zeroAtHole.liveBlocks = [⟨4096, 0⟩, ⟨4096 + 64, 64⟩] ∧
      zeroAtHole.defragment.m_handleTable = [(4096, 1)] ∧
      zeroAtHole.defragment.liveBlocks = [⟨4096, 64⟩] ∧
      zeroAtHole.defragment.m_handleTable.map Prod.snd ≠ zeroAtHole.m_handleTable.map Prod.snd ∧
      zeroAtHole.defragment.liveBlocks.map (fun b => b.size) ≠
        zeroAtHole.liveBlocks.map (fun b => b.size) :=
  ⟨tiling_zeroAtHole, by decide, by decide, by decide, by decide, by decide, by decide,
    by decide⟩

set_option maxRecDepth 100000 in
/-- C6, as stated, fails. After one element of 64 bytes and a block of no element have been
allocated, the first block deallocated and a second block of no element allocated (all calls
successful), the tiling invariant holds and records 1 and 2 are live, at offsets 64 and 0.
`defragment` gives both the address of the base and the rebuilt handle table keeps one entry
for it, that of record 1: record 2 is not live any more and the table has one key where it
had two. -/
theorem defragment_handle_identity_counterexample :
    Tiling twoEmpty ∧ arena1024.allocations twoEmptyCalls = 3 ∧
      twoEmpty.m_handleTable = [(4096, 2), (4096 + 64, 1)] ∧
      Live twoEmpty 1 ∧ Live twoEmpty 2 ∧
      twoEmpty.defragment.m_handleTable = [(4096, 1)] ∧
      (twoEmpty.defragment.handleAt 2).m_address = 4096 ∧
      ¬ Live twoEmpty.defragment 2 ∧
      twoEmpty.defragment.m_handleTable.length ≠ twoEmpty.m_handleTable.length :=
  ⟨tiling_twoEmpty, by decide, by decide, by decide, by decide, by decide, by decide,
    by decide, by decide⟩

set_option maxRecDepth 100000 in
/-- C18, as stated, fails. After one element of 64 bytes and a block of no element have been
allocated, the first block deallocated and a block of two elements allocated (all calls
successful), the tiling invariant holds and the handle table has the entries of record 2,
128 bytes at offset 0, and of record 1, no bytes at offset 64. When the first loop of
`defragment` has visited the first entry the write cursor is at offset 128, above the
address of the handle it visits next, which `defragment` moves up to offset 128. -/
theorem defragment_moves_down_counterexample :
    Tiling zeroInside ∧ arena1024.allocations zeroInsideCalls = 3 ∧
      zeroInside.m_handleTable = [(4096, 2)] ++ (4096 + 64, 1) :: [] ∧
      zeroInside.liveBlocks = [⟨4096, 128⟩, ⟨4096 + 64, 0⟩] ∧
      (defragLoop [(4096, 2)]
        ⟨zeroInside.m_pMemory, zeroInside.m_handles,
          zeroInside.memory⟩).pCurrentMemoryPosition = 4096 + 128 ∧
      ((defragLoop [(4096, 2)]
        ⟨zeroInside.m_pMemory, zeroInside.m_handles, zeroInside.memory⟩).handles.getD 1
          default).getAddress = 4096 + 64 ∧
      ¬ (defragLoop [(4096, 2)]
          ⟨zeroInside.m_pMemory, zeroInside.m_handles,
            zeroInside.memory⟩).pCurrentMemoryPosition ≤
        ((defragLoop [(4096, 2)]
          ⟨zeroInside.m_pMemory, zeroInside.m_handles, zeroInside.memory⟩).handles.getD 1
            default).getAddress ∧
      (zeroInside.defragment.handleAt 1).m_address = 4096 + 128 :=
  ⟨tiling_zeroInside, by decide, by decide, by decide, by decide, by decide, by decide,
    by decide⟩

end GeneralAllocator

namespace StackAllocator

/-! ## The mask computation of the stack allocator -/

theorem size_mod_eq : SIZE_MOD = 2 ^ 64 := by norm_num [SIZE_MOD]

/-- Clearing the low `k` bits of a `size_t` value rounds it down to a multiple of `2 ^ k`. -/
theorem and_notSizeT_pow_two (x k : Nat) (hx : x < SIZE_MOD) (hk : k < 64) :
    x &&& notSizeT (subSizeT (2 ^ k) 1) = x / 2 ^ k * 2 ^ k := by
  have hpk : 2 ^ k < 2 ^ 64 := Nat.pow_lt_pow_right (by norm_num) hk
  have hpos : 0 < 2 ^ k := Nat.two_pow_pos k
  have hsub : subSizeT (2 ^ k) 1 = 2 ^ k - 1 := by
    unfold subSizeT
    have h1 : (1 : Nat) % 2 ^ 64 = 1 := by norm_num
    rw [size_mod_eq, Nat.mod_eq_of_lt hpk, h1]
    have : 2 ^ k + 2 ^ 64 - 1 = (2 ^ k - 1) + 2 ^ 64 := by omega
    rw [this, Nat.add_mod_right, Nat.mod_eq_of_lt (by omega)]
  have hnot : notSizeT (2 ^ k - 1) = 2 ^ 64 - ((2 ^ k - 1) + 1) := by
    unfold notSizeT
    rw [size_mod_eq, Nat.mod_eq_of_lt (by omega)]
    omega
  rw [hsub, hnot]
  apply Nat.eq_of_testBit_eq
  intro i
  rw [Nat.testBit_and, Nat.testBit_two_pow_sub_succ (by omega), Nat.testBit_two_pow_sub_one,
    Nat.mul_comm, Nat.testBit_mul_pow_two, ← Nat.shiftRight_eq_div_pow, Nat.testBit_shiftRight]
  by_cases hik : i < k
  · have : ¬ i ≥ k := by omega
    simp [hik, this]
  · have hge : i ≥ k := by omega
    have hki : k + (i - k) = i := by omega
    by_cases hi : i < 64
    · simp [hik, hge, hi, hki]
    · have hxi : x.testBit i = false := by
        apply Nat.testBit_lt_two_pow
        calc x < 2 ^ 64 := by rw [← size_mod_eq]; exact hx
          _ ≤ 2 ^ i := Nat.pow_le_pow_right (by norm_num) (by omega)
      simp [hxi, hki]

/-- `alignUp x a` is a multiple of `a`, not below `x`, less than `a` above `x`, and the
least such multiple. -/
theorem alignUp_spec (x a : Nat) (ha : 0 < a) :
    a ∣ alignUp x a ∧ x ≤ alignUp x a ∧ alignUp x a - x < a ∧
      ∀ r, a ∣ r → x ≤ r → alignUp x a ≤ r := by
  unfold alignUp
  have hdm := Nat.div_add_mod (x + a - 1) a
  have hmod := Nat.mod_lt (x + a - 1) ha
  have hcomm : a * ((x + a - 1) / a) = (x + a - 1) / a * a := Nat.mul_comm _ _
  refine ⟨Dvd.intro_left _ rfl, by omega, by omega, ?_⟩
  rintro r ⟨j, rfl⟩ hxr
  by_contra hlt
  have hjq : j < (x + a - 1) / a := by
    by_contra hge
    have := Nat.mul_le_mul_left a (Nat.le_of_not_lt hge)
    omega
  have := Nat.mul_le_mul_left a (Nat.succ_le_of_lt hjq)
  rw [Nat.mul_succ] at this
  omega

/-- For a power-of-two alignment and a head that is a `size_t`, the mask computation gives
the least multiple of the alignment that is not below the head. -/
theorem alignHead_eq_alignUp (head k : Nat) (hk : k < 64) (hhead : head + 2 ^ k ≤ SIZE_MOD) :
    alignHead head (2 ^ k) = alignUp head (2 ^ k) := by
  have hpos : 0 < 2 ^ k := Nat.two_pow_pos k
  unfold alignHead alignUp
  rw [Nat.mod_eq_of_lt (by omega), and_notSizeT_pow_two _ k (by omega) hk]

/-! ## Placement in the stack allocator -/

theorem alignmentAsserts_iff (a : Nat) : alignmentAsserts a = true ↔ 0 < a ∧ a % 2 = 0 := by
  simp [alignmentAsserts]

theorem alignmentAsserts_pow_two (k : Nat) : alignmentAsserts (2 ^ (k + 1)) = true := by
  rw [alignmentAsserts_iff]
  exact ⟨Nat.two_pow_pos _, by rw [Nat.pow_succ]; exact Nat.mul_mod_left _ _⟩

/-- The construction loop of `allocate<T>` appends the entries `newEntries`. -/
theorem foldl_addDestructor (T : StackElemType) (p : Nat) :
    ∀ (l : List Nat) (s : StackAllocator),
      l.foldl (fun st i => st.addDestructor T (p + i * T.sizeofT)) s =
        { s with
          m_destructors := s.m_destructors ++
            if T.triviallyDestructible then []
            else l.map (fun i => ⟨p + i * T.sizeofT, true⟩) } := by
  intro l
  induction l with
  | nil => intro s; cases s; simp
  | cons i rest ih =>
    intro s
    rw [List.foldl_cons, ih]
    unfold addDestructor
    by_cases ht : T.triviallyDestructible = true
    · simp [ht]
    · simp [ht]

/-- A failing assertion of the private `allocate` aborts `allocate<T>`. -/
theorem allocate_eq_none (s : StackAllocator) (T : StackElemType) (amount : Nat)
    (h : ¬ 0 < mulSizeT amount T.sizeofT ∨ alignmentAsserts T.alignofT = false) :
    s.allocate T amount = none := by
  unfold allocate allocateRaw
  rcases h with h | h
  · rw [if_pos h]
  · by_cases hn : ¬ mulSizeT amount T.sizeofT > 0
    · rw [if_pos hn]
    · rw [if_neg hn, if_pos h]

/-- The result of `allocate<T>` when the assertions pass, in terms of the mask
computation. -/
theorem allocate_of_asserts (s : StackAllocator) (T : StackElemType) (amount : Nat)
    (hn : 0 < mulSizeT amount T.sizeofT) (ha : alignmentAsserts T.alignofT = true) :
    s.allocate T amount =
      if alignHead s.m_head T.alignofT + mulSizeT amount T.sizeofT > s.m_data + s.m_size then
        some (0, s)
      else if alignHead s.m_head T.alignofT = 0 then
        some (0, { s with
          m_head := alignHead s.m_head T.alignofT + mulSizeT amount T.sizeofT })
      else
        some (alignHead s.m_head T.alignofT,
          { s with
            m_head := alignHead s.m_head T.alignofT + mulSizeT amount T.sizeofT
            m_destructors := s.m_destructors ++
              newEntries T (alignHead s.m_head T.alignofT) amount }) := by
  unfold allocate allocateRaw
  rw [if_neg (by omega), if_neg (by rw [ha]; simp)]
  simp only
  by_cases hfull :
      alignHead s.m_head T.alignofT + mulSizeT amount T.sizeofT > s.m_data + s.m_size
  · rw [if_pos hfull, if_pos hfull]
    simp
  · rw [if_neg hfull, if_neg hfull]
    simp only
    by_cases hz : alignHead s.m_head T.alignofT = 0
    · rw [if_pos hz, if_pos hz]
    · rw [if_neg hz, if_neg hz, foldl_addDestructor]
      rfl

/-! ## The rewind of the stack allocator -/

theorem unwound_nil : unwound [] = [] := rfl

theorem unwound_concat (ds : List StackAllocatorDestructor) (d : StackAllocatorDestructor) :
    unwound (ds ++ [d]) = (if d.m_destructor then [d.m_data] else []) ++ unwound ds := by
  unfold unwound
  rw [List.reverse_append, List.reverse_singleton, List.singleton_append, List.filter_cons]
  by_cases hd : d.m_destructor = true
  · simp [hd]
  · simp [hd]

/-- When every entry has its function pointer set, the objects destroyed are the objects of
the entries, last entry first. -/
theorem unwound_of_set (ds : List StackAllocatorDestructor)
    (h : ∀ d ∈ ds, d.m_destructor = true) :
    unwound ds = ds.reverse.map (fun d => d.m_data) := by
  unfold unwound
  rw [List.filter_eq_self.mpr (fun d hd => h d (List.mem_reverse.mp hd))]

theorem popDestructor_concat (s : StackAllocator) (ds : List StackAllocatorDestructor)
    (d : StackAllocatorDestructor) (h : s.m_destructors = ds ++ [d]) :
    s.popDestructor =
      { s with
        m_destructors := ds
        destroyed := s.destroyed ++ if d.m_destructor then [d.m_data] else [] } := by
  unfold popDestructor
  rw [h, List.getLast?_concat]
  simp only [List.dropLast_concat]
  by_cases hd : d.m_destructor = true
  · simp [hd]
  · simp [hd]

/-- The loop of `deallocate` and `deallocateAll` ends, given as many rounds as there are
entries above `target`, with the first `target` entries left and the destructors of the
other entries run, last entry first. -/
theorem popLoop_spec (target : Nat) :
    ∀ (fuel : Nat) (s : StackAllocator), s.m_destructors.length ≤ target + fuel →
      popLoop target fuel s =
        { s with
          m_destructors := s.m_destructors.take target
          destroyed := s.destroyed ++ unwound (s.m_destructors.drop target) } := by
  intro fuel
  induction fuel with
  | zero =>
    intro s hlen
    rw [popLoop, List.take_of_length_le (by omega), List.drop_of_length_le (by omega),
      unwound_nil, List.append_nil]
  | succ fuel ih =>
    intro s hlen
    rw [popLoop]
    by_cases hgt : s.m_destructors.length > target
    · rw [if_pos hgt]
      rcases List.eq_nil_or_concat s.m_destructors with hnil | ⟨ds, d, hcat⟩
      · rw [hnil] at hgt
        simp at hgt
      · rw [List.concat_eq_append] at hcat
        have hlen' : ds.length + 1 = s.m_destructors.length := by rw [hcat]; simp
        rw [popDestructor_concat s ds d hcat, ih _ (by simp only; omega)]
        simp only
        rw [hcat, List.take_append_of_le_length (by omega),
          List.drop_append_of_le_length (by omega), unwound_concat, List.append_assoc]
    · rw [if_neg hgt, List.take_of_length_le (by omega), List.drop_of_length_le (by omega),
        unwound_nil, List.append_nil]

/-- `deallocate(marker)` for a marker that passes the three assertions. -/
theorem deallocate_eq (s : StackAllocator) (marker : StackAllocatorMarker)
    (h1 : s.m_data ≤ marker.m_head) (h2 : marker.m_head ≤ s.m_head)
    (h3 : marker.m_destructorsSize ≤ s.m_destructors.length) :
    s.deallocate marker =
      some { s with
        m_head := marker.m_head
        m_destructors := s.m_destructors.take marker.m_destructorsSize
        destroyed := s.destroyed ++ unwound (s.m_destructors.drop marker.m_destructorsSize) } := by
  unfold deallocate
  rw [if_neg (by omega), if_neg (by omega), if_neg (by omega),
    popLoop_spec _ _ s (by omega)]

/-- `deallocateAll` empties the destructor list, runs every destructor, last entry first,
and sets the head to the base. -/
theorem deallocateAll_eq (s : StackAllocator) :
    s.deallocateAll =
      { s with
        m_head := s.m_data
        m_destructors := []
        destroyed := s.destroyed ++ unwound s.m_destructors } := by
  unfold deallocateAll
  rw [popLoop_spec 0 _ s (by omega)]
  simp

theorem newEntries_set (T : StackElemType) (p amount : Nat) :
    ∀ d ∈ newEntries T p amount, d.m_destructor = true := by
  intro d hd
  unfold newEntries at hd
  by_cases ht : T.triviallyDestructible = true
  · simp [ht] at hd
  · rw [if_neg ht, List.mem_map] at hd
    obtain ⟨i, _, rfl⟩ := hd
    rfl

theorem newEntries_length (T : StackElemType) (p amount : Nat) :
    (newEntries T p amount).length = if T.triviallyDestructible then 0 else amount := by
  unfold newEntries
  by_cases ht : T.triviallyDestructible = true
  · simp [ht]
  · simp [ht]

/-- An `allocate<T>` that returns a pointer that is not null, for a power-of-two alignment:
the head does not go down and stays in the buffer, no destructor runs, and the entries
`newEntries` are appended. -/
theorem allocate_success (s s' : StackAllocator) (T : StackElemType) (amount p : Nat)
    (halign : ∃ k, T.alignofT = 2 ^ k) (hspace : s.m_head + T.alignofT < SIZE_MOD)
    (h : s.allocate T amount = some (p, s')) (hp : p ≠ 0) :
    s'.m_data = s.m_data ∧ s'.m_size = s.m_size ∧ s.m_head ≤ s'.m_head ∧
      s'.m_head ≤ s'.m_data + s'.m_size ∧ s'.destroyed = s.destroyed ∧
      s'.m_destructors = s.m_destructors ++ newEntries T p amount := by
  by_cases hn : 0 < mulSizeT amount T.sizeofT
  swap
  · rw [allocate_eq_none s T amount (Or.inl hn)] at h
    simp at h
  by_cases ha : alignmentAsserts T.alignofT = true
  swap
  · rw [allocate_eq_none s T amount (Or.inr (by simpa using ha))] at h
    simp at h
  obtain ⟨k, hk⟩ := halign
  have hk64 : k < 64 := by
    have : 2 ^ k < 2 ^ 64 := by rw [← size_mod_eq, ← hk]; omega
    exact (Nat.pow_lt_pow_iff_right (by norm_num)).mp this
  have hup : alignHead s.m_head T.alignofT = alignUp s.m_head T.alignofT := by
    rw [hk]
    exact alignHead_eq_alignUp s.m_head k hk64 (by rw [← hk]; omega)
  have hspec := alignUp_spec s.m_head T.alignofT ((alignmentAsserts_iff _).mp ha).1
  rw [allocate_of_asserts s T amount hn ha] at h
  by_cases hfull :
      alignHead s.m_head T.alignofT + mulSizeT amount T.sizeofT > s.m_data + s.m_size
  · rw [if_pos hfull] at h
    simp only [Option.some.injEq, Prod.mk.injEq] at h
    exact absurd h.1.symm hp
  · rw [if_neg hfull] at h
    by_cases hz : alignHead s.m_head T.alignofT = 0
    · rw [if_pos hz] at h
      simp only [Option.some.injEq, Prod.mk.injEq] at h
      exact absurd h.1.symm hp
    · rw [if_neg hz] at h
      simp only [Option.some.injEq, Prod.mk.injEq] at h
      obtain ⟨hp', hs'⟩ := h
      subst hs'
      subst hp'
      refine ⟨rfl, rfl, ?_, ?_, rfl, rfl⟩
      · show s.m_head ≤ alignHead s.m_head T.alignofT + mulSizeT amount T.sizeofT
        rw [hup]
        omega
      · show alignHead s.m_head T.alignofT + mulSizeT amount T.sizeofT ≤ s.m_data + s.m_size
        omega

/-- A sequence of `allocate<T>` calls that all return a pointer that is not null only
appends destructor entries, whose function pointers are set, and moves the head up within
the buffer. -/
theorem allocateAll_spec :
    ∀ (calls : List (StackElemType × Nat)) (s s' : StackAllocator),
      (∀ c ∈ calls, ∃ k, c.1.alignofT = 2 ^ k) →
      (∀ c ∈ calls, s.m_data + s.m_size + c.1.alignofT < SIZE_MOD) →
      s.m_head ≤ s.m_data + s.m_size →
      s.allocateAll calls = some s' →
      s'.m_data = s.m_data ∧ s'.m_size = s.m_size ∧ s.m_head ≤ s'.m_head ∧
        s'.m_head ≤ s'.m_data + s'.m_size ∧ s'.destroyed = s.destroyed ∧
        ∃ added, s'.m_destructors = s.m_destructors ++ added ∧
          ∀ d ∈ added, d.m_destructor = true := by
  intro calls
  induction calls with
  | nil =>
    intro s s' _ _ hhi h
    simp only [allocateAll, Option.some.injEq] at h
    subst h
    exact ⟨rfl, rfl, le_refl _, hhi, rfl, [], by simp, by simp⟩
  | cons c rest ih =>
    intro s s' halign hspace hhi h
    obtain ⟨T, amount⟩ := c
    rw [allocateAll] at h
    cases hal : s.allocate T amount with
    | none => rw [hal] at h; simp at h
    | some r =>
      obtain ⟨p, s1⟩ := r
      rw [hal] at h
      simp only at h
      by_cases hp : p = 0
      · rw [if_pos hp] at h
        simp at h
      · rw [if_neg hp] at h
        have hsp := hspace (T, amount) (List.mem_cons_self _ _)
        obtain ⟨h1, h2, h3, h4, h5, h6⟩ := allocate_success s s1 T amount p
          (halign (T, amount) (List.mem_cons_self _ _)) (by simp only at hsp; omega) hal hp
        obtain ⟨g1, g2, g3, g4, g5, added, g6, g7⟩ := ih s1 s'
          (fun c hc => halign c (List.mem_cons_of_mem _ hc))
          (fun c hc => by rw [h1, h2]; exact hspace c (List.mem_cons_of_mem _ hc)) h4 h
        refine ⟨g1.trans h1, g2.trans h2, le_trans h3 g3, g4, g5.trans h5,
          newEntries T p amount ++ added, ?_, ?_⟩
        · rw [g6, h6, List.append_assoc]
        · intro d hd
          rcases List.mem_append.mp hd with hd | hd
          · exact newEntries_set T p amount d hd
          · exact g7 d hd

/-- The placement of `allocate<T>` for an alignment `2 ^ (k + 1)`, a head in the buffer and
a positive byte count: the mask computation gives the least multiple `r` of the alignment
that is not below the head, so `r - head < alignment`; the pointer returned is null exactly
when `r + n` exceeds the end of the buffer, and then the state is unchanged; otherwise the
pointer is `r`, the head becomes `r + n`, and one destructor entry per object is appended
for a type that is not trivially destructible, none for one that is. -/
theorem allocate_placement (s : StackAllocator) (T : StackElemType) (amount k : Nat)
    (hk : T.alignofT = 2 ^ (k + 1)) (hbase : 0 < s.m_data) (hlo : s.m_data ≤ s.m_head)
    (hhi : s.m_head ≤ s.m_data + s.m_size)
    (hspace : s.m_data + s.m_size + T.alignofT < SIZE_MOD)
    (hn : 0 < mulSizeT amount T.sizeofT) :
    (T.alignofT ∣ alignHead s.m_head T.alignofT ∧ s.m_head ≤ alignHead s.m_head T.alignofT ∧
        alignHead s.m_head T.alignofT - s.m_head < T.alignofT ∧
        ∀ r, T.alignofT ∣ r → s.m_head ≤ r → alignHead s.m_head T.alignofT ≤ r) ∧
      ∃ p s', s.allocate T amount = some (p, s') ∧
        (p = 0 ↔
          alignHead s.m_head T.alignofT + mulSizeT amount T.sizeofT > s.m_data + s.m_size) ∧
        (p = 0 → s' = s) ∧
        (p ≠ 0 →
          p = alignHead s.m_head T.alignofT ∧
            s' = { s with
              m_head := alignHead s.m_head T.alignofT + mulSizeT amount T.sizeofT
              m_destructors := s.m_destructors ++ newEntries T p amount } ∧
            (newEntries T p amount).length =
              if T.triviallyDestructible then 0 else amount) := by
  have ha : alignmentAsserts T.alignofT = true := by rw [hk]; exact alignmentAsserts_pow_two k
  have hk64 : k + 1 < 64 := by
    have : 2 ^ (k + 1) < 2 ^ 64 := by rw [← size_mod_eq, ← hk]; omega
    exact (Nat.pow_lt_pow_iff_right (by norm_num)).mp this
  have hup : alignHead s.m_head T.alignofT = alignUp s.m_head T.alignofT := by
    rw [hk]
    exact alignHead_eq_alignUp s.m_head (k + 1) hk64 (by rw [← hk]; omega)
  have hspec := alignUp_spec s.m_head T.alignofT ((alignmentAsserts_iff _).mp ha).1
  rw [← hup] at hspec
  refine ⟨hspec, ?_⟩
  rw [allocate_of_asserts s T amount hn ha]
  have hnz : alignHead s.m_head T.alignofT ≠ 0 := by omega
  by_cases hfull :
      alignHead s.m_head T.alignofT + mulSizeT amount T.sizeofT > s.m_data + s.m_size
  · rw [if_pos hfull]
    exact ⟨0, s, rfl, ⟨fun _ => hfull, fun _ => rfl⟩, fun _ => rfl, fun h => absurd rfl h⟩
  · rw [if_neg hfull, if_neg hnz]
    exact ⟨_, _, rfl, ⟨fun h => absurd h hnz, fun h => absurd h hfull⟩,
      fun h => absurd h hnz, fun _ => ⟨rfl, rfl, newEntries_length _ _ _⟩⟩

/-- C15. For a byte-sized type, whose alignment is the power of two 1, the mask computation
gives the head itself, but `allocate<T>` has no result in any state and for any count: the
assertion `alignment % 2 == 0` of the private `allocate` fails. -/
theorem allocate_byte_aborts :
    Byte.alignofT = 2 ^ 0 ∧ alignHead stack1024.m_head Byte.alignofT = stack1024.m_head ∧
      alignmentAsserts Byte.alignofT = false ∧
      stack1024.allocateRaw (mulSizeT 1 Byte.sizeofT) Byte.alignofT = none ∧
      stack1024.allocate Byte 1 = none ∧
      (∀ (s : StackAllocator) (amount : Nat), s.allocate Byte amount = none) :=
  ⟨by decide, by decide, by decide, by decide, by decide,
    fun s amount => allocate_eq_none s Byte amount (Or.inr (by decide))⟩

/-- C16. The assertions on the alignment pass exactly for the positive even values: they
fail for 1, which is the power of two `2 ^ 0` and the default argument of the private
`allocate`, and they pass for 6 and 12, which are not powers of two; they pass for every
`2 ^ (k + 1)` and fail for zero and for every odd value. -/
theorem alignment_asserts_even :
    alignmentAsserts (2 ^ 0) = false ∧ stack1024.allocateRaw 1 1 = none ∧
      alignmentAsserts 6 = true ∧ alignmentAsserts 12 = true ∧
      stack1024.allocateRaw 1 6 = some (4096, { stack1024 with m_head := 4097 }) ∧
      alignmentAsserts 0 = false ∧
      (∀ a, alignmentAsserts a = true ↔ 0 < a ∧ a % 2 = 0) ∧
      (∀ k, alignmentAsserts (2 ^ (k + 1)) = true) :=
  ⟨by decide, by decide, by decide, by decide, by decide, by decide, alignmentAsserts_iff,
    alignmentAsserts_pow_two⟩

set_option maxRecDepth 100000 in
/-- C14. For the marker taken in a state `s₀` whose head lies in the buffer, and the state
`s` after any sequence of later `allocate<T>` calls that all return a pointer that is not
null (alignments being powers of two, addresses fitting `size_t`): the destructor list of
`s` is that of `s₀` followed by the entries added since, no destructor has run in between,
and `deallocate(marker)` sets the head to the head of `s₀`, cuts the destructor list back to
that of `s₀` and runs the destructors of exactly the added entries, each once, last entry
first. `deallocate(getMarker())` changes nothing. In scenario S7 `deallocate(marker)`
leaves 10 entries and runs the 5 destructors of the later objects from the top down, and
`deallocateAll` then runs the other 10, from the top down. -/
theorem deallocate_marker_rewinds (s₀ s : StackAllocator)
    (calls : List (StackElemType × Nat))
    (hlo : s₀.m_data ≤ s₀.m_head) (hhi : s₀.m_head ≤ s₀.m_data + s₀.m_size)
    (halign : ∀ c ∈ calls, ∃ k, c.1.alignofT = 2 ^ k)
    (hspace : ∀ c ∈ calls, s₀.m_data + s₀.m_size + c.1.alignofT < SIZE_MOD)
    (hrun : s₀.allocateAll calls = some s) :
    s₀.deallocate s₀.getMarker = some s₀ ∧
      s.destroyed = s₀.destroyed ∧
      (∃ added, s.m_destructors = s₀.m_destructors ++ added ∧
        (∀ d ∈ added, d.m_destructor = true) ∧
        s.deallocate s₀.getMarker =
          some { s with
            m_head := s₀.m_head
            m_destructors := s₀.m_destructors
            destroyed := s₀.destroyed ++ added.reverse.map (fun d => d.m_data) }) ∧
      markerS7 = some ⟨4096 + 640, 10⟩ ∧
      rewoundS7.map (fun r => (r.m_head, r.m_destructors.length, r.destroyed)) =
        some (4096 + 640, 10, [4992, 4928, 4864, 4800, 4736]) ∧
      rewoundS7.map (fun r => (r.deallocateAll.m_head, r.deallocateAll.m_destructors,
          r.deallocateAll.destroyed)) =
        some (4096, [], [4992, 4928, 4864, 4800, 4736,
          4672, 4608, 4544, 4480, 4416, 4352, 4288, 4224, 4160, 4096]) := by
  obtain ⟨h1, h2, h3, h4, h5, added, h6, h7⟩ := allocateAll_spec calls s₀ s halign hspace hhi hrun
  refine ⟨?_, h5, ⟨added, h6, h7, ?_⟩, by decide, by decide, by decide⟩
  · rw [deallocate_eq s₀ s₀.getMarker hlo (le_refl _) (le_refl _)]
    unfold getMarker
    simp only [List.take_length, List.drop_length, unwound_nil, List.append_nil]
  · rw [deallocate_eq s s₀.getMarker (by rw [h1]; exact hlo) h3
      (by unfold getMarker; rw [h6]; simp)]
    unfold getMarker
    simp only
    rw [h6, List.take_left, List.drop_left, unwound_of_set added h7, h5]

set_option maxRecDepth 100000 in
theorem deallocate_marker_rewinds_witness :
    (stack1024.m_data ≤ stack1024.m_head ∧
        stack1024.m_head ≤ stack1024.m_data + stack1024.m_size ∧
        (∀ c ∈ [(Object64, 10)], stack1024.m_data + stack1024.m_size + c.1.alignofT < SIZE_MOD) ∧
        stack1024.allocateAll [(Object64, 10)] = some tenObjects) ∧
      stack1024.deallocate stack1024.getMarker = some stack1024 ∧
      ∃ added, tenObjects.m_destructors = stack1024.m_destructors ++ added ∧
        (∀ d ∈ added, d.m_destructor = true) ∧
        tenObjects.deallocate stack1024.getMarker =
          some { tenObjects with
            m_head := stack1024.m_head
            m_destructors := stack1024.m_destructors
            destroyed := stack1024.destroyed ++ added.reverse.map (fun d => d.m_data) } :=
  ⟨⟨by decide, by decide, by decide, by decide⟩,
    (deallocate_marker_rewinds stack1024 tenObjects [(Object64, 10)] (by decide) (by decide)
      (fun c hc => by
        rw [List.mem_singleton] at hc
        subst hc
        exact ⟨3, rfl⟩)
      (by decide) (by decide)).1,
    (deallocate_marker_rewinds stack1024 tenObjects [(Object64, 10)] (by decide) (by decide)
      (fun c hc => by
        rw [List.mem_singleton] at hc
        subst hc
        exact ⟨3, rfl⟩)
      (by decide) (by decide)).2.2.1⟩

end StackAllocator

namespace PoolAllocator

/-! ## The free list of the pool allocator -/

theorem slot_injective {base chunkSize i j : Nat} (hchunk : 0 < chunkSize)
    (h : slot base chunkSize i = slot base chunkSize j) : i = j := by
  unfold slot at h
  exact Nat.eq_of_mul_eq_mul_right hchunk (Nat.add_left_cancel h)

theorem slot_ne_zero {base chunkSize i : Nat} (hbase : 0 < base) :
    slot base chunkSize i ≠ 0 := by
  unfold slot
  omega

/-- The linking loop of the constructor, after `n` rounds: the slots below `n` point to
their successors. -/
theorem linked_apply (base chunkSize : Nat) (hchunk : 0 < chunkSize) (init : Nat → Nat) :
    ∀ n i, i < n →
      (List.range n).foldl
          (fun next i => setNext next (slot base chunkSize i) (slot base chunkSize (i + 1)))
          init (slot base chunkSize i) =
        slot base chunkSize (i + 1) := by
  intro n
  induction n with
  | zero => intro i hi; omega
  | succ n ih =>
    intro i hi
    rw [List.range_succ, List.foldl_append, List.foldl_cons, List.foldl_nil]
    unfold setNext
    by_cases hin : i = n
    · subst hin
      rw [if_pos rfl]
    · rw [if_neg (fun h => hin (slot_injective hchunk h))]
      exact ih i (by omega)

/-- In a fresh pool of `size` slots every slot but the last points to the next slot and the
last slot holds `nullptr`. -/
theorem create_next (base chunkSize size : Nat) (hsize : 1 ≤ size) (hlt : size < SIZE_MOD)
    (hchunk : 0 < chunkSize) :
    (∀ i, i + 1 < size →
        (create base chunkSize size).next (slot base chunkSize i) =
          slot base chunkSize (i + 1)) ∧
      (create base chunkSize size).next (slot base chunkSize (size - 1)) = 0 := by
  have hsub : subSizeT size 1 = size - 1 := by
    unfold subSizeT
    simp only [SIZE_MOD] at *
    omega
  unfold create
  simp only [hsub]
  constructor
  · intro i hi
    unfold setNext
    rw [if_neg (fun h => by have := slot_injective hchunk h; omega)]
    exact linked_apply base chunkSize hchunk _ (size - 1) i (by omega)
  · unfold setNext
    rw [if_pos rfl]

/-- Whether a list is the free list depends only on the `next` members of its slots. -/
theorem isFreeList_congr {next next' : Nat → Nat} :
    ∀ (l : List Nat) (p : Nat), (∀ a ∈ l, next a = next' a) →
      IsFreeList next p l → IsFreeList next' p l := by
  intro l
  induction l with
  | nil => intro p _ h; exact h
  | cons a rest ih =>
    intro p heq h
    obtain ⟨h1, h2, h3⟩ := h
    refine ⟨h1, h2, ?_⟩
    rw [← heq a (List.mem_cons_self _ _)]
    exact ih _ (fun b hb => heq b (List.mem_cons_of_mem _ hb)) h3

/-- The free list of a fresh pool from slot `i` on. -/
theorem isFreeList_create (base chunkSize size : Nat) (hsize : 1 ≤ size)
    (hlt : size < SIZE_MOD) (hbase : 0 < base) (hchunk : 0 < chunkSize) :
    ∀ n i, i + (n + 1) = size →
      IsFreeList (create base chunkSize size).next (slot base chunkSize i)
        (slotsFrom base chunkSize i (n + 1)) := by
  obtain ⟨hnext, hlast⟩ := create_next base chunkSize size hsize hlt hchunk
  intro n
  induction n with
  | zero =>
    intro i hi
    have : i = size - 1 := by omega
    subst this
    exact ⟨rfl, slot_ne_zero hbase, hlast⟩
  | succ n ih =>
    intro i hi
    refine ⟨rfl, slot_ne_zero hbase, ?_⟩
    rw [hnext i (by omega)]
    exact ih (i + 1) (by omega)

theorem mem_slotsFrom {base chunkSize : Nat} :
    ∀ (n i a : Nat), a ∈ slotsFrom base chunkSize i n →
      ∃ j, i ≤ j ∧ j < i + n ∧ a = slot base chunkSize j := by
  intro n
  induction n with
  | zero => intro i a h; simp [slotsFrom] at h
  | succ n ih =>
    intro i a h
    rw [slotsFrom, List.mem_cons] at h
    rcases h with h | h
    · exact ⟨i, le_refl _, by omega, h⟩
    · obtain ⟨j, h1, h2, h3⟩ := ih (i + 1) a h
      exact ⟨j, by omega, by omega, h3⟩

theorem slotsFrom_length (base chunkSize : Nat) :
    ∀ n i, (slotsFrom base chunkSize i n).length = n := by
  intro n
  induction n with
  | zero => intro i; rfl
  | succ n ih => intro i; rw [slotsFrom, List.length_cons, ih]

theorem slotsFrom_nodup (base chunkSize : Nat) (hchunk : 0 < chunkSize) :
    ∀ n i, (slotsFrom base chunkSize i n).Nodup := by
  intro n
  induction n with
  | zero => intro i; exact List.nodup_nil
  | succ n ih =>
    intro i
    rw [slotsFrom, List.nodup_cons]
    refine ⟨fun h => ?_, ih (i + 1)⟩
    obtain ⟨j, h1, _, h3⟩ := mem_slotsFrom n (i + 1) _ h
    have := slot_injective hchunk h3
    omega

/-! ## The pool round trip -/

/-- `allocate` on a free list without repetition pops its first slot. -/
theorem allocate_cons (s : PoolAllocator) (object a : Nat) (l : List Nat)
    (h : IsFreeList s.next s.m_head (a :: l)) (ha : a ∉ l) :
    (s.allocate object).1 = a ∧
      IsFreeList (s.allocate object).2.next (s.allocate object).2.m_head l := by
  obtain ⟨h1, h2, h3⟩ := h
  unfold allocate
  rw [if_neg (by rw [h1]; exact h2)]
  refine ⟨h1, ?_⟩
  show IsFreeList (setNext s.next s.m_head object) (s.next s.m_head) l
  rw [h1]
  refine isFreeList_congr l _ (fun b hb => ?_) h3
  unfold setNext
  rw [if_neg (fun hba : b = a => ha (hba ▸ hb))]

/-- `allocate` on an empty free list returns `nullptr` and changes nothing. -/
theorem allocate_nil (s : PoolAllocator) (object : Nat) (h : IsFreeList s.next s.m_head []) :
    s.allocate object = (0, s) := by
  have h0 : s.m_head = 0 := h
  unfold allocate
  rw [if_pos h0]

/-- `deallocate` pushes a slot that is not in the free list onto it. -/
theorem deallocate_cons (s : PoolAllocator) (p : Nat) (l : List Nat)
    (h : IsFreeList s.next s.m_head l) (hp : p ≠ 0) (hpl : p ∉ l) :
    IsFreeList (s.deallocate p).next (s.deallocate p).m_head (p :: l) := by
  unfold deallocate
  rw [if_neg hp]
  refine ⟨rfl, hp, ?_⟩
  show IsFreeList (setNext s.next p s.m_head) (setNext s.next p s.m_head p) l
  have hself : setNext s.next p s.m_head p = s.m_head := by
    unfold setNext
    rw [if_pos rfl]
  rw [hself]
  refine isFreeList_congr l _ (fun b hb => ?_) h
  unfold setNext
  rw [if_neg (fun hbp : b = p => hpl (hbp ▸ hb))]

/-- As many `allocate` calls as the free list has slots, or fewer, return its slots in
order. -/
theorem allocateMany_spec :
    ∀ (objects : List Nat) (s : PoolAllocator) (l : List Nat),
      IsFreeList s.next s.m_head l → l.Nodup → objects.length ≤ l.length →
      (s.allocateMany objects).1 = l.take objects.length ∧
        IsFreeList (s.allocateMany objects).2.next (s.allocateMany objects).2.m_head
          (l.drop objects.length) := by
  intro objects
  induction objects with
  | nil => intro s l h _ _; exact ⟨rfl, h⟩
  | cons object rest ih =>
    intro s l h hnd hlen
    cases l with
    | nil => simp at hlen
    | cons a l' =>
      obtain ⟨hnot, hnd'⟩ := List.nodup_cons.mp hnd
      obtain ⟨hfst, hchain⟩ := allocate_cons s object a l' h hnot
      obtain ⟨ih1, ih2⟩ := ih (s.allocate object).2 l' hchain hnd'
        (by simp only [List.length_cons] at hlen; omega)
      refine ⟨?_, ih2⟩
      show (s.allocate object).1 :: ((s.allocate object).2.allocateMany rest).1 = _
      rw [hfst, ih1]
      rfl

/-- Deallocating slots that are not null, not in the free list and pairwise distinct puts
them in front of the free list, the last one first. -/
theorem deallocateMany_spec :
    ∀ (ptrs : List Nat) (s : PoolAllocator) (l : List Nat),
      IsFreeList s.next s.m_head l → (∀ p ∈ ptrs, p ≠ 0) → (ptrs ++ l).Nodup →
      IsFreeList (s.deallocateMany ptrs).next (s.deallocateMany ptrs).m_head
        (ptrs.reverse ++ l) := by
  intro ptrs
  induction ptrs with
  | nil => intro s l h _ _; exact h
  | cons p rest ih =>
    intro s l h hnz hnd
    rw [List.cons_append, List.nodup_cons] at hnd
    obtain ⟨hp, hnd'⟩ := hnd
    have hpl : p ∉ l := fun hmem => hp (List.mem_append_right _ hmem)
    have hprest : p ∉ rest := fun hmem => hp (List.mem_append_left _ hmem)
    have hchain := deallocate_cons s p l h (hnz p (List.mem_cons_self _ _)) hpl
    have hnd2 : (rest ++ p :: l).Nodup := by
      rw [List.nodup_append] at hnd' ⊢
      refine ⟨hnd'.1, List.nodup_cons.mpr ⟨hpl, hnd'.2.1⟩, ?_⟩
      intro a ha hb
      rcases List.mem_cons.mp hb with hb | hb
      · exact hprest (hb ▸ ha)
      · exact hnd'.2.2 ha hb
    have := ih (s.deallocate p) (p :: l) hchain
      (fun q hq => hnz q (List.mem_cons_of_mem _ hq)) hnd2
    rw [List.reverse_cons, List.append_assoc]
    exact this

/-- C17. For a pool of `N >= 1` slots (at a base address that is not null, slots of at
least one byte): `N` `allocate` calls on the fresh pool return the `N` slots, all not null
and pairwise distinct; after these pointers are deallocated in any order, each once, `N`
further `allocate` calls again return `N` pointers that are not null and pairwise distinct
(the same slots, in the reverse of the order in which they were deallocated), and the next
`allocate` returns `nullptr`. -/
theorem pool_round_trip (base chunkSize N : Nat) (objects objects' order : List Nat)
    (object : Nat) (hN : 1 ≤ N) (hlt : N < SIZE_MOD) (hbase : 0 < base)
    (hchunk : 0 < chunkSize) (h1 : objects.length = N) (h2 : objects'.length = N)
    (hperm : order.Perm ((create base chunkSize N).allocateMany objects).1) :
    (((create base chunkSize N).allocateMany objects).1 = slotsFrom base chunkSize 0 N ∧
        ((create base chunkSize N).allocateMany objects).1.length = N ∧
        (∀ p ∈ ((create base chunkSize N).allocateMany objects).1, p ≠ 0) ∧
        ((create base chunkSize N).allocateMany objects).1.Nodup) ∧
      ((((create base chunkSize N).allocateMany objects).2.deallocateMany
            order).allocateMany objects').1 = order.reverse ∧
      ((((create base chunkSize N).allocateMany objects).2.deallocateMany
            order).allocateMany objects').1.length = N ∧
      (∀ p ∈ ((((create base chunkSize N).allocateMany objects).2.deallocateMany
            order).allocateMany objects').1, p ≠ 0) ∧
      ((((create base chunkSize N).allocateMany objects).2.deallocateMany
            order).allocateMany objects').1.Nodup ∧
      (((((create base chunkSize N).allocateMany objects).2.deallocateMany
            order).allocateMany objects').2.allocate object).1 = 0 := by
  obtain ⟨n, rfl⟩ : ∃ n, N = n + 1 := ⟨N - 1, by omega⟩
  have hfresh : IsFreeList (create base chunkSize (n + 1)).next
      (create base chunkSize (n + 1)).m_head (slotsFrom base chunkSize 0 (n + 1)) := by
    have := isFreeList_create base chunkSize (n + 1) hN hlt hbase hchunk n 0 (by omega)
    have hhead : (create base chunkSize (n + 1)).m_head = slot base chunkSize 0 := by
      unfold create slot
      simp
    rw [hhead]
    exact this
  have hlen := slotsFrom_length base chunkSize (n + 1) 0
  have hnd := slotsFrom_nodup base chunkSize hchunk (n + 1) 0
  have hnz : ∀ p ∈ slotsFrom base chunkSize 0 (n + 1), p ≠ 0 := by
    intro p hp
    obtain ⟨j, _, _, rfl⟩ := mem_slotsFrom (n + 1) 0 p hp
    exact slot_ne_zero hbase
  obtain ⟨hfirst, hempty⟩ := allocateMany_spec objects (create base chunkSize (n + 1))
    (slotsFrom base chunkSize 0 (n + 1)) hfresh hnd (by rw [hlen, h1])
  rw [List.take_of_length_le (by rw [hlen, h1])] at hfirst
  rw [List.drop_of_length_le (by rw [hlen, h1])] at hempty
  rw [hfirst] at hperm ⊢
  have hordnd : order.Nodup := hperm.nodup_iff.mpr hnd
  have hordnz : ∀ p ∈ order, p ≠ 0 := fun p hp => hnz p (hperm.mem_iff.mp hp)
  have hordlen : order.length = n + 1 := by rw [hperm.length_eq, hlen]
  have hback := deallocateMany_spec order
    ((create base chunkSize (n + 1)).allocateMany objects).2 [] hempty hordnz
    (by rw [List.append_nil]; exact hordnd)
  rw [List.append_nil] at hback
  obtain ⟨hsecond, hempty'⟩ := allocateMany_spec objects'
    ((((create base chunkSize (n + 1)).allocateMany objects).2).deallocateMany order)
    order.reverse hback (List.nodup_reverse.mpr hordnd)
    (by rw [List.length_reverse, hordlen, h2])
  have hrl : order.reverse.length ≤ objects'.length := by
    rw [List.length_reverse, hordlen, h2]
  rw [List.take_of_length_le hrl] at hsecond
  rw [List.drop_of_length_le hrl] at hempty'
  refine ⟨⟨rfl, hlen, hnz, hnd⟩, hsecond, ?_, ?_, ?_, ?_⟩
  · rw [hsecond, List.length_reverse, hordlen]
  · intro p hp
    rw [hsecond] at hp
    exact hordnz p (List.mem_reverse.mp hp)
  · rw [hsecond]
    exact List.nodup_reverse.mpr hordnd
  · rw [allocate_nil _ object hempty']

set_option maxRecDepth 100000 in
theorem pool_round_trip_witness :
    ([4168, 4096, 4240].Perm (pool3.allocateMany [7, 8, 9]).1) ∧
      (pool3.allocateMany [7, 8, 9]).1 = slotsFrom 4096 72 0 3 ∧
      (((pool3.allocateMany [7, 8, 9]).2.deallocateMany [4168, 4096, 4240]).allocateMany
        [1, 2, 3]).1 = [4240, 4096, 4168] ∧
      ((((pool3.allocateMany [7, 8, 9]).2.deallocateMany [4168, 4096, 4240]).allocateMany
        [1, 2, 3]).2.allocate 5).1 = 0 :=
  ⟨by decide,
    (pool_round_trip 4096 72 3 [7, 8, 9] [1, 2, 3] [4168, 4096, 4240] 5 (by decide) (by decide)
      (by decide) (by decide) rfl rfl (by decide)).1.1,
    (pool_round_trip 4096 72 3 [7, 8, 9] [1, 2, 3] [4168, 4096, 4240] 5 (by decide) (by decide)
      (by decide) (by decide) rfl rfl (by decide)).2.1,
    (pool_round_trip 4096 72 3 [7, 8, 9] [1, 2, 3] [4168, 4096, 4240] 5 (by decide) (by decide)
      (by decide) (by decide) rfl rfl (by decide)).2.2.2.2.2⟩

end PoolAllocator

end ArenaAllocators
